import Mathlib

/-!
# zsl: hash table, dynamic array, arena, pool allocator, tagged pointer and mutex

A shallow embedding of `zsl::HashMap` (`include/zsl/hash_map.h`), of
`ArrayList::copy` (`include/zsl/array_list.h`), of the arena and the pool
allocator (`src/memory.cpp`), of the tagged pointer (`include/zsl/atomics.h`),
of `Mutex::tryLock` (`src/os_linux.cpp`) and of the helpers of `core.h` they
use, followed by the properties proved about them.

Modelling conventions.

* `size_t` is a 64-bit word; arithmetic that can wrap is written with an
  explicit `% SIZE_MOD`.
* `Record* data` is a function from slot index to record.  Memory handed out by
  the allocator is an arbitrary such function (`mem`), so nothing is assumed
  about the key and value of a slot that was never written.
* The hash function is the template parameter `hasher`; keys are compared with
  `==` (`defaultCompare`).
* `while(true)` loops take a fuel argument and return `none` when it runs out.
  A failed `ZSL_ASSERT` aborts the program and is also `none`.
* `(double)value / capacity > MAX_LOAD_FACTOR` is evaluated exactly as IEEE
  binary64 does for a power-of-two capacity (`loadExceeds`).
* Results that say a call returns are stated for tables that can hold the
  records in question (`Fits`): the doubling of `reserve` has no guard against
  wrapping, and `Fits` is exactly the condition under which it stops before
  it wraps.  Every table with the invariants and a capacity up to `2^62` can
  hold one more record (`fits_of_capacity`).
* The array that `realloc` hands to `rehash` is the old array with its records,
  at every capacity up to `2^63`: the allocator of the table and the byte count
  `capacity * sizeof(Record)` are not modelled.  What is proved about the
  return of `optimize` sets apart the runs that arrive at capacity `2^63`,
  where `capacity << 1` is 0; no machine holds such a table.
* Memory is the value held at each address; a pointer is its address and
  pointer arithmetic wraps like `size_t`.  Results about addresses are stated
  for calls whose addresses do not wrap.
* The allocators and the tagged pointer are modelled for a run without other
  threads: a compare-and-swap finds the value that was just loaded.
* `walkBody`, `walkSteps`, `rehashStepSteps` and `rehashLoopSteps` are the walk
  and the main loop of `rehash` once more, with a count of the iterations of
  the walk; `clearGravestonesRun` is the loop of `clearGravestones` once more,
  returning the state after a given number of iterations; `displacement` and
  `collisionSum` are the collision score as the documentation defines it, to
  compare `getCollisionScore` with.
-/

set_option linter.unusedSectionVars false
set_option linter.unusedVariables false

namespace zsl

/-! ## core.h -/

/-- The number of values of a `size_t`. -/
def SIZE_MOD : Nat := 2 ^ 64

/-- `BIT_MODULO(value, pow)` is `(value) & ((pow) - 1)`, the subtraction being
on `size_t`. -/
def BIT_MODULO (value pow : Nat) : Nat :=
  value &&& ((pow + (SIZE_MOD - 1)) % SIZE_MOD)

/-- The number of significant bits of `x` (at most `fuel` of them). -/
def bitLength : Nat → Nat → Nat
  | 0, _ => 0
  | fuel + 1, x => if x = 0 then 0 else bitLength fuel (x / 2) + 1

/-- `__builtin_clzl(x)` for a nonzero 64-bit `x`: the number of leading zero
bits. -/
def clzl (x : Nat) : Nat := 64 - bitLength 64 x

/-- `nextPow2(uint64_t v)`, in the configuration with `__builtin_clzl`.
The two assertions abort on `v == 0` and on `v > 2^63`. -/
def nextPow2 (v : Nat) : Option Nat :=
  if v = 0 then none
  else if v > 1 <<< 63 then none
  else if v = 1 then some 1
  else some ((1 <<< (64 - clzl (v - 1))) % SIZE_MOD)

/-- `isPow2(value)`: `value && !(value & (value - 1))`. -/
def isPow2 (value : Nat) : Bool :=
  value ≠ 0 && (value &&& ((value + (SIZE_MOD - 1)) % SIZE_MOD)) = 0

/-! ## hash_map.h: data -/

/-- `HashMap::RecordType`. -/
inductive RecordType where
  | UNUSED
  | DELETED
  | OCCUPIED
  | PLACED
  deriving DecidableEq, Repr

/-- `HashMap::Record`. -/
structure Record (K V : Type) where
  key : K
  value : V
  type : RecordType

/-- `HashMap`: the fields `capacity`, `size` and `data`. -/
structure HashMap (K V : Type) where
  capacity : Nat
  size : Nat
  data : Nat → Record K V

/-- `MIN_CAPACITY`. -/
def MIN_CAPACITY : Nat := 16

/-- The significand of the `double` written `0.7`: the literal denotes
`MAX_LOAD_NUM / 2^52` (bit pattern `0x3FE6666666666666`). -/
def MAX_LOAD_NUM : Nat := 3152519739159347

/-- `(double)value` for a `size_t`, as the integer it denotes: values below
`2^53` are exact, larger ones are rounded to 53 significant bits, ties to
even. -/
def toDouble (value : Nat) : Nat :=
  if value < 2 ^ 53 then value
  else
    let e := bitLength 64 value - 53
    let q := value / 2 ^ e
    let r := value % 2 ^ e
    if r > 2 ^ (e - 1) ∨ (r = 2 ^ (e - 1) ∧ q % 2 = 1) then (q + 1) * 2 ^ e
    else q * 2 ^ e

/-- `(double)value / capacity > MAX_LOAD_FACTOR`.  Dividing by a power of two is
exact; dividing a positive number by zero gives `+inf`, and `0.0 / 0` is a NaN,
which compares false. -/
def loadExceeds (value capacity : Nat) : Bool :=
  if capacity = 0 then decide (0 < value)
  else decide (MAX_LOAD_NUM * capacity < toDouble value * 2 ^ 52)

/-- Writing `r` to `data[i]`. -/
def store {K V : Type} (d : Nat → Record K V) (i : Nat) (r : Record K V) :
    Nat → Record K V :=
  fun j => if j = i then r else d j

/-- The record `r` with its `type` field set to `t`; `data[i].type = t` is
`store data i ((data i).withType t)`. -/
def Record.withType {K V : Type} (r : Record K V) (t : RecordType) : Record K V :=
  { r with type := t }

section HashMapOps

variable {K V : Type} [DecidableEq K] (hasher : K → Nat)

/-- The loop of `clear()`: `for(i = 0; i < n; i++) data[i].type = UNUSED`. -/
def clearLoop : Nat → HashMap K V → HashMap K V
  | 0, m => m
  | n + 1, m =>
    let m1 := clearLoop n m
    { m1 with data := store m1.data n ((m1.data n).withType .UNUSED) }

/-- `HashMap::clear`. -/
def clear (m : HashMap K V) : HashMap K V := clearLoop m.capacity m

/-- `HashMap::init(initial)`; `mem` is the block returned by `alloc`. -/
def init (mem : Nat → Record K V) (initial : Nat) : Option (HashMap K V) :=
  match nextPow2 (max initial MIN_CAPACITY) with
  | none => none
  | some c => some (clear { capacity := c, size := 0, data := mem })

/-- `HashMap::getLoadFactor() > MAX_LOAD_FACTOR`, the test of `mapSanityCheck`. -/
def overloaded (m : HashMap K V) : Bool := loadExceeds m.size m.capacity

/-- `HashMap::getHash`. -/
def getHash (m : HashMap K V) (key : K) : Nat :=
  BIT_MODULO (hasher key) m.capacity

/-- The loop of `getRecord`, entered with index `i`.  `some none` is `nullptr`,
`some (some j)` is `&data[j]`. -/
def getRecordLoop (m : HashMap K V) (key : K) (hash : Nat) :
    Nat → Nat → Option (Option Nat)
  | 0, _ => none
  | fuel + 1, i =>
    if (m.data i).type = .UNUSED then some none
    else if (m.data i).type = .OCCUPIED ∧ (m.data i).key = key then some (some i)
    else if BIT_MODULO (i + 1) m.capacity = hash then some none
    else getRecordLoop m key hash fuel (BIT_MODULO (i + 1) m.capacity)

/-- `HashMap::getRecord` run for at most `fuel` iterations. -/
def getRecordFuel (fuel : Nat) (m : HashMap K V) (key : K) : Option (Option Nat) :=
  getRecordLoop m key (getHash hasher m key) fuel (getHash hasher m key)

/-- `HashMap::getRecord`. -/
def getRecord (m : HashMap K V) (key : K) : Option (Option Nat) :=
  getRecordFuel hasher m.capacity m key

/-- `HashMap::has`. -/
def has (m : HashMap K V) (key : K) : Option Bool :=
  (getRecord hasher m key).map Option.isSome

/-- The loop of `getUnusedRecord`, entered with index `i`. -/
def getUnusedRecordLoop (m : HashMap K V) : Nat → Nat → Option Nat
  | 0, _ => none
  | fuel + 1, i =>
    if (m.data i).type ≠ .OCCUPIED then some i
    else getUnusedRecordLoop m fuel (BIT_MODULO (i + 1) m.capacity)

/-- `HashMap::getUnusedRecord` run for at most `fuel` iterations. -/
def getUnusedRecordFuel (fuel : Nat) (m : HashMap K V) (key : K) : Option Nat :=
  getUnusedRecordLoop m fuel (getHash hasher m key)

/-- `HashMap::getUnusedRecord`. -/
def getUnusedRecord (m : HashMap K V) (key : K) : Option Nat :=
  getUnusedRecordFuel hasher m.capacity m key

/-- `HashMap::get`. -/
def get (m : HashMap K V) (key : K) : Option V :=
  match getRecord hasher m key with
  | some (some i) => some (m.data i).value
  | _ => none

/-- The loop `for(i = capacity; i < newCapacity; i++) data[i].type = UNUSED`
of `rehash`, run for `n` iterations from `lo`. -/
def growLoop (lo : Nat) : Nat → HashMap K V → HashMap K V
  | 0, m => m
  | n + 1, m =>
    let m1 := growLoop lo n m
    { m1 with data := store m1.data (lo + n) ((m1.data (lo + n)).withType .UNUSED) }

/-- The inner loop of the walk of `rehash`:
`while(data[newIndex].type == PLACED) newIndex = BIT_MODULO(newIndex + 1, capacity)`. -/
def skipPlaced (capacity : Nat) (d : Nat → Record K V) : Nat → Nat → Option Nat
  | 0, _ => none
  | fuel + 1, newIndex =>
    if (d newIndex).type = .PLACED then
      skipPlaced capacity d fuel (BIT_MODULO (newIndex + 1) capacity)
    else some newIndex

/-- The `while(true)` walk of `rehash` for the record at `index`. -/
def walk (capacity index : Nat) : Nat → (Nat → Record K V) → Option (Nat → Record K V)
  | 0, _ => none
  | fuel + 1, d =>
    match skipPlaced capacity d capacity (BIT_MODULO (hasher (d index).key) capacity) with
    | none => none
    | some newIndex =>
      let d1 := store d index ((d index).withType .PLACED)
      if newIndex = index then some d1
      else if (d1 newIndex).type = .OCCUPIED then
        walk capacity index fuel (store (store d1 newIndex (d1 index)) index (d1 newIndex))
      else
        some (store (store d1 newIndex (d1 index)) index ((d1 index).withType .UNUSED))

/-- One iteration of the main loop of `rehash`, at `index`. -/
def rehashStep (capacity index : Nat) (d : Nat → Record K V) : Option (Nat → Record K V) :=
  if (d index).type ≠ .OCCUPIED then
    if (d index).type = .DELETED then some (store d index ((d index).withType .UNUSED)) else some d
  else walk hasher capacity index capacity d

/-- The main loop of `rehash`: `for(index = 0; index < n; index++)`. -/
def rehashLoop (capacity : Nat) : Nat → (Nat → Record K V) → Option (Nat → Record K V)
  | 0, d => some d
  | n + 1, d =>
    match rehashLoop capacity n d with
    | none => none
    | some d1 => rehashStep hasher capacity n d1

/-- The last loop of `rehash`: every `PLACED` record of the first `n` becomes
`OCCUPIED`. -/
def unmarkLoop : Nat → HashMap K V → HashMap K V
  | 0, m => m
  | n + 1, m =>
    let m1 := unmarkLoop n m
    if (m1.data n).type = .PLACED then { m1 with data := store m1.data n ((m1.data n).withType .OCCUPIED) }
    else m1

/-- The first part of `rehash`: when `newCapacity > capacity` the array is
reallocated (the old records are kept) and the new tail is marked `UNUSED`. -/
def grow (m : HashMap K V) (newCapacity : Nat) : Option (HashMap K V) :=
  if newCapacity > m.capacity then
    match nextPow2 newCapacity with
    | none => none
    | some c => some { growLoop m.capacity (c - m.capacity) m with capacity := c }
  else some m

/-- `HashMap::rehash`. -/
def rehash (m : HashMap K V) (newCapacity : Nat) : Option (HashMap K V) :=
  match grow m newCapacity with
  | none => none
  | some m1 =>
    match rehashLoop hasher m1.capacity m1.capacity m1.data with
    | none => none
    | some d => some (unmarkLoop m1.capacity { m1 with data := d })

/-- The loop of `reserve`:
`do newCapacity <<= 1; while((double)value / newCapacity > MAX_LOAD_FACTOR)`. -/
def reserveLoop (value : Nat) : Nat → Nat → Option Nat
  | 0, _ => none
  | fuel + 1, newCapacity =>
    if loadExceeds value ((newCapacity <<< 1) % SIZE_MOD) then
      reserveLoop value fuel ((newCapacity <<< 1) % SIZE_MOD)
    else some ((newCapacity <<< 1) % SIZE_MOD)

/-- `HashMap::reserve`.  After 64 shifts `newCapacity` is zero and stays zero,
so 65 iterations decide whether the loop ends. -/
def reserve (m : HashMap K V) (value : Nat) : Option (HashMap K V) :=
  if loadExceeds value m.capacity then
    match reserveLoop value 65 m.capacity with
    | none => none
    | some newCapacity => rehash hasher m newCapacity
  else some m

/-- `HashMap::insert`; the result is the table and the index of the record whose
value is returned by reference. -/
def insert (m : HashMap K V) (key : K) (value : V) : Option (HashMap K V × Nat) :=
  match getRecord hasher m key with
  | some none =>
    match reserve hasher m ((m.size + 1) % SIZE_MOD) with
    | none => none
    | some m1 =>
      match getUnusedRecord hasher m1 key with
      | none => none
      | some i =>
        some ({ m1 with data := store m1.data i ⟨key, value, .OCCUPIED⟩,
                        size := (m1.size + 1) % SIZE_MOD }, i)
  | _ => none

/-- `HashMap::operator[]`; the result is the table and the index of the record
whose value is returned by reference. -/
def subscript [Inhabited V] (m : HashMap K V) (key : K) : Option (HashMap K V × Nat) :=
  match getRecord hasher m key with
  | none => none
  | some (some i) => some (m, i)
  | some none => insert hasher m key default

/-- Assigning through the reference returned by `operator[]`: `map[key] = value`. -/
def assign [Inhabited V] (m : HashMap K V) (key : K) (value : V) : Option (HashMap K V) :=
  match subscript hasher m key with
  | none => none
  | some (m1, i) => some { m1 with data := store m1.data i { m1.data i with value := value } }

/-- `HashMap::remove`. -/
def remove (m : HashMap K V) (key : K) : Option (HashMap K V) :=
  match getRecord hasher m key with
  | some (some i) =>
    some { m with data := store m.data i ((m.data i).withType .DELETED),
                  size := (m.size + (SIZE_MOD - 1)) % SIZE_MOD }
  | _ => none

/-- The loop of `getCollisionScore` over the first `n` slots. -/
def collisionLoop (m : HashMap K V) : Nat → Nat
  | 0 => 0
  | n + 1 =>
    if (m.data n).type ≠ .OCCUPIED then collisionLoop m n
    else (collisionLoop m n +
      BIT_MODULO ((n + (SIZE_MOD - getHash hasher m (m.data n).key % SIZE_MOD)) % SIZE_MOD)
        m.capacity) % SIZE_MOD

/-- `HashMap::getCollisionScore`. -/
def getCollisionScore (m : HashMap K V) : Nat := collisionLoop hasher m m.capacity

/-- `HashMap::optimize`, its loop run for at most `fuel` iterations. -/
def optimize (maxCollisionScore maxCapacity : Nat) : Nat → HashMap K V → Option (HashMap K V)
  | 0, _ => none
  | fuel + 1, m =>
    if getCollisionScore hasher m > maxCollisionScore ∧ m.capacity < maxCapacity then
      match rehash hasher m ((m.capacity <<< 1) % SIZE_MOD) with
      | none => none
      | some m1 => optimize maxCollisionScore maxCapacity fuel m1
    else some m

end HashMapOps

/-! ## Invariants of the table -/

section Invariants

variable {K V : Type} [DecidableEq K] (hasher : K → Nat)

/-- A capacity the code can hold: a power of two that fits a `size_t`. -/
def IsCap (c : Nat) : Prop := ∃ e, e ≤ 63 ∧ c = 2 ^ e

/-- No record of the table is `PLACED`. -/
def NoPlaced (m : HashMap K V) : Prop :=
  ∀ i, i < m.capacity → (m.data i).type ≠ .PLACED

/-- The probe-path invariant: the cyclic linear probe from the home slot of the
key of an `OCCUPIED` record reaches that record without meeting an `UNUSED`
slot. -/
def ProbePath (m : HashMap K V) : Prop :=
  ∀ i, i < m.capacity → (m.data i).type = .OCCUPIED →
    ∀ t, t < (i + m.capacity - getHash hasher m (m.data i).key) % m.capacity →
      (m.data ((getHash hasher m (m.data i).key + t) % m.capacity)).type ≠ .UNUSED

/-- No two `OCCUPIED` records hold the same key. -/
def DistinctKeys (m : HashMap K V) : Prop :=
  ∀ i j, i < m.capacity → j < m.capacity →
    (m.data i).type = .OCCUPIED → (m.data j).type = .OCCUPIED →
    (m.data i).key = (m.data j).key → i = j

/-- The number of records among the first `n` whose type satisfies `p`. -/
def countType (p : RecordType → Bool) (d : Nat → Record K V) : Nat → Nat
  | 0 => 0
  | n + 1 => countType p d n + (if p (d n).type then 1 else 0)

/-- The number of `OCCUPIED` records of the table. -/
def occupied (m : HashMap K V) : Nat :=
  countType (fun t => decide (t = .OCCUPIED)) m.data m.capacity

/-- The steady-state invariants of a table: the capacity is a power of two that
is at least `MIN_CAPACITY`, no record is `PLACED`, the probe-path invariant
holds, keys are distinct, `size` counts the `OCCUPIED` records, and the load
factor does not exceed `MAX_LOAD_FACTOR` (the test of `mapSanityCheck`). -/
structure WF (m : HashMap K V) : Prop where
  cap : IsCap m.capacity
  min : MIN_CAPACITY ≤ m.capacity
  noPlaced : NoPlaced m
  probe : ProbePath hasher m
  distinct : DistinctKeys m
  count : occupied m = m.size
  load : overloaded m = false

/-- The invariants of `WF` other than the load factor. -/
structure Sound (m : HashMap K V) : Prop where
  cap : IsCap m.capacity
  min : MIN_CAPACITY ≤ m.capacity
  noPlaced : NoPlaced m
  probe : ProbePath hasher m
  distinct : DistinctKeys m
  count : occupied m = m.size

/-- The key-to-value mapping of a table as `getRecord` sees it: the value
stored with `key`, if `getRecord` finds a record. -/
def lookup (m : HashMap K V) (key : K) : Option V :=
  match getRecord hasher m key with
  | some (some i) => some (m.data i).value
  | _ => none

end Invariants

section ProbeDefs

variable {K V : Type} [DecidableEq K]

/-- The common shape of the probe loops of `getUnusedRecord` and of the walk of
`rehash`: advance cyclically from `i` until `stop` holds. -/
def probeLoop (stop : Nat → Bool) (c : Nat) : Nat → Nat → Option Nat
  | 0, _ => none
  | fuel + 1, i => if stop i then some i else probeLoop stop c fuel (BIT_MODULO (i + 1) c)

/-- The record at slot `i` is `OCCUPIED` and holds `key`. -/
def Holds (m : HashMap K V) (key : K) (i : Nat) : Prop :=
  (m.data i).type = .OCCUPIED ∧ (m.data i).key = key

end ProbeDefs

section RehashDefs

variable {K V : Type} [DecidableEq K] (hasher : K → Nat)

/-- The types of the records that hold a key during `rehash`: still to be
placed (`OCCUPIED`) or already placed (`PLACED`). -/
def isLive (t : RecordType) : Bool := decide (t = .OCCUPIED) || decide (t = .PLACED)

/-- The slot `i` holds a record during `rehash`. -/
def Live (d : Nat → Record K V) (i : Nat) : Prop := isLive (d i).type = true

/-- Every `PLACED` record is reached from the home slot of its key through
`PLACED` slots only. -/
def PlacedChain (c : Nat) (d : Nat → Record K V) : Prop :=
  ∀ i, i < c → (d i).type = .PLACED →
    ∀ t, t < (i + c - hasher (d i).key % c) % c →
      (d ((hasher (d i).key % c + t) % c)).type = .PLACED

/-- The first `n` slots have been dealt with by the main loop of `rehash`. -/
def Done (n : Nat) (d : Nat → Record K V) : Prop :=
  ∀ i, i < n → (d i).type = .UNUSED ∨ (d i).type = .PLACED

/-- Some live record among the first `c` holds `k` with value `v`. -/
def Content (c : Nat) (d : Nat → Record K V) (k : K) (v : V) : Prop :=
  ∃ i, i < c ∧ Live d i ∧ (d i).key = k ∧ (d i).value = v

/-- No two live records among the first `c` hold the same key. -/
def LiveDistinct (c : Nat) (d : Nat → Record K V) : Prop :=
  ∀ i j, i < c → j < c → Live d i → Live d j → (d i).key = (d j).key → i = j

/-- The arrays `d` and `e` hold the same live records, possibly at different
slots. -/
structure SameLive (c : Nat) (d e : Nat → Record K V) : Prop where
  content : ∀ k v, Content c e k v ↔ Content c d k v
  distinct : LiveDistinct c d → LiveDistinct c e
  count : countType isLive e c = countType isLive d c

end RehashDefs

section RehashPostDef

variable {K V : Type} [DecidableEq K] (hasher : K → Nat)

/-- The table `m` holds `k` with value `v` in an `OCCUPIED` record. -/
def Stores (m : HashMap K V) (k : K) (v : V) : Prop :=
  ∃ i, i < m.capacity ∧ Holds m k i ∧ (m.data i).value = v

/-- What `rehash` establishes, from `m` to `r`. -/
structure RehashPost (m r : HashMap K V) : Prop where
  cap : IsCap r.capacity
  capLe : m.capacity ≤ r.capacity
  size : r.size = m.size
  noPlaced : NoPlaced r
  noDeleted : ∀ i, i < r.capacity → (r.data i).type ≠ .DELETED
  probe : ProbePath hasher r
  distinct : DistinctKeys m → DistinctKeys r
  count : occupied r = occupied m
  content : ∀ k v, Stores r k v ↔ Stores m k v

end RehashPostDef

section KeptDef

variable {K V : Type} [DecidableEq K] (hasher : K → Nat)

/-- The table `r` holds the records of `m`, with the invariants of `m`, in a
capacity that is at least that of `m`: what `reserve` establishes. -/
structure Kept (m r : HashMap K V) : Prop where
  cap : IsCap r.capacity
  capLe : m.capacity ≤ r.capacity
  size : r.size = m.size
  noPlaced : NoPlaced r
  probe : ProbePath hasher m → ProbePath hasher r
  distinct : DistinctKeys m → DistinctKeys r
  count : occupied r = occupied m
  content : ∀ k v, Stores r k v ↔ Stores m k v

end KeptDef

section OpDefs

variable {K V : Type} [DecidableEq K] [Inhabited V] (hasher : K → Nat)

/-- The public operations on a table that exists: `insert`, `operator[]`,
`map[key] = value`, `remove`, `reserve`, `rehash` and `optimize` (whose loop
runs for at most `fuel` iterations). -/
inductive Op (K V : Type) where
  | insert (key : K) (value : V)
  | subscript (key : K)
  | assign (key : K) (value : V)
  | remove (key : K)
  | reserve (value : Nat)
  | rehash (newCapacity : Nat)
  | optimize (maxCollisionScore maxCapacity fuel : Nat)

/-- The table after the operation `op`, if it returns. -/
def step (op : Op K V) (m : HashMap K V) : Option (HashMap K V) :=
  match op with
  | .insert key value => (insert hasher m key value).map Prod.fst
  | .subscript key => (subscript hasher m key).map Prod.fst
  | .assign key value => assign hasher m key value
  | .remove key => remove hasher m key
  | .reserve value => reserve hasher m value
  | .rehash newCapacity => rehash hasher m newCapacity
  | .optimize maxCollisionScore maxCapacity fuel =>
    optimize hasher maxCollisionScore maxCapacity fuel m

/-- A loop `for(...) f(map, k, v)` over a list of keys and values, stopping at
the first call that does not return. -/
def runAll (f : HashMap K V → K → V → Option (HashMap K V)) :
    List (K × V) → HashMap K V → Option (HashMap K V)
  | [], m => some m
  | (k, v) :: rest, m =>
    match f m k v with
    | none => none
    | some m1 => runAll f rest m1

/-- The loop `for(...) map.insert(k, v)` over a list of keys and values. -/
def insertAll (kvs : List (K × V)) (m : HashMap K V) : Option (HashMap K V) :=
  runAll (fun m k v => (insert hasher m k v).map Prod.fst) kvs m

/-- The loop `for(...) map[k] = v` over a list of keys and values. -/
def assignAll (kvs : List (K × V)) (m : HashMap K V) : Option (HashMap K V) :=
  runAll (fun m k v => assign hasher m k v) kvs m

/-- The loop `for(...) map.remove(k)` over a list of keys. -/
def removeAll : List K → HashMap K V → Option (HashMap K V)
  | [], m => some m
  | k :: rest, m =>
    match remove hasher m k with
    | none => none
    | some m1 => removeAll rest m1

end OpDefs

/-- The table can hold `n` records: `n` fits a `size_t` and the load `n / 2^63`
at the largest capacity passes the test of `reserve`, so that the doubling of
`reserve` stops before it wraps. -/
def Fits (n : Nat) : Prop := n < SIZE_MOD ∧ loadExceeds n (2 ^ 63) = false

/-! ## Sample inputs -/

/-- `defaultHash` for an integral key: `(size_t)value`. -/
def defaultHash (value : Nat) : Nat := value % SIZE_MOD

/-- A block of memory as `alloc` may return it, not yet initialised: here every
record happens to look `PLACED`. -/
def garbage : Nat → Record Nat Nat := fun i => ⟨i, 0, .PLACED⟩

/-- A table of capacity 16 with the keys 1 and 17, which share the home slot 1,
and a tombstone behind them. -/
def sampleTable : HashMap Nat Nat :=
  { capacity := 16, size := 2,
    data := fun i =>
      if i = 1 then ⟨1, 10, .OCCUPIED⟩
      else if i = 2 then ⟨17, 20, .OCCUPIED⟩
      else if i = 3 then ⟨33, 30, .DELETED⟩
      else ⟨0, 0, .UNUSED⟩ }

/-- A table of capacity 16 in which no slot is `UNUSED`: one record and fifteen
tombstones. -/
def fullTable : HashMap Nat Nat :=
  { capacity := 16, size := 1,
    data := fun i => if i = 5 then ⟨5, 50, .OCCUPIED⟩ else ⟨0, 0, .DELETED⟩ }

/-- An empty table of capacity 16 in which every slot is a tombstone. -/
def tombTable : HashMap Nat Nat :=
  { capacity := 16, size := 0, data := fun _ => ⟨0, 0, .DELETED⟩ }

/-- Three keys with the same home slot in a table of capacity 16, with their
values. -/
def sampleKvs : List (Nat × Nat) := [(1, 10), (17, 20), (33, 30)]

/-! ## hash_map.h: clearGravestones and the iterators -/

section MoreHashMapOps

variable {K V : Type} [DecidableEq K] (hasher : K → Nat)

/-- The body of the loop of `clearGravestones` at index `i`: the table and the
flag `deletedGroup` after it.  In the first branch the source has the statement
`record.type == RecordType::UNUSED;`, a comparison whose result is discarded,
so the record is left as it is.  The last branch is taken by every record that
is neither `DELETED` nor `UNUSED`; `record` is a reference to `data[i]`, read
again after its type has been set. -/
def clearGravestonesStep (m : HashMap K V) (i : Nat) (deletedGroup : Bool) :
    Option (HashMap K V × Bool) :=
  if (m.data i).type = .DELETED then some (m, true)
  else if (m.data i).type = .UNUSED then some (m, false)
  else if deletedGroup = true then
    let m1 : HashMap K V := { m with data := store m.data i ((m.data i).withType .UNUSED) }
    match getUnusedRecord hasher m1 (m1.data i).key with
    | none => none
    | some j =>
      some ({ m1 with data := store m1.data j ⟨(m1.data i).key, (m1.data i).value, .OCCUPIED⟩ },
        deletedGroup)
  else some (m, deletedGroup)

/-- The loop of `clearGravestones`:
`for(i = 0; i < capacity || deletedGroup; i = BIT_MODULO(i + 1, capacity))`,
entered with index `i`, for at most `fuel` iterations. -/
def clearGravestonesLoop : Nat → HashMap K V → Nat → Bool → Option (HashMap K V)
  | 0, _, _, _ => none
  | fuel + 1, m, i, deletedGroup =>
    if i < m.capacity ∨ deletedGroup = true then
      match clearGravestonesStep hasher m i deletedGroup with
      | none => none
      | some (m1, d) =>
        clearGravestonesLoop fuel m1 (BIT_MODULO ((i + 1) % SIZE_MOD) m1.capacity) d
    else some m

/-- `HashMap::clearGravestones`, its loop run for at most `fuel` iterations. -/
def clearGravestones (fuel : Nat) (m : HashMap K V) : Option (HashMap K V) :=
  clearGravestonesLoop hasher fuel m 0 false

/-- The loop of `IteratorBase::next`:
`while(i < map.capacity && map.data[i].type != OCCUPIED) i++`.  Every iteration
brings `i` closer to `capacity`, so `capacity - i` iterations are enough
(`nextLoop_spec`). -/
def nextLoop (m : HashMap K V) : Nat → Nat → Nat
  | 0, i => i
  | fuel + 1, i =>
    if i < m.capacity ∧ (m.data i).type ≠ .OCCUPIED then nextLoop m fuel (i + 1) else i

/-- `IteratorBase::next`, on the iterator at index `i`: the index after it. -/
def next (m : HashMap K V) (i : Nat) : Nat := nextLoop m (m.capacity - i) i

/-- `HashMap::begin`: the index of `Iterator{*this, 0}`, whose constructor calls
`next()`. -/
def begin (m : HashMap K V) : Nat := next m 0

/-- `HashMap::end`: the index of `Iterator{*this, capacity}`. -/
def endIndex (m : HashMap K V) : Nat := next m m.capacity

/-- The loop `for(auto it = begin(); it != end(); ++it)` from the iterator at
index `i`, collecting `*it`; `++it` is `i++; next()`.  `none` when `fuel`
iterations do not reach `end()`. -/
def iterateLoop (m : HashMap K V) : Nat → Nat → Option (List (Record K V))
  | 0, i => if i ≠ endIndex m then none else some []
  | fuel + 1, i =>
    if i ≠ endIndex m then
      (iterateLoop m fuel (next m (i + 1))).map (List.cons (m.data i))
    else some []

/-- The records that a traversal from `begin()` to `end()` yields, in order. -/
def iterate (m : HashMap K V) : Option (List (Record K V)) :=
  iterateLoop m m.capacity (begin m)

/-- The keys that a traversal with `iterateKeys()` yields, in order. -/
def iterateKeys (m : HashMap K V) : Option (List K) :=
  (iterate m).map (List.map Record.key)

/-- The indices of the `OCCUPIED` slots among `i, i + 1, ..., i + n - 1`, in
increasing order. -/
def occupiedSlots (m : HashMap K V) (i n : Nat) : List Nat :=
  (List.range' i n).filter (fun j => decide ((m.data j).type = .OCCUPIED))

end MoreHashMapOps

section TraversalDefs

variable {K V : Type} [DecidableEq K] (hasher : K → Nat)

/-- No record of the table is a tombstone. -/
def NoDeleted (m : HashMap K V) : Prop :=
  ∀ i, i < m.capacity → (m.data i).type ≠ .DELETED

/-- Every `OCCUPIED` record sits in the home slot of its key. -/
def AtHome (m : HashMap K V) : Prop :=
  ∀ i, i < m.capacity → (m.data i).type = .OCCUPIED → getHash hasher m (m.data i).key = i

/-- No two `OCCUPIED` records hold keys with the same home slot. -/
def DistinctHomes (m : HashMap K V) : Prop :=
  ∀ i j, i < m.capacity → j < m.capacity →
    (m.data i).type = .OCCUPIED → (m.data j).type = .OCCUPIED →
    getHash hasher m (m.data i).key = getHash hasher m (m.data j).key → i = j

end TraversalDefs

/-! ## core.h: alignment and logarithm -/

/-- `align(value, align)`: the assertion `isPow2(align)`, then
`((size_t)value + align) & ~align` with `align` decremented. -/
def align (value alignment : Nat) : Option Nat :=
  if isPow2 alignment = true then
    some (((value + (alignment + (SIZE_MOD - 1)) % SIZE_MOD) % SIZE_MOD) &&&
      (SIZE_MOD - 1 - (alignment + (SIZE_MOD - 1)) % SIZE_MOD))
  else none

/-- `alignFloor(value, align)`: the assertion `isPow2(align)`, then
`(size_t)value & ~align` with `align` decremented. -/
def alignFloor (value alignment : Nat) : Option Nat :=
  if isPow2 alignment = true then
    some ((value % SIZE_MOD) &&& (SIZE_MOD - 1 - (alignment + (SIZE_MOD - 1)) % SIZE_MOD))
  else none

/-! ## memory.cpp: blocks and the arena

Memory is the value held at each address.  A `size_t` or pointer field is held
whole at the address of the field (fields are 8 bytes apart); a payload byte is
held at its address.  A pointer is its address, `nullptr` is 0, and pointer
arithmetic wraps like `size_t`. -/

/-- Storing `value` at `address`. -/
def write (memory : Nat → Nat) (address value : Nat) : Nat → Nat :=
  fun a => if a = address then value else memory a

/-- `memcpy(dst, src, n)`: the `n` cells from `dst` on take the values of the
`n` cells from `src` on. -/
def memcpy (memory : Nat → Nat) (dst src n : Nat) : Nat → Nat :=
  fun a => if dst ≤ a ∧ a - dst < n then memory (src + (a - dst)) else memory a

/-- `p + n` on a pointer to bytes. -/
def ptrAdd (p n : Nat) : Nat := (p + n) % SIZE_MOD

/-- `p - n` on a pointer to bytes. -/
def ptrSub (p n : Nat) : Nat := (p + (SIZE_MOD - n % SIZE_MOD)) % SIZE_MOD

/-- `sizeof(BlockData)`: two `size_t` fields, `size` at offset 0 and
`alignment` at offset 8. -/
def SIZEOF_BLOCKDATA : Nat := 16

/-- `alignof(BlockData)`. -/
def ALIGNOF_BLOCKDATA : Nat := 8

/-- `BlockData::get(ptr)`: `(BlockData*)ptr - 1`. -/
def BlockData.get (ptr : Nat) : Nat := ptrSub ptr SIZEOF_BLOCKDATA

/-- The field `size` of the `BlockData` at `data`. -/
def BlockData.size (memory : Nat → Nat) (data : Nat) : Nat := memory data

/-- The field `alignment` of the `BlockData` at `data`. -/
def BlockData.alignment (memory : Nat → Nat) (data : Nat) : Nat := memory (ptrAdd data 8)

/-- The assignment `*data = {size, alignment}`. -/
def BlockData.set (memory : Nat → Nat) (data size alignment : Nat) : Nat → Nat :=
  write (write memory data size) (ptrAdd data 8) alignment

/-- `Arena`: the fields `capacity`, `mark` and `data`, as addresses. -/
structure Arena where
  capacity : Nat
  mark : Nat
  data : Nat

/-- `Arena::MAX_ARENA_SIZE` on a 64-bit target: `TB<size_t(1)>`. -/
def MAX_ARENA_SIZE : Nat := 1 * 1000 * 1000 * 1000 * 1000

/-- `Arena::ARENA_BLOCK_SIZE` on a 64-bit target: `MB<size_t(100)>`. -/
def ARENA_BLOCK_SIZE : Nat := 100 * 1000 * 1000

/-- `Arena::init`; `reservation` is the address that `reserveVirtualMemory`
returns. -/
def Arena.init (reservation : Nat) : Arena :=
  { capacity := reservation, mark := reservation, data := reservation }

/-- `Arena::reset`. -/
def Arena.reset (arena : Arena) : Arena := { arena with mark := arena.data }

/-- The body of the `do ... while` loop of `Arena::alloc`: the header and the
payload of the block, `newData` and `newPtr`, for the mark `oldMark`. -/
def Arena.place (memory : Nat → Nat) (oldMark ptr alignment : Nat) : Option (Nat × Nat) :=
  if ptr ≠ 0 ∧ ptr = ptrSub oldMark (BlockData.size memory (BlockData.get ptr)) then
    some (BlockData.get ptr, ptr)
  else
    match align oldMark ALIGNOF_BLOCKDATA with
    | none => none
    | some header =>
      match align (ptrAdd header SIZEOF_BLOCKDATA) alignment with
      | none => none
      | some payload =>
        some (ptrSub payload SIZEOF_BLOCKDATA, ptrAdd (ptrSub payload SIZEOF_BLOCKDATA) SIZEOF_BLOCKDATA)

/-- The capacity that `Arena::alloc` publishes for the mark `newMark`. -/
def Arena.grow (arena : Arena) (newMark : Nat) : Nat :=
  if newMark > arena.capacity then
    let markInt := ptrSub newMark arena.data
    ptrAdd arena.data ((markInt + (MAX_ARENA_SIZE - markInt % MAX_ARENA_SIZE)) % SIZE_MOD)
  else arena.capacity

/-- `Arena::alloc(ptr, size, alignment)` in a run without other threads: the
arena, the memory and the pointer returned.  The compare-and-swap of the mark
finds the value that was loaded, so the loop body runs with that value and the
mark becomes `newMark`; the second test of the capacity, under the lock, is the
first one again.  `none` is a failed assertion (of `align`). -/
def Arena.alloc (arena : Arena) (memory : Nat → Nat) (ptr size alignment : Nat) :
    Option (Arena × (Nat → Nat) × Nat) :=
  if size = 0 then some (arena, memory, 0)
  else
    let oldData := BlockData.get ptr
    let alignment := if ptr ≠ 0 then BlockData.alignment memory oldData else alignment
    match Arena.place memory arena.mark ptr alignment with
    | none => none
    | some (newData, newPtr) =>
      let newMark := ptrAdd newPtr size
      let memory1 := BlockData.set memory newData size alignment
      some ({ capacity := Arena.grow arena newMark, mark := newMark, data := arena.data },
        if ptr ≠ 0 ∧ newData ≠ oldData then
          memcpy memory1 newPtr ptr (BlockData.size memory1 oldData)
        else memory1,
        newPtr)

/-- The block at `ptr` is the one at the tip of the arena: the test
`ptr && ptr == oldMark - oldData->size` of `Arena::alloc`. -/
def Arena.atTip (arena : Arena) (memory : Nat → Nat) (ptr : Nat) : Prop :=
  ptr ≠ 0 ∧ ptr = ptrSub arena.mark (BlockData.size memory (BlockData.get ptr))

/-- The alignment that `Arena::alloc` uses: the one in the header of the block
for a reallocation, the argument otherwise. -/
def Arena.alignmentOf (memory : Nat → Nat) (ptr alignment : Nat) : Nat :=
  if ptr ≠ 0 then BlockData.alignment memory (BlockData.get ptr) else alignment

/-- The addresses that `Arena::alloc` computes in this call do not wrap around
the address space. -/
def Arena.NoWrap (arena : Arena) (memory : Nat → Nat) (ptr size alignment : Nat) : Prop :=
  (Arena.atTip arena memory ptr →
    arena.mark < SIZE_MOD ∧ BlockData.size memory (BlockData.get ptr) ≤ arena.mark ∧
      ptr + size < SIZE_MOD) ∧
  (¬ Arena.atTip arena memory ptr →
    arena.mark + 22 + Arena.alignmentOf memory ptr alignment + size < SIZE_MOD)

/-- A reallocation of the block at the tip of the arena to a smaller size. -/
def Arena.TipShrink (arena : Arena) (memory : Nat → Nat) (ptr size : Nat) : Prop :=
  Arena.atTip arena memory ptr ∧ 0 < size ∧ size < BlockData.size memory (BlockData.get ptr)

/-- An arena at address 4096 in which nothing has been allocated. -/
def sampleArena : Arena := Arena.init 4096

/-- A memory with some content at every address. -/
def sampleMemory : Nat → Nat := fun a => a % 251

/-- A block of 64 bytes allocated from `sampleArena` and then reallocated to 8
bytes while it is at the tip: the arena after the allocation and the arena
after the reallocation. -/
def tipShrinkRun : Option (Arena × Arena) :=
  (Arena.alloc sampleArena sampleMemory 0 64 8).bind fun r1 =>
    (Arena.alloc r1.1 r1.2.1 r1.2.2 8 0).map fun r2 => (r1.1, r2.1)

/-- Two blocks, of 64 and of 8 bytes, allocated from `sampleArena`, and then the
first one, which is not at the tip, reallocated to 8 bytes: the pointer to the
first block, the memory before the reallocation, and the arena, the memory and
the pointer that the reallocation returns. -/
def moveShrinkRun : Option (Nat × (Nat → Nat) × Arena × (Nat → Nat) × Nat) :=
  (Arena.alloc sampleArena sampleMemory 0 64 8).bind fun r1 =>
    (Arena.alloc r1.1 r1.2.1 0 8 8).bind fun r2 =>
      (Arena.alloc r2.1 r2.2.1 r1.2.2 8 0).map fun r3 => (r1.2.2, r2.2.1, r3)

/-! ## atomics.h: the tagged pointer -/

/-- `TaggedPointer<T>`: the fields `tag` and `ptr`. -/
structure TaggedPointer where
  tag : Nat
  ptr : Nat
  deriving DecidableEq

/-- The 16 bytes of a `TaggedPointer` read as an `atomic_uint128`, as the cast
`(atomic_uint128*)` of `atomicCompareExchangeWeak` does on a little-endian
target: `tag` is the low half and `ptr` the high half. -/
def TaggedPointer.toUint128 (p : TaggedPointer) : Nat :=
  p.tag % SIZE_MOD + SIZE_MOD * (p.ptr % SIZE_MOD)

/-- The `TaggedPointer` whose 16 bytes are the `atomic_uint128` `x`. -/
def TaggedPointer.ofUint128 (x : Nat) : TaggedPointer :=
  { tag := x % SIZE_MOD, ptr := x / SIZE_MOD % SIZE_MOD }

/-- `__sync_val_compare_and_swap(ptr, oldval, newval)`: the new content of
`*ptr` and the value returned, which is the content before. -/
def syncValCompareAndSwap (content oldval newval : Nat) : Nat × Nat :=
  (if content = oldval then newval else content, content)

/-- `atomicCompareExchangeWeak(ptr, expected, desired)` for a type of 16 bytes:
the new `*ptr`, the new `*expected` and the result. -/
def atomicCompareExchangeWeak (self expected desired : TaggedPointer) :
    TaggedPointer × TaggedPointer × Bool :=
  let check := expected.toUint128
  let r := syncValCompareAndSwap self.toUint128 expected.toUint128 desired.toUint128
  (TaggedPointer.ofUint128 r.1, TaggedPointer.ofUint128 r.2, decide (check = r.2))

/-- `TaggedPointer::load`. -/
def TaggedPointer.load (self : TaggedPointer) : TaggedPointer :=
  { tag := self.tag, ptr := self.ptr }

/-- `TaggedPointer::store(old, set)`: the new pair, the new `*old` and the
result. -/
def TaggedPointer.store (self old : TaggedPointer) (set : Nat) :
    TaggedPointer × TaggedPointer × Bool :=
  atomicCompareExchangeWeak self old { tag := (old.tag + 1) % SIZE_MOD, ptr := set }

/-- The two fields of the pair are values of a machine word. -/
def TaggedPointer.Valid (p : TaggedPointer) : Prop := p.tag < SIZE_MOD ∧ p.ptr < SIZE_MOD

/-! ## core.h and os_linux.cpp: the mutex -/

/-- The state of a `pthread_mutex_t` of the default kind: free or held. -/
structure MutexType where
  locked : Bool
  deriving DecidableEq

/-- The error number `EBUSY`. -/
def EBUSY : Int := 16

/-- `pthread_mutex_trylock`, as POSIX describes it for a mutex of the default
kind: it acquires a free mutex and returns 0, and it leaves a mutex that is
held as it is and returns `EBUSY`. -/
def pthread_mutex_trylock (mutex : MutexType) : MutexType × Int :=
  if mutex.locked = true then (mutex, EBUSY) else ({ locked := true }, 0)

/-- `Mutex::tryLock`: `return pthread_mutex_trylock(&mutex);`, the `int`
converted to `bool`. -/
def Mutex.tryLock (mutex : MutexType) : MutexType × Bool :=
  let r := pthread_mutex_trylock mutex
  (r.1, decide (r.2 ≠ 0))

/-! ## memory.cpp: the pool allocator -/

/-- `log2Ceil(uint64_t v)`, in the configuration with `__builtin_clzl`.
The two assertions abort on `v == 0` and on `v > 2^63`. -/
def log2Ceil (v : Nat) : Option Nat :=
  if v = 0 then none
  else if v > 1 <<< 63 then none
  else if v = 1 then some 0
  else some (64 - clzl (v - 1))

/-- `getIndex(size, alignment)`. -/
def getIndex (size alignment : Nat) : Option Nat :=
  let padding := if alignment > SIZEOF_BLOCKDATA then alignment - SIZEOF_BLOCKDATA else 0
  log2Ceil (max 8 ((size + padding) % SIZE_MOD))

/-- `buildBlock(ptr, size, alignment)`: the memory and the pointer returned. -/
def buildBlock (memory : Nat → Nat) (ptr size alignment : Nat) : Option ((Nat → Nat) × Nat) :=
  match align (ptrAdd ptr SIZEOF_BLOCKDATA) alignment with
  | none => none
  | some a =>
    let data := ptrSub a SIZEOF_BLOCKDATA
    some (BlockData.set memory data size alignment, ptrAdd data SIZEOF_BLOCKDATA)

/-- `BlockData::getBlock`, on the header at `data`. -/
def BlockData.getBlock (memory : Nat → Nat) (data : Nat) : Option Nat :=
  alignFloor data (BlockData.alignment memory data)

/-- The state of the pool allocator: the heads of the free lists (`pools` of
`getPool`), the arena that supplies blocks (`nodeArena` of `allocBlock`) and the
memory. -/
structure PoolState where
  pools : Nat → TaggedPointer
  nodeArena : Arena
  memory : Nat → Nat

/-- The assignment `pools[index] = p`. -/
def setPool (pools : Nat → TaggedPointer) (index : Nat) (p : TaggedPointer) :
    Nat → TaggedPointer :=
  fun i => if i = index then p else pools i

/-- `allocBlock(index)`. -/
def allocBlock (s : PoolState) (index : Nat) : Option (PoolState × Nat) :=
  match Arena.alloc s.nodeArena s.memory 0
      (((1 <<< index) % SIZE_MOD + SIZEOF_BLOCKDATA) % SIZE_MOD) ALIGNOF_BLOCKDATA with
  | none => none
  | some (arena, memory, block) => some ({ s with nodeArena := arena, memory := memory }, block)

/-- `pushBlock(index, block)` in a run without other threads.  The store finds
the pair that was loaded and succeeds (`store_load`), so the body of the loop
runs once; `none` stands for the retry after a store that another thread made
fail. -/
def pushBlock (s : PoolState) (index block : Nat) : Option PoolState :=
  let old := (s.pools index).load
  let memory := write s.memory block old.ptr
  let r := (s.pools index).store old block
  if r.2.2 = true then some { s with pools := setPool s.pools index r.1, memory := memory }
  else none

/-- `popBlock(index)` in a run without other threads; `block->next` is the
value at the address `block`.  As in `pushBlock`, `none` stands for the retry
after a store that another thread made fail. -/
def popBlock (s : PoolState) (index : Nat) : Option (PoolState × Nat) :=
  let old := (s.pools index).load
  if old.ptr = 0 then allocBlock s index
  else
    let block := old.ptr
    let r := (s.pools index).store old (s.memory block)
    if r.2.2 = true then some ({ s with pools := setPool s.pools index r.1 }, block)
    else none

/-- `nalloc(ptr, size, alignment)`: the state and the pointer returned. -/
def nalloc (s : PoolState) (ptr size alignment : Nat) : Option (PoolState × Nat) :=
  if ptr = 0 then
    match getIndex size alignment with
    | none => none
    | some index =>
      match popBlock s index with
      | none => none
      | some (s1, block) =>
        match buildBlock s1.memory block size alignment with
        | none => none
        | some (memory, newPtr) => some ({ s1 with memory := memory }, newPtr)
  else
    let blockData := BlockData.get ptr
    let alignment := BlockData.alignment s.memory blockData
    match getIndex (BlockData.size s.memory blockData) alignment with
    | none => none
    | some index =>
      if size = 0 then
        match BlockData.getBlock s.memory blockData with
        | none => none
        | some block =>
          match pushBlock s index block with
          | none => none
          | some s1 => some (s1, 0)
      else
        match getIndex size alignment with
        | none => none
        | some newIndex =>
          if newIndex ≤ index then
            some ({ s with memory := write s.memory blockData size }, ptr)
          else
            match popBlock s newIndex with
            | none => none
            | some (s1, block) =>
              match buildBlock s1.memory block size alignment with
              | none => none
              | some (memory, newPtr) =>
                let memory1 := memcpy memory newPtr ptr (BlockData.size memory blockData)
                match BlockData.getBlock memory1 blockData with
                | none => none
                | some old =>
                  match pushBlock { s1 with memory := memory1 } index old with
                  | none => none
                  | some s2 => some (s2, newPtr)

/-- The pool allocator before its first call: every free list is empty and the
arena, at address 4096, has handed out nothing. -/
def samplePool : PoolState :=
  { pools := fun _ => { tag := 0, ptr := 0 }, nodeArena := sampleArena, memory := sampleMemory }

/-- The pool allocator with one block handed out: the payload at 4128, the
header `{64, 8}` at 4112. -/
def sampleBlockPool : PoolState :=
  { samplePool with memory := BlockData.set sampleMemory 4112 64 8 }


/-! ## core.h: the portable logarithm -/

/-- The loop of the portable `log2Ceil`, entered with `v` and `i`:
`while(true){ v >>= 1; if(!v) return i; i++; }`. -/
def log2CeilLoop : Nat → Nat → Nat → Option Nat
  | 0, _, _ => none
  | fuel + 1, v, i => if v >>> 1 = 0 then some i else log2CeilLoop fuel (v >>> 1) ((i + 1) % SIZE_MOD)

/-- `log2Ceil(uint64_t v)` in the configuration with `ZSL_NO_CLZ`: the two
assertions, then the loop, which shifts a 64-bit value to zero within 64
iterations. -/
def log2CeilPortable (v : Nat) : Option Nat :=
  if v = 0 then none
  else if v > 1 <<< 63 then none
  else log2CeilLoop 64 v 0

/-! ## array_list.h -/

/-- `ArrayList`: the fields `capacity`, `size` and `data`. -/
structure ArrayList (T : Type) where
  capacity : Nat
  size : Nat
  data : Nat → T

/-- `ArrayList::init(initial)`; `mem` is the block returned by `alloc`. -/
def ArrayList.init {T : Type} (mem : Nat → T) (initial : Nat) : ArrayList T :=
  { capacity := max initial 16, size := 0, data := mem }

/-- `ArrayList::operator[]`: the assertion `i < size`, then `data[i]`. -/
def ArrayList.index {T : Type} (a : ArrayList T) (i : Nat) : Option T :=
  if i < a.size then some (a.data i) else none

/-- `memcpy(dst, src, n * sizeof(T))` on arrays of `T`: the first `n` elements
of `dst` become those of `src`. -/
def copyElements {T : Type} (dst src : Nat → T) (n : Nat) : Nat → T :=
  fun i => if i < n then src i else dst i

/-- `ArrayList::copy`; `mem` is the block that the `alloc` of `init` returns. -/
def ArrayList.copy {T : Type} (mem : Nat → T) (a : ArrayList T) : ArrayList T :=
  let clone := ArrayList.init mem a.capacity
  { clone with data := copyElements clone.data a.data a.size }

/-- A list of three elements. -/
def sampleList : ArrayList Nat :=
  { capacity := 16, size := 3, data := fun i => if i < 3 then 10 * (i + 1) else 0 }

/-! ## The walk of `rehash`, iteration by iteration -/

section WalkStepsDefs

variable {K V : Type} [DecidableEq K] (hasher : K → Nat)

/-- One iteration of the `while(true)` walk of `rehash` for the record at
`index`: the array after it, and whether the loop goes on (`true`) or breaks
(`false`). -/
def walkBody (capacity index : Nat) (d : Nat → Record K V) :
    Option ((Nat → Record K V) × Bool) :=
  match skipPlaced capacity d capacity (BIT_MODULO (hasher (d index).key) capacity) with
  | none => none
  | some newIndex =>
    let d1 := store d index ((d index).withType .PLACED)
    if newIndex = index then some (d1, false)
    else if (d1 newIndex).type = .OCCUPIED then
      some (store (store d1 newIndex (d1 index)) index (d1 newIndex), true)
    else
      some (store (store d1 newIndex (d1 index)) index ((d1 index).withType .UNUSED), false)

/-- The walk of `rehash` with a count of the iterations of its loop. -/
def walkSteps (capacity index : Nat) :
    Nat → (Nat → Record K V) → Option ((Nat → Record K V) × Nat)
  | 0, _ => none
  | fuel + 1, d =>
    match walkBody hasher capacity index d with
    | none => none
    | some (d1, false) => some (d1, 1)
    | some (d1, true) =>
      match walkSteps capacity index fuel d1 with
      | none => none
      | some (e, k) => some (e, k + 1)

/-- One iteration of the main loop of `rehash` with the count of the iterations
of the walk it runs. -/
def rehashStepSteps (capacity index : Nat) (d : Nat → Record K V) :
    Option ((Nat → Record K V) × Nat) :=
  if (d index).type ≠ .OCCUPIED then
    if (d index).type = .DELETED then some (store d index ((d index).withType .UNUSED), 0)
    else some (d, 0)
  else walkSteps hasher capacity index capacity d

/-- The main loop of `rehash` with the count of the iterations of all the walks
of the pass. -/
def rehashLoopSteps (capacity : Nat) :
    Nat → (Nat → Record K V) → Option ((Nat → Record K V) × Nat)
  | 0, d => some (d, 0)
  | n + 1, d =>
    match rehashLoopSteps capacity n d with
    | none => none
    | some (d1, k) =>
      match rehashStepSteps hasher capacity n d1 with
      | none => none
      | some (e, j) => some (e, k + j)

end WalkStepsDefs

/-! ## The collision score as a sum -/

section CollisionDefs

variable {K V : Type} [DecidableEq K] (hasher : K → Nat)

/-- The displacement of the record at slot `i` as the specification words it:
`(i − hash(key)) mod capacity`, the remainder taken in the integers. -/
def displacement (m : HashMap K V) (i : Nat) : Nat :=
  Int.toNat (((i : Int) - (getHash hasher m (m.data i).key : Int)) % (m.capacity : Int))

/-- The collision score as the specification words it: the sum of the
displacements over the `OCCUPIED` slots. -/
def collisionSum (m : HashMap K V) : Nat :=
  ((occupiedSlots m 0 m.capacity).map (displacement hasher m)).sum

end CollisionDefs

/-- A hash function that sends every key to 0. -/
def zeroHash (_ : Nat) : Nat := 0

/-- A table of capacity 16 with the keys 1 and 2 in the slots 0 and 1. -/
def collideTable : HashMap Nat Nat :=
  { capacity := 16, size := 2,
    data := fun i =>
      if i = 0 then ⟨1, 10, .OCCUPIED⟩
      else if i = 1 then ⟨2, 20, .OCCUPIED⟩
      else ⟨0, 0, .UNUSED⟩ }

section ClearGravestonesRunDefs

variable {K V : Type} [DecidableEq K] (hasher : K → Nat)

/-- The table, the index and the flag `deletedGroup` after `n` iterations of the
loop of `clearGravestones` entered with index `i`; `none` when the condition of
the loop has failed before, or the body has not returned. -/
def clearGravestonesRun :
    Nat → HashMap K V → Nat → Bool → Option (HashMap K V × Nat × Bool)
  | 0, m, i, deletedGroup => some (m, i, deletedGroup)
  | n + 1, m, i, deletedGroup =>
    if i < m.capacity ∨ deletedGroup = true then
      match clearGravestonesStep hasher m i deletedGroup with
      | none => none
      | some (m1, d) =>
        clearGravestonesRun n m1 (BIT_MODULO ((i + 1) % SIZE_MOD) m1.capacity) d
    else none

end ClearGravestonesRunDefs

/-! ## Arithmetic of the index mask -/

theorem mod_lt_two (x c : Nat) (h : x < 2 * c) :
    x % c = if x < c then x else x - c := by
  split
  · exact Nat.mod_eq_of_lt ‹_›
  · rw [Nat.mod_eq_sub_mod (by omega), Nat.mod_eq_of_lt (by omega)]

theorem isCap_pos {c : Nat} (hc : IsCap c) : 0 < c := by
  obtain ⟨e, _, rfl⟩ := hc
  exact Nat.two_pow_pos e

theorem isCap_le {c : Nat} (hc : IsCap c) : c ≤ 2 ^ 63 := by
  obtain ⟨e, he, rfl⟩ := hc
  exact Nat.pow_le_pow_right (by norm_num) he

theorem BIT_MODULO_cap {c : Nat} (hc : IsCap c) (v : Nat) : BIT_MODULO v c = v % c := by
  have hle := (isCap_le hc)
  have hpos := (isCap_pos hc)
  obtain ⟨e, he, rfl⟩ := hc
  unfold BIT_MODULO SIZE_MOD
  have h1 : (2 ^ e + (2 ^ 64 - 1)) % 2 ^ 64 = 2 ^ e - 1 := by
    have : 2 ^ e + (2 ^ 64 - 1) = (2 ^ e - 1) + 2 ^ 64 := by omega
    rw [this, Nat.add_mod_right, Nat.mod_eq_of_lt (by omega)]
  rw [h1, Nat.and_pow_two_sub_one_eq_mod]

theorem isPow2_cap {c : Nat} (hc : IsCap c) : isPow2 c = true := by
  have h := BIT_MODULO_cap hc c
  have hpos := (isCap_pos hc)
  unfold BIT_MODULO at h
  unfold isPow2
  simp [h, Nat.pos_iff_ne_zero.mp hpos]

/-- The slot after the `t`-th one of the cyclic probe that starts at `h` is
the `t + 1`-st: `BIT_MODULO(i + 1, capacity)` advances the probe by one. -/
theorem pos_succ (c h t : Nat) : (h + (t + 1)) % c = ((h + t) % c + 1) % c := by
  rw [← Nat.add_assoc, Nat.add_mod (h + t) 1 c]
  simp

theorem pos_dist {c h i : Nat} (hh : h < c) (hi : i < c) :
    (i + c - h) % c < c ∧ (h + (i + c - h) % c) % c = i := by
  have h1 := mod_lt_two (i + c - h) c (by omega)
  constructor
  · exact Nat.mod_lt _ (by omega)
  · rw [h1]
    split
    · rw [mod_lt_two _ c (by omega)]; split <;> omega
    · rw [mod_lt_two _ c (by omega)]; split <;> omega

theorem pos_inj {c h t1 t2 : Nat} (hh : h < c) (h1 : t1 < c) (h2 : t2 < c)
    (heq : (h + t1) % c = (h + t2) % c) : t1 = t2 := by
  rw [mod_lt_two _ c (by omega), mod_lt_two _ c (by omega)] at heq
  split at heq <;> split at heq <;> omega

theorem dist_pos {c h t : Nat} (hh : h < c) (ht : t < c) :
    ((h + t) % c + c - h) % c = t := by
  rw [mod_lt_two (h + t) c (by omega)]
  split
  · rw [mod_lt_two _ c (by omega)]; split <;> omega
  · rw [mod_lt_two _ c (by omega)]; split <;> omega

/-! ## The probe loops -/

section Probe

variable {K V : Type} [DecidableEq K] (hasher : K → Nat)

theorem getUnusedRecordLoop_eq (m : HashMap K V) (fuel i : Nat) :
    getUnusedRecordLoop m fuel i =
      probeLoop (fun j => decide ((m.data j).type ≠ .OCCUPIED)) m.capacity fuel i := by
  induction fuel generalizing i with
  | zero => rfl
  | succ f ih => simp [getUnusedRecordLoop, probeLoop, ih]

theorem skipPlaced_eq (c : Nat) (d : Nat → Record K V) (fuel i : Nat) :
    skipPlaced c d fuel i = probeLoop (fun j => decide ((d j).type ≠ .PLACED)) c fuel i := by
  induction fuel generalizing i with
  | zero => rfl
  | succ f ih =>
    simp only [skipPlaced, probeLoop, ih]
    by_cases h : (d i).type = .PLACED <;> simp [h]

theorem probeLoop_find {stop : Nat → Bool} {c h : Nat} (hc : IsCap c) :
    ∀ t0 fuel s, t0 < fuel → (∀ t, t < t0 → stop ((h + (s + t)) % c) = false) →
      stop ((h + (s + t0)) % c) = true →
      probeLoop stop c fuel ((h + s) % c) = some ((h + (s + t0)) % c) := by
  intro t0
  induction t0 with
  | zero =>
    intro fuel s hf _ hstop
    obtain ⟨f, rfl⟩ : ∃ f, fuel = f + 1 := ⟨fuel - 1, by omega⟩
    simp only [Nat.add_zero] at hstop
    simp [probeLoop, hstop]
  | succ t0 ih =>
    intro fuel s hf hbefore hstop
    obtain ⟨f, rfl⟩ : ∃ f, fuel = f + 1 := ⟨fuel - 1, by omega⟩
    have h0 : stop ((h + s) % c) = false := by simpa using hbefore 0 (by omega)
    have hnext : BIT_MODULO ((h + s) % c + 1) c = (h + (s + 1)) % c := by
      rw [BIT_MODULO_cap hc]
      exact (pos_succ c h s).symm
    have := ih f (s + 1) (by omega)
      (fun t ht => by
        have := hbefore (t + 1) (by omega)
        rwa [show s + (t + 1) = s + 1 + t by omega] at this)
      (by rwa [show s + (t0 + 1) = s + 1 + t0 by omega] at hstop)
    simp only [probeLoop, h0, hnext]
    rw [show s + (t0 + 1) = s + 1 + t0 by omega]
    simpa using this

theorem probeLoop_sound {stop : Nat → Bool} {c : Nat} (hc : IsCap c) :
    ∀ fuel i j, i < c → probeLoop stop c fuel i = some j → stop j = true ∧ j < c := by
  intro fuel
  induction fuel with
  | zero => intro i j _ h; simp [probeLoop] at h
  | succ f ih =>
    intro i j hi h
    simp only [probeLoop] at h
    by_cases hs : stop i = true
    · simp only [hs, if_true, Option.some.injEq] at h
      subst h
      exact ⟨hs, hi⟩
    · simp only [hs] at h
      refine ih _ j ?_ (by simpa using h)
      rw [BIT_MODULO_cap hc]
      exact Nat.mod_lt _ (isCap_pos hc)

/-- A probe over a table in which some slot stops it ends at the first such
slot of the cycle, within `c` steps. -/
theorem probeLoop_some {stop : Nat → Bool} {c h : Nat} (hc : IsCap c) (hh : h < c)
    (hex : ∃ j, j < c ∧ stop j = true) :
    ∃ t0, t0 < c ∧ probeLoop stop c c h = some ((h + t0) % c) ∧
      stop ((h + t0) % c) = true ∧ ∀ t, t < t0 → stop ((h + t) % c) = false := by
  classical
  obtain ⟨j, hj, hsj⟩ := hex
  have hd := pos_dist hh hj
  have hex2 : ∃ t, t < c ∧ stop ((h + t) % c) = true :=
    ⟨(j + c - h) % c, hd.1, by rw [hd.2]; exact hsj⟩
  refine ⟨Nat.find hex2, (Nat.find_spec hex2).1, ?_, (Nat.find_spec hex2).2, ?_⟩
  · have := @probeLoop_find stop c h hc (Nat.find hex2) c 0 (Nat.find_spec hex2).1
      (fun t ht => by
        have hmin := Nat.find_min hex2 ht
        simp only [Nat.zero_add]
        by_contra hcon
        exact hmin ⟨by have := (Nat.find_spec hex2).1; omega, by simpa using hcon⟩)
      (by simpa using (Nat.find_spec hex2).2)
    simpa [Nat.mod_eq_of_lt hh] using this
  · intro t ht
    have hmin := Nat.find_min hex2 ht
    by_contra hcon
    exact hmin ⟨by have := (Nat.find_spec hex2).1; omega, by simpa using hcon⟩

theorem probeLoop_spec {stop : Nat → Bool} {c h j : Nat} (hc : IsCap c) (hh : h < c)
    (hres : probeLoop stop c c h = some j) :
    ∃ t0, t0 < c ∧ j = (h + t0) % c ∧ stop j = true ∧ j < c ∧
      ∀ t, t < t0 → stop ((h + t) % c) = false := by
  have hs := probeLoop_sound hc c h j hh hres
  obtain ⟨t0, ht0, hr, hst, hmin⟩ := probeLoop_some hc hh ⟨j, hs.2, hs.1⟩
  rw [hres] at hr
  have hj : j = (h + t0) % c := by simpa using hr
  exact ⟨t0, ht0, hj, hs.1, hs.2, hmin⟩

end Probe

/-! ## `getRecord` -/

section GetRecord

variable {K V : Type} [DecidableEq K] (hasher : K → Nat)

theorem getHash_eq {m : HashMap K V} (hc : IsCap m.capacity) (key : K) :
    getHash hasher m key = hasher key % m.capacity :=
  BIT_MODULO_cap hc _

theorem getHash_lt {m : HashMap K V} (hc : IsCap m.capacity) (key : K) :
    getHash hasher m key < m.capacity := by
  rw [getHash_eq hasher hc]
  exact Nat.mod_lt _ (isCap_pos hc)

theorem getRecordLoop_sound (m : HashMap K V) (key : K) (h : Nat) (hc : IsCap m.capacity) :
    ∀ fuel i j, i < m.capacity → getRecordLoop m key h fuel i = some (some j) →
      j < m.capacity ∧ Holds m key j := by
  intro fuel
  induction fuel with
  | zero => intro i j _ hr; simp [getRecordLoop] at hr
  | succ f ih =>
    intro i j hi hr
    simp only [getRecordLoop] at hr
    split at hr
    · simp at hr
    · split at hr
      · rename_i hocc
        simp only [Option.some.injEq] at hr
        subst hr
        exact ⟨hi, hocc⟩
      · split at hr
        · simp at hr
        · refine ih _ j ?_ hr
          rw [BIT_MODULO_cap hc]
          exact Nat.mod_lt _ (isCap_pos hc)

theorem getRecordLoop_mono (m : HashMap K V) (key : K) (h : Nat) :
    ∀ fuel i r n, getRecordLoop m key h fuel i = some r →
      getRecordLoop m key h (fuel + n) i = some r := by
  intro fuel
  induction fuel with
  | zero => intro i r n hr; simp [getRecordLoop] at hr
  | succ f ih =>
    intro i r n hr
    rw [show f + 1 + n = (f + n) + 1 by omega]
    simp only [getRecordLoop] at hr ⊢
    split
    · simpa [*] using hr
    · split
      · simpa [*] using hr
      · split
        · simpa [*] using hr
        · simp only [*, if_false] at hr
          exact ih _ _ _ hr

/-- If the probe from `h` meets a record holding `key` before it meets an
`UNUSED` slot, `getRecord` returns the first such record. -/
theorem getRecordLoop_found (m : HashMap K V) (key : K) {h : Nat}
    (hc : IsCap m.capacity) (hh : h < m.capacity) :
    ∀ t0 fuel s, t0 < fuel → s + fuel ≤ m.capacity →
      (∀ t, t < t0 → (m.data ((h + (s + t)) % m.capacity)).type ≠ .UNUSED ∧
        ¬ Holds m key ((h + (s + t)) % m.capacity)) →
      Holds m key ((h + (s + t0)) % m.capacity) →
      getRecordLoop m key h fuel ((h + s) % m.capacity) =
        some (some ((h + (s + t0)) % m.capacity)) := by
  intro t0
  induction t0 with
  | zero =>
    intro fuel s hf _ _ hfound
    obtain ⟨f, rfl⟩ : ∃ f, fuel = f + 1 := ⟨fuel - 1, by omega⟩
    simp only [Nat.add_zero] at hfound
    have h1 : (m.data ((h + s) % m.capacity)).type ≠ .UNUSED := by
      rw [hfound.1]; decide
    simp only [getRecordLoop, h1, if_false, Nat.add_zero]
    exact if_pos hfound
  | succ t0 ih =>
    intro fuel s hf hle hbefore hfound
    obtain ⟨f, rfl⟩ : ∃ f, fuel = f + 1 := ⟨fuel - 1, by omega⟩
    have h0 := hbefore 0 (by omega)
    simp only [Nat.add_zero] at h0
    have hnext : BIT_MODULO ((h + s) % m.capacity + 1) m.capacity = (h + (s + 1)) % m.capacity := by
      rw [BIT_MODULO_cap hc]
      exact (pos_succ _ h s).symm
    have hne : (h + (s + 1)) % m.capacity ≠ h := by
      intro heq
      have := @pos_inj m.capacity h (s + 1) 0 hh (by omega) (by omega)
        (by rw [heq, Nat.add_zero, Nat.mod_eq_of_lt hh])
      omega
    have := ih f (s + 1) (by omega) (by omega)
      (fun t ht => by
        have := hbefore (t + 1) (by omega)
        rwa [show s + (t + 1) = s + 1 + t by omega] at this)
      (by rwa [show s + (t0 + 1) = s + 1 + t0 by omega] at hfound)
    simp only [getRecordLoop, h0.1, if_false, hnext, hne]
    rw [show s + (t0 + 1) = s + 1 + t0 by omega]
    exact (if_neg h0.2).trans this

/-- If no record on the rest of the cycle holds `key`, `getRecord` returns
`nullptr`, at the latest when the probe is back at `h`. -/
theorem getRecordLoop_absent (m : HashMap K V) (key : K) {h : Nat}
    (hc : IsCap m.capacity) (hh : h < m.capacity) :
    ∀ fuel s, 0 < fuel → s + fuel = m.capacity →
      (∀ t, t < fuel → ¬ Holds m key ((h + (s + t)) % m.capacity)) →
      getRecordLoop m key h fuel ((h + s) % m.capacity) = some none := by
  intro fuel
  induction fuel with
  | zero => intro s hf; omega
  | succ f ih =>
    intro s _ hsum hno
    have h0 := hno 0 (by omega)
    simp only [Nat.add_zero] at h0
    have hnext : BIT_MODULO ((h + s) % m.capacity + 1) m.capacity = (h + (s + 1)) % m.capacity := by
      rw [BIT_MODULO_cap hc]
      exact (pos_succ _ h s).symm
    simp only [getRecordLoop, hnext]
    split
    · rfl
    · refine (if_neg h0).trans ?_
      by_cases hf : f = 0
      · have hwrap : (h + (s + 1)) % m.capacity = h := by
          rw [show s + 1 = m.capacity by omega, Nat.add_mod_right, Nat.mod_eq_of_lt hh]
        rw [if_pos hwrap]
      · have hne : (h + (s + 1)) % m.capacity ≠ h := by
          intro heq
          have := @pos_inj m.capacity h (s + 1) 0 hh (by omega)
            (by omega) (by rw [heq, Nat.add_zero, Nat.mod_eq_of_lt hh])
          omega
        rw [if_neg hne]
        exact ih (s + 1) (by omega) (by omega)
          (fun t ht => by
            have := hno (t + 1) (by omega)
            rwa [show s + (t + 1) = s + 1 + t by omega] at this)

theorem getRecord_sound {m : HashMap K V} {key : K} {j : Nat} (hc : IsCap m.capacity)
    (h : getRecord hasher m key = some (some j)) : j < m.capacity ∧ Holds m key j :=
  getRecordLoop_sound m key _ hc _ _ j (getHash_lt hasher hc key) h

theorem getRecord_absent {m : HashMap K V} {key : K} (hc : IsCap m.capacity)
    (hno : ∀ i, i < m.capacity → ¬ Holds m key i) :
    getRecord hasher m key = some none := by
  have hh := getHash_lt hasher hc key
  have := getRecordLoop_absent m key hc hh m.capacity 0 (isCap_pos hc) (by omega)
    (fun t _ => hno _ (Nat.mod_lt _ (isCap_pos hc)))
  simpa [getRecord, getRecordFuel, Nat.mod_eq_of_lt hh] using this

theorem getRecord_found {m : HashMap K V} {key : K} {i : Nat} (hc : IsCap m.capacity)
    (hp : ProbePath hasher m) (hd : DistinctKeys m) (hi : i < m.capacity)
    (hk : Holds m key i) : getRecord hasher m key = some (some i) := by
  have hh := getHash_lt hasher hc key
  have hdist := pos_dist hh hi
  have hpi := hp i hi hk.1
  rw [hk.2] at hpi
  have := getRecordLoop_found m key hc hh
    ((i + m.capacity - getHash hasher m key) % m.capacity) m.capacity 0 hdist.1 (by omega)
    (fun t ht => by
      simp only [Nat.zero_add]
      refine ⟨hpi t ht, fun hk2 => ?_⟩
      have hlt : (getHash hasher m key + t) % m.capacity < m.capacity := Nat.mod_lt _ (isCap_pos hc)
      have heq := hd _ i hlt hi hk2.1 hk.1 (by rw [hk2.2, hk.2])
      have := pos_inj hh (by omega) hdist.1 (heq.trans hdist.2.symm)
      omega)
    (by simp only [Nat.zero_add]; rw [hdist.2]; exact hk)
  simpa [getRecord, getRecordFuel, Nat.mod_eq_of_lt hh, hdist.2] using this

/-- On a table with the probe-path invariant and distinct keys, `getRecord`
finds a key exactly when some `OCCUPIED` record holds it. -/
theorem getRecord_none_iff {m : HashMap K V} {key : K} (hc : IsCap m.capacity)
    (hp : ProbePath hasher m) (hd : DistinctKeys m) :
    getRecord hasher m key = some none ↔ ∀ i, i < m.capacity → ¬ Holds m key i := by
  constructor
  · intro h i hi hk
    rw [getRecord_found hasher hc hp hd hi hk] at h
    simp at h
  · exact getRecord_absent hasher hc

theorem getRecord_total {m : HashMap K V} (key : K) (hc : IsCap m.capacity) :
    ∃ r, getRecord hasher m key = some r := by
  have hh := getHash_lt hasher hc key
  have key2 : ∀ fuel s, 0 < fuel → s + fuel = m.capacity →
      ∃ r, getRecordLoop m key (getHash hasher m key) fuel
        ((getHash hasher m key + s) % m.capacity) = some r := by
    intro fuel
    induction fuel with
    | zero => intro s hf; omega
    | succ f ih =>
      intro s _ hsum
      simp only [getRecordLoop]
      split
      · exact ⟨_, rfl⟩
      · split
        · exact ⟨_, rfl⟩
        · split
          · exact ⟨_, rfl⟩
          · rename_i hne
            have hnext : BIT_MODULO ((getHash hasher m key + s) % m.capacity + 1)
                m.capacity = (getHash hasher m key + (s + 1)) % m.capacity := by
              rw [BIT_MODULO_cap hc]
              exact (pos_succ _ _ s).symm
            rw [hnext] at hne ⊢
            have hf : f ≠ 0 := by
              intro hf0
              apply hne
              rw [show s + 1 = m.capacity by omega, Nat.add_mod_right,
                Nat.mod_eq_of_lt hh]
            exact ih (s + 1) (by omega) (by omega)
  obtain ⟨r, hr⟩ := key2 m.capacity 0 (isCap_pos hc) (by omega)
  exact ⟨r, by simpa [getRecord, getRecordFuel, Nat.mod_eq_of_lt hh] using hr⟩

end GetRecord

/-! ## Stores and the simple loops -/

section Stores

variable {K V : Type} [DecidableEq K]

@[simp] theorem store_same (d : Nat → Record K V) (i : Nat) (r : Record K V) :
    store d i r i = r := by simp [store]

theorem store_other (d : Nat → Record K V) {i j : Nat} (r : Record K V) (h : j ≠ i) :
    store d i r j = d j := by simp [store, h]

theorem store_apply (d : Nat → Record K V) (i j : Nat) (r : Record K V) :
    store d i r j = if j = i then r else d j := rfl

@[simp] theorem withType_type (r : Record K V) (t : RecordType) : (r.withType t).type = t := rfl

@[simp] theorem withType_key (r : Record K V) (t : RecordType) : (r.withType t).key = r.key := rfl

@[simp] theorem withType_value (r : Record K V) (t : RecordType) :
    (r.withType t).value = r.value := rfl

theorem clearLoop_spec (n : Nat) (m : HashMap K V) :
    (clearLoop n m).capacity = m.capacity ∧ (clearLoop n m).size = m.size ∧
      ∀ i, (clearLoop n m).data i =
        if i < n then (m.data i).withType .UNUSED else m.data i := by
  induction n with
  | zero => simp [clearLoop]
  | succ n ih =>
    obtain ⟨h1, h2, h3⟩ := ih
    refine ⟨h1, h2, fun i => ?_⟩
    simp only [clearLoop, store_apply, h3]
    by_cases hi : i = n
    · subst hi; simp
    · by_cases hlt : i < n
      · simp [hi, hlt, Nat.lt_succ_of_lt hlt]
      · have : ¬ i < n + 1 := by omega
        simp [hi, hlt, this]

theorem growLoop_spec (lo n : Nat) (m : HashMap K V) :
    (growLoop lo n m).capacity = m.capacity ∧ (growLoop lo n m).size = m.size ∧
      ∀ i, (growLoop lo n m).data i =
        if lo ≤ i ∧ i < lo + n then (m.data i).withType .UNUSED else m.data i := by
  induction n with
  | zero =>
    refine ⟨rfl, rfl, fun i => ?_⟩
    have : ¬ (lo ≤ i ∧ i < lo) := by omega
    simp only [growLoop, Nat.add_zero]
    rw [if_neg this]
  | succ n ih =>
    obtain ⟨h1, h2, h3⟩ := ih
    refine ⟨h1, h2, fun i => ?_⟩
    simp only [growLoop, store_apply, h3]
    by_cases hi : i = lo + n
    · subst hi; simp
    · by_cases hlt : lo ≤ i ∧ i < lo + n
      · have : lo ≤ i ∧ i < lo + (n + 1) := ⟨hlt.1, by omega⟩
        simp [hi, hlt, this]
      · have : ¬ (lo ≤ i ∧ i < lo + (n + 1)) := by omega
        simp [hi, hlt, this]

theorem unmarkLoop_spec (n : Nat) (m : HashMap K V) :
    (unmarkLoop n m).capacity = m.capacity ∧ (unmarkLoop n m).size = m.size ∧
      ∀ i, (unmarkLoop n m).data i =
        if i < n ∧ (m.data i).type = .PLACED then (m.data i).withType .OCCUPIED
        else m.data i := by
  induction n with
  | zero => simp [unmarkLoop]
  | succ n ih =>
    obtain ⟨h1, h2, h3⟩ := ih
    have hn : (unmarkLoop n m).data n = m.data n := by simp [h3]
    simp only [unmarkLoop, hn]
    by_cases hp : (m.data n).type = .PLACED
    · simp only [hp, if_true]
      refine ⟨h1, h2, fun i => ?_⟩
      simp only [store_apply, h3]
      by_cases hi : i = n
      · subst hi; simp [hp]
      · by_cases hlt : i < n
        · simp [hi, hlt, Nat.lt_succ_of_lt hlt]
        · have : ¬ i < n + 1 := by omega
          simp [hi, hlt, this]
    · simp only [hp, if_false]
      refine ⟨h1, h2, fun i => ?_⟩
      rw [h3]
      by_cases hi : i = n
      · subst hi; simp [hp]
      · by_cases hlt : i < n
        · simp [hlt, Nat.lt_succ_of_lt hlt]
        · have : ¬ i < n + 1 := by omega
          simp [hlt, this]

/-! ### Counting records -/

theorem countType_eq_card (p : RecordType → Bool) (d : Nat → Record K V) (n : Nat) :
    countType p d n = ((Finset.range n).filter (fun i => p (d i).type = true)).card := by
  induction n with
  | zero => simp [countType]
  | succ n ih =>
    rw [countType, ih, Finset.range_succ, Finset.filter_insert]
    by_cases hp : p (d n).type = true
    · simp [hp]
    · simp [hp]

theorem countType_le (p : RecordType → Bool) (d : Nat → Record K V) (n : Nat) :
    countType p d n ≤ n := by
  induction n with
  | zero => simp [countType]
  | succ n ih => rw [countType]; split <;> omega

theorem countType_congr (p q : RecordType → Bool) (d d' : Nat → Record K V) (n : Nat)
    (h : ∀ i, i < n → p (d' i).type = q (d i).type) : countType p d' n = countType q d n := by
  induction n with
  | zero => rfl
  | succ n ih =>
    rw [countType, countType, ih (fun i hi => h i (by omega)), h n (by omega)]

theorem countType_store (p : RecordType → Bool) (d : Nat → Record K V) (n a : Nat)
    (r : Record K V) (ha : a < n) :
    countType p (store d a r) n + (if p (d a).type then 1 else 0) =
      countType p d n + (if p r.type then 1 else 0) := by
  induction n with
  | zero => omega
  | succ n ih =>
    rw [countType, countType]
    by_cases han : a = n
    · subst han
      rw [countType_congr p p d (store d a r) a (fun i hi => by rw [store_other _ _ (by omega)])]
      simp only [store_same]
      omega
    · have := ih (by omega)
      rw [store_other _ _ (Ne.symm han)]
      omega

/-- If fewer than `n` of the first `n` records satisfy `p`, one of them does
not. -/
theorem countType_lt_exists (p : RecordType → Bool) (d : Nat → Record K V) (n : Nat)
    (h : countType p d n < n) : ∃ i, i < n ∧ p (d i).type = false := by
  induction n with
  | zero => omega
  | succ n ih =>
    rw [countType] at h
    by_cases hp : p (d n).type = true
    · simp only [hp, if_true] at h
      obtain ⟨i, hi, hpi⟩ := ih (by omega)
      exact ⟨i, by omega, hpi⟩
    · exact ⟨n, by omega, by simpa using hp⟩

theorem countType_zero (p : RecordType → Bool) (d : Nat → Record K V) (n : Nat)
    (h : countType p d n = 0) : ∀ i, i < n → p (d i).type = false := by
  induction n with
  | zero => intro i hi; omega
  | succ n ih =>
    rw [countType] at h
    intro i hi
    by_cases hin : i = n
    · subst hin
      by_contra hp
      simp only [Bool.not_eq_false] at hp
      simp [hp] at h
    · exact ih (by omega) i (by omega)

theorem countType_pos (p : RecordType → Bool) (d : Nat → Record K V) (n i : Nat)
    (hi : i < n) (hp : p (d i).type = true) : 0 < countType p d n := by
  by_contra h
  have := countType_zero p d n (by omega) i hi
  rw [hp] at this
  exact Bool.noConfusion this

theorem countType_none (p : RecordType → Bool) (d : Nat → Record K V) (n : Nat)
    (h : ∀ i, i < n → p (d i).type = false) : countType p d n = 0 := by
  induction n with
  | zero => rfl
  | succ n ih =>
    rw [countType, ih (fun i hi => h i (by omega)), h n (by omega)]
    simp

theorem countType_split (p : RecordType → Bool) (d : Nat → Record K V) (n k : Nat)
    (h : ∀ i, n ≤ i → i < n + k → p (d i).type = false) :
    countType p d (n + k) = countType p d n := by
  induction k with
  | zero => rfl
  | succ k ih =>
    rw [← Nat.add_assoc, countType, ih (fun i h1 h2 => h i h1 (by omega)),
      h (n + k) (by omega) (by omega)]
    simp

end Stores

/-! ## The in-place rehash -/

section RehashCore

variable {K V : Type} [DecidableEq K] (hasher : K → Nat)

theorem live_iff (d : Nat → Record K V) (i : Nat) :
    Live d i ↔ (d i).type = .OCCUPIED ∨ (d i).type = .PLACED := by
  simp [Live, isLive]

theorem sameLive_refl (c : Nat) (d : Nat → Record K V) : SameLive c d d :=
  ⟨fun _ _ => Iff.rfl, id, rfl⟩

theorem sameLive_trans {c : Nat} {d e f : Nat → Record K V} (h1 : SameLive c d e)
    (h2 : SameLive c e f) : SameLive c d f :=
  ⟨fun k v => (h2.content k v).trans (h1.content k v), fun h => h2.distinct (h1.distinct h),
    h2.count.trans h1.count⟩

theorem swap_lt {c a b j : Nat} (ha : a < c) (hb : b < c) (hj : j < c) :
    Equiv.swap a b j < c := by
  by_cases h1 : j = a
  · subst h1; simpa using hb
  · by_cases h2 : j = b
    · subst h2; simpa using ha
    · rw [Equiv.swap_apply_of_ne_of_ne h1 h2]; exact hj

/-- Exchanging the contents of two slots, and changing records that are not
live, leaves the live records the same. -/
theorem sameLive_of_swap {c a b : Nat} (ha : a < c) (hb : b < c) (d e : Nat → Record K V)
    (h : ∀ j, j < c → (Live e j ↔ Live d (Equiv.swap a b j)) ∧
      (Live e j → (e j).key = (d (Equiv.swap a b j)).key ∧
        (e j).value = (d (Equiv.swap a b j)).value)) : SameLive c d e := by
  refine ⟨fun k v => ⟨?_, ?_⟩, ?_, ?_⟩
  · rintro ⟨i, hi, hl, hk, hv⟩
    obtain ⟨h1, h2⟩ := h i hi
    exact ⟨Equiv.swap a b i, swap_lt ha hb hi, h1.mp hl, (h2 hl).1 ▸ hk, (h2 hl).2 ▸ hv⟩
  · rintro ⟨i, hi, hl, hk, hv⟩
    have hlt := swap_lt ha hb hi
    obtain ⟨h1, h2⟩ := h _ hlt
    rw [Equiv.swap_apply_self] at h1 h2
    have hl2 := h1.mpr hl
    exact ⟨Equiv.swap a b i, hlt, hl2, (h2 hl2).1.trans hk, (h2 hl2).2.trans hv⟩
  · intro hd i j hi hj hli hlj hk
    obtain ⟨h1, h2⟩ := h i hi
    obtain ⟨h3, h4⟩ := h j hj
    have := hd _ _ (swap_lt ha hb hi) (swap_lt ha hb hj) (h1.mp hli) (h3.mp hlj)
      (by rw [← (h2 hli).1, ← (h4 hlj).1, hk])
    exact (Equiv.swap a b).injective this
  · rw [countType_eq_card, countType_eq_card]
    refine Finset.card_bij (fun i _ => Equiv.swap a b i) ?_ ?_ ?_
    · intro i hi
      simp only [Finset.mem_filter, Finset.mem_range] at hi ⊢
      exact ⟨swap_lt ha hb hi.1, (h i hi.1).1.mp hi.2⟩
    · intro i _ j _ hij
      exact (Equiv.swap a b).injective hij
    · intro j hj
      simp only [Finset.mem_filter, Finset.mem_range] at hj
      have hlt := swap_lt ha hb hj.1
      refine ⟨Equiv.swap a b j, ?_, Equiv.swap_apply_self a b j⟩
      simp only [Finset.mem_filter, Finset.mem_range]
      refine ⟨hlt, ?_⟩
      have := (h _ hlt).1
      rw [Equiv.swap_apply_self] at this
      exact this.mpr hj.2

/-- Changing records without changing which slots are live, nor the key and
value of a live record, leaves the live records the same. -/
theorem sameLive_of_eq {c : Nat} (hc : 0 < c) (d e : Nat → Record K V)
    (h : ∀ j, j < c → (Live e j ↔ Live d j) ∧
      (Live e j → (e j).key = (d j).key ∧ (e j).value = (d j).value)) : SameLive c d e := by
  refine sameLive_of_swap (a := 0) (b := 0) hc hc d e ?_
  intro j hj
  simpa using h j hj

/-- The chain property survives a step that leaves the `PLACED` records alone
and adds `PLACED` records only at the end of a run of `PLACED` slots that starts
at their home slot. -/
theorem placedChain_step {c : Nat} {d e : Nat → Record K V} (hd : PlacedChain hasher c d)
    (hkeep : ∀ j, j < c → (d j).type = .PLACED → e j = d j)
    (hnew : ∀ i, i < c → (e i).type = .PLACED → (d i).type ≠ .PLACED →
      ∀ t, t < (i + c - hasher (e i).key % c) % c →
        (d ((hasher (e i).key % c + t) % c)).type = .PLACED)
    (hc : 0 < c) : PlacedChain hasher c e := by
  intro i hi hp t ht
  have hlt : (hasher (e i).key % c + t) % c < c := Nat.mod_lt _ hc
  by_cases hpd : (d i).type = .PLACED
  · have hei := hkeep i hi hpd
    rw [hei] at ht ⊢
    have := hd i hi hpd t ht
    rw [hkeep _ (by rw [← hei]; exact hlt) this]
    exact this
  · have := hnew i hi hp hpd t ht
    rw [hkeep _ hlt this]
    exact this

end RehashCore

section Walk

variable {K V : Type} [DecidableEq K] (hasher : K → Nat)

/-- What the inner loop of the walk finds: the first slot after the home slot of
the key of `d index` that is not `PLACED`. -/
theorem skipPlaced_spec {c index : Nat} {d : Nat → Record K V} (hc : IsCap c)
    (hi : index < c) (hocc : (d index).type = .OCCUPIED) :
    ∃ newIndex, skipPlaced c d c (BIT_MODULO (hasher (d index).key) c) = some newIndex ∧
      newIndex < c ∧ (d newIndex).type ≠ .PLACED ∧
      ∀ t, t < (newIndex + c - hasher (d index).key % c) % c →
        (d ((hasher (d index).key % c + t) % c)).type = .PLACED := by
  have hh : hasher (d index).key % c < c := Nat.mod_lt _ (isCap_pos hc)
  obtain ⟨t0, ht0, hres, hstop, hmin⟩ :=
    @probeLoop_some (fun j => decide ((d j).type ≠ .PLACED)) c _ hc hh
      ⟨index, hi, by simp [hocc]⟩
  refine ⟨(hasher (d index).key % c + t0) % c, ?_, Nat.mod_lt _ (isCap_pos hc),
    by simpa using hstop, ?_⟩
  · rw [skipPlaced_eq, BIT_MODULO_cap hc]
    exact hres
  · intro t ht
    rw [dist_pos hh ht0] at ht
    simpa using hmin t ht

/-- The walk ends at `index`: the record stays where it is. -/
theorem walk_stay {c index : Nat} {d : Nat → Record K V} (hc : IsCap c) (hi : index < c)
    (hocc : (d index).type = .OCCUPIED)
    (hrun : ∀ t, t < (index + c - hasher (d index).key % c) % c →
      (d ((hasher (d index).key % c + t) % c)).type = .PLACED)
    (hch : PlacedChain hasher c d) (hdone : Done index d) :
    PlacedChain hasher c (store d index ((d index).withType .PLACED)) ∧
      Done (index + 1) (store d index ((d index).withType .PLACED)) ∧
      SameLive c d (store d index ((d index).withType .PLACED)) := by
  refine ⟨placedChain_step hasher hch ?_ ?_ (isCap_pos hc), ?_, sameLive_of_eq (isCap_pos hc) _ _ ?_⟩
  · intro j _ hp
    exact store_other _ _ (fun h => by rw [h, hocc] at hp; cases hp)
  · intro i _ hp hnp t ht
    by_cases hii : i = index
    · subst hii
      simp only [store_same, withType_key] at ht ⊢
      exact hrun t ht
    · rw [store_other _ _ hii] at hp
      exact absurd hp hnp
  · intro i hlt
    by_cases hii : i = index
    · subst hii; right; simp
    · rw [store_other _ _ hii]
      exact hdone i (by omega)
  · intro j _
    simp only [live_iff]
    by_cases hj : j = index
    · subst hj
      simp [hocc]
    · rw [store_other _ _ hj]
      exact ⟨Iff.rfl, fun _ => ⟨rfl, rfl⟩⟩

/-- The walk meets an `OCCUPIED` record at `newIndex`: the two records are
exchanged and the walk goes on with the displaced one. -/
theorem walk_swap {c index newIndex : Nat} {d : Nat → Record K V} (hc : IsCap c)
    (hi : index < c) (hn : newIndex < c) (hne : newIndex ≠ index)
    (hocc : (d index).type = .OCCUPIED) (hocc2 : (d newIndex).type = .OCCUPIED)
    (hrun : ∀ t, t < (newIndex + c - hasher (d index).key % c) % c →
      (d ((hasher (d index).key % c + t) % c)).type = .PLACED)
    (hch : PlacedChain hasher c d) (hdone : Done index d) :
    PlacedChain hasher c
        (store (store d newIndex ((d index).withType .PLACED)) index (d newIndex)) ∧
      Done index (store (store d newIndex ((d index).withType .PLACED)) index (d newIndex)) ∧
      SameLive c d (store (store d newIndex ((d index).withType .PLACED)) index (d newIndex)) := by
  refine ⟨placedChain_step hasher hch ?_ ?_ (isCap_pos hc), ?_, sameLive_of_swap hi hn _ _ ?_⟩
  · intro j _ hp
    rw [store_other _ _ (fun h => by rw [h, hocc] at hp; cases hp),
      store_other _ _ (fun h => by rw [h, hocc2] at hp; cases hp)]
  · intro i _ hp hnp t ht
    by_cases hii : i = index
    · subst hii
      rw [store_same, hocc2] at hp
      cases hp
    · rw [store_other _ _ hii] at hp ht ⊢
      by_cases hin : i = newIndex
      · subst hin
        simp only [store_same, withType_key] at ht ⊢
        exact hrun t ht
      · rw [store_other _ _ hin] at hp
        exact absurd hp hnp
  · intro i hlt
    have h1 : i ≠ index := by omega
    have h2 : i ≠ newIndex := by
      intro h
      subst h
      rcases hdone i hlt with h | h <;> rw [hocc2] at h <;> cases h
    rw [store_other _ _ h1, store_other _ _ h2]
    exact hdone i hlt
  · intro j _
    simp only [live_iff]
    by_cases hj : j = index
    · subst hj
      rw [Equiv.swap_apply_left, store_same]
      exact ⟨Iff.rfl, fun _ => ⟨rfl, rfl⟩⟩
    · rw [store_other _ _ hj]
      by_cases hj2 : j = newIndex
      · subst hj2
        rw [Equiv.swap_apply_right, store_same]
        simp [hocc]
      · rw [store_other _ _ hj2, Equiv.swap_apply_of_ne_of_ne hj hj2]
        exact ⟨Iff.rfl, fun _ => ⟨rfl, rfl⟩⟩

/-- The walk meets a free slot at `newIndex`: the record moves there. -/
theorem walk_move {c index newIndex : Nat} {d : Nat → Record K V} (hc : IsCap c)
    (hi : index < c) (hn : newIndex < c) (hne : newIndex ≠ index)
    (hocc : (d index).type = .OCCUPIED) (hfree : (d newIndex).type ≠ .OCCUPIED)
    (hnp : (d newIndex).type ≠ .PLACED)
    (hrun : ∀ t, t < (newIndex + c - hasher (d index).key % c) % c →
      (d ((hasher (d index).key % c + t) % c)).type = .PLACED)
    (hch : PlacedChain hasher c d) (hdone : Done index d) :
    PlacedChain hasher c
        (store (store d newIndex ((d index).withType .PLACED)) index
          (((d index).withType .PLACED).withType .UNUSED)) ∧
      Done (index + 1) (store (store d newIndex ((d index).withType .PLACED)) index
          (((d index).withType .PLACED).withType .UNUSED)) ∧
      SameLive c d (store (store d newIndex ((d index).withType .PLACED)) index
          (((d index).withType .PLACED).withType .UNUSED)) := by
  refine ⟨placedChain_step hasher hch ?_ ?_ (isCap_pos hc), ?_, sameLive_of_swap hi hn _ _ ?_⟩
  · intro j _ hp
    rw [store_other _ _ (fun h => by rw [h, hocc] at hp; cases hp),
      store_other _ _ (fun h => by rw [h] at hp; exact hnp hp)]
  · intro i _ hp hnp2 t ht
    by_cases hii : i = index
    · subst hii
      rw [store_same] at hp
      cases hp
    · rw [store_other _ _ hii] at hp ht ⊢
      by_cases hin : i = newIndex
      · subst hin
        simp only [store_same, withType_key] at ht ⊢
        exact hrun t ht
      · rw [store_other _ _ hin] at hp
        exact absurd hp hnp2
  · intro i hlt
    by_cases hii : i = index
    · subst hii; left; simp
    · rw [store_other _ _ hii]
      by_cases hin : i = newIndex
      · subst hin; right; simp
      · rw [store_other _ _ hin]
        exact hdone i (by omega)
  · intro j _
    simp only [live_iff]
    by_cases hj : j = index
    · subst hj
      rw [Equiv.swap_apply_left, store_same]
      simp [hfree, hnp]
    · rw [store_other _ _ hj]
      by_cases hj2 : j = newIndex
      · subst hj2
        rw [Equiv.swap_apply_right, store_same]
        simp [hocc]
      · rw [store_other _ _ hj2, Equiv.swap_apply_of_ne_of_ne hj hj2]
        exact ⟨Iff.rfl, fun _ => ⟨rfl, rfl⟩⟩

end Walk

section WalkLoop

variable {K V : Type} [DecidableEq K] (hasher : K → Nat)

theorem store_shadow (d : Nat → Record K V) (i n : Nat) (x y z : Record K V) :
    store (store (store d i x) n y) i z = store (store d n y) i z := by
  funext j
  simp only [store_apply]
  split
  · rfl
  · split
    · rfl
    · simp [*]

/-- The walk of `rehash` keeps the chain property, finishes the slot `index`
and keeps the live records. -/
theorem walk_inv {c index : Nat} (hc : IsCap c) (hi : index < c) :
    ∀ fuel (d e : Nat → Record K V), PlacedChain hasher c d → Done index d →
      (d index).type = .OCCUPIED → walk hasher c index fuel d = some e →
      PlacedChain hasher c e ∧ Done (index + 1) e ∧ SameLive c d e := by
  intro fuel
  induction fuel with
  | zero => intro d e _ _ _ hw; simp [walk] at hw
  | succ f ih =>
    intro d e hch hdone hocc hw
    obtain ⟨newIndex, hsk, hn, hnp, hrun⟩ := skipPlaced_spec hasher hc hi hocc
    simp only [walk, hsk] at hw
    by_cases hne : newIndex = index
    · rw [if_pos hne] at hw
      simp only [Option.some.injEq] at hw
      subst hw
      rw [hne] at hrun
      exact walk_stay hasher hc hi hocc hrun hch hdone
    · rw [if_neg hne] at hw
      simp only [store_same, store_other _ _ hne, store_shadow] at hw
      by_cases hocc2 : (d newIndex).type = .OCCUPIED
      · rw [if_pos hocc2] at hw
        obtain ⟨h1, h2, h3⟩ := walk_swap hasher hc hi hn hne hocc hocc2 hrun hch hdone
        obtain ⟨h4, h5, h6⟩ := ih _ e h1 h2 (by rw [store_same]; exact hocc2) hw
        exact ⟨h4, h5, sameLive_trans h3 h6⟩
      · rw [if_neg hocc2] at hw
        simp only [Option.some.injEq] at hw
        subst hw
        exact walk_move hasher hc hi hn hne hocc hocc2 hnp hrun hch hdone

/-- The walk ends within as many iterations as there are `OCCUPIED` records. -/
theorem walk_total {c index : Nat} (hc : IsCap c) (hi : index < c) :
    ∀ fuel (d : Nat → Record K V), (d index).type = .OCCUPIED →
      countType (fun t => decide (t = .OCCUPIED)) d c ≤ fuel →
      ∃ e, walk hasher c index fuel d = some e := by
  intro fuel
  induction fuel with
  | zero =>
    intro d hocc hcount
    have := countType_pos (fun t => decide (t = .OCCUPIED)) d c index hi (by simp [hocc])
    omega
  | succ f ih =>
    intro d hocc hcount
    obtain ⟨newIndex, hsk, hn, hnp, hrun⟩ := skipPlaced_spec hasher hc hi hocc
    simp only [walk, hsk]
    by_cases hne : newIndex = index
    · rw [if_pos hne]; exact ⟨_, rfl⟩
    · rw [if_neg hne]
      simp only [store_same, store_other _ _ hne, store_shadow]
      by_cases hocc2 : (d newIndex).type = .OCCUPIED
      · rw [if_pos hocc2]
        refine ih _ (by rw [store_same]; exact hocc2) ?_
        have e1 := countType_store (fun t => decide (t = .OCCUPIED)) d c newIndex
          ((d index).withType .PLACED) hn
        have e2 := countType_store (fun t => decide (t = .OCCUPIED))
          (store d newIndex ((d index).withType .PLACED)) c index (d newIndex) hi
        rw [store_other _ _ (Ne.symm hne)] at e2
        simp only [hocc, hocc2, withType_type, decide_True, if_true] at e1 e2
        simp at e1
        omega
      · rw [if_neg hocc2]; exact ⟨_, rfl⟩

theorem rehashStep_inv {c index : Nat} (hc : IsCap c) (hi : index < c)
    (d e : Nat → Record K V) (hch : PlacedChain hasher c d) (hdone : Done index d)
    (hs : rehashStep hasher c index d = some e) :
    PlacedChain hasher c e ∧ Done (index + 1) e ∧ SameLive c d e := by
  unfold rehashStep at hs
  by_cases hocc : (d index).type = .OCCUPIED
  · rw [if_neg (by simpa using hocc)] at hs
    exact walk_inv hasher hc hi c d e hch hdone hocc hs
  · rw [if_pos hocc] at hs
    by_cases hdel : (d index).type = .DELETED
    · rw [if_pos hdel] at hs
      simp only [Option.some.injEq] at hs
      subst hs
      refine ⟨placedChain_step hasher hch ?_ ?_ (isCap_pos hc), ?_, sameLive_of_eq (isCap_pos hc) _ _ ?_⟩
      · intro j _ hp
        exact store_other _ _ (fun h => by rw [h, hdel] at hp; cases hp)
      · intro i _ hp hnp
        by_cases hii : i = index
        · subst hii
          rw [store_same] at hp
          cases hp
        · rw [store_other _ _ hii] at hp
          exact absurd hp hnp
      · intro i hlt
        by_cases hii : i = index
        · subst hii; left; simp
        · rw [store_other _ _ hii]
          exact hdone i (by omega)
      · intro j _
        simp only [live_iff]
        by_cases hj : j = index
        · subst hj
          simp [hdel]
        · rw [store_other _ _ hj]
          exact ⟨Iff.rfl, fun _ => ⟨rfl, rfl⟩⟩
    · rw [if_neg hdel] at hs
      simp only [Option.some.injEq] at hs
      subst hs
      refine ⟨hch, ?_, sameLive_refl c d⟩
      intro i hlt
      by_cases hii : i = index
      · subst hii
        cases hty : (d i).type
        · left; rfl
        · exact absurd hty hdel
        · exact absurd hty hocc
        · right; rfl
      · exact hdone i (by omega)

theorem rehashStep_total {c index : Nat} (hc : IsCap c) (hi : index < c)
    (d : Nat → Record K V) : ∃ e, rehashStep hasher c index d = some e := by
  unfold rehashStep
  by_cases hocc : (d index).type = .OCCUPIED
  · rw [if_neg (by simpa using hocc)]
    exact walk_total hasher hc hi c d hocc (countType_le _ _ _)
  · rw [if_pos hocc]
    split <;> exact ⟨_, rfl⟩

/-- The main loop of `rehash` keeps the chain property, finishes the slots it
has visited and keeps the live records. -/
theorem rehashLoop_inv {c : Nat} (hc : IsCap c) :
    ∀ n (d e : Nat → Record K V), n ≤ c → PlacedChain hasher c d →
      rehashLoop hasher c n d = some e →
      PlacedChain hasher c e ∧ Done n e ∧ SameLive c d e := by
  intro n
  induction n with
  | zero =>
    intro d e _ hch hr
    simp only [rehashLoop, Option.some.injEq] at hr
    subst hr
    exact ⟨hch, fun i hi => by omega, sameLive_refl c d⟩
  | succ n ih =>
    intro d e hn hch hr
    simp only [rehashLoop] at hr
    cases h1 : rehashLoop hasher c n d with
    | none => rw [h1] at hr; cases hr
    | some d1 =>
      rw [h1] at hr
      obtain ⟨a1, a2, a3⟩ := ih d d1 (by omega) hch h1
      obtain ⟨b1, b2, b3⟩ := rehashStep_inv hasher hc (by omega) d1 e a1 a2 hr
      exact ⟨b1, b2, sameLive_trans a3 b3⟩

theorem rehashLoop_total {c : Nat} (hc : IsCap c) :
    ∀ n (d : Nat → Record K V), n ≤ c → ∃ e, rehashLoop hasher c n d = some e := by
  intro n
  induction n with
  | zero => intro d _; exact ⟨d, rfl⟩
  | succ n ih =>
    intro d hn
    obtain ⟨d1, h1⟩ := ih d (by omega)
    simp only [rehashLoop, h1]
    exact rehashStep_total hasher hc (by omega) d1

end WalkLoop

/-! ## `nextPow2` -/

theorem bitLength_zero (fuel : Nat) : bitLength fuel 0 = 0 := by
  cases fuel <;> simp [bitLength]

theorem bitLength_spec : ∀ fuel x, x < 2 ^ fuel →
    x < 2 ^ bitLength fuel x ∧ (0 < x → 2 ^ (bitLength fuel x - 1) ≤ x) ∧
      bitLength fuel x ≤ fuel := by
  intro fuel
  induction fuel with
  | zero =>
    intro x hx
    simp only [bitLength]
    refine ⟨hx, fun h => ?_, Nat.le_refl _⟩
    simp at hx
    omega
  | succ f ih =>
    intro x hx
    by_cases hx0 : x = 0
    · subst hx0
      simp [bitLength]
    · have hhalf : x / 2 < 2 ^ f := by
        rw [Nat.pow_succ] at hx
        omega
      obtain ⟨h1, h2, h3⟩ := ih (x / 2) hhalf
      simp only [bitLength, hx0, if_false, Nat.add_sub_cancel]
      refine ⟨?_, fun _ => ?_, by omega⟩
      · rw [Nat.pow_succ]; omega
      · by_cases hh0 : x / 2 = 0
        · rw [hh0, bitLength_zero]
          simp
          omega
        · have h4 := h2 (by omega)
          have hb : bitLength f (x / 2) ≠ 0 := by
            intro hb
            rw [hb] at h1
            simp at h1
            omega
          obtain ⟨b, hb2⟩ : ∃ b, bitLength f (x / 2) = b + 1 := ⟨_, (Nat.succ_pred hb).symm⟩
          rw [hb2] at h4 ⊢
          simp only [Nat.add_sub_cancel] at h4
          rw [Nat.pow_succ]
          omega

/-- `nextPow2` returns the least power of two that is not below its argument,
for every argument that passes its two assertions. -/
theorem nextPow2_spec (v : Nat) (h1 : 1 ≤ v) (h2 : v ≤ 2 ^ 63) :
    ∃ e, e ≤ 63 ∧ nextPow2 v = some (2 ^ e) ∧ v ≤ 2 ^ e ∧ 2 ^ e < 2 * v := by
  have hsh : (1 <<< 63 : Nat) = 2 ^ 63 := by simp [Nat.shiftLeft_eq]
  by_cases hv1 : v = 1
  · subst hv1
    exact ⟨0, by omega, by simp [nextPow2], by simp, by simp⟩
  · have hlt : v - 1 < 2 ^ 64 := by
      have : (2 : Nat) ^ 63 < 2 ^ 64 := by norm_num
      omega
    obtain ⟨b1, b2, b3⟩ := bitLength_spec 64 (v - 1) hlt
    have b4 := b2 (by omega)
    have hb0 : bitLength 64 (v - 1) ≠ 0 := by
      intro hb
      rw [hb] at b1
      simp at b1
      omega
    obtain ⟨b, hb⟩ : ∃ b, bitLength 64 (v - 1) = b + 1 := ⟨_, (Nat.succ_pred hb0).symm⟩
    rw [hb] at b1 b4 b3
    simp only [Nat.add_sub_cancel] at b4
    have hb63 : b + 1 ≤ 63 := by
      by_contra hcon
      have : (2 : Nat) ^ 63 ≤ 2 ^ b := Nat.pow_le_pow_right (by norm_num) (by omega)
      omega
    have hpow : (2 : Nat) ^ (b + 1) ≤ 2 ^ 63 := Nat.pow_le_pow_right (by norm_num) hb63
    refine ⟨b + 1, hb63, ?_, by omega, by rw [Nat.pow_succ] at *; omega⟩
    have hmod : (2 : Nat) ^ (b + 1) % 2 ^ 64 = 2 ^ (b + 1) :=
      Nat.mod_eq_of_lt (by
        have : (2 : Nat) ^ 63 < 2 ^ 64 := by norm_num
        omega)
    have hne0 : v ≠ 0 := by omega
    have hle : ¬ v > 1 <<< 63 := by rw [hsh]; omega
    simp only [nextPow2, hne0, if_false, hle, hv1, clzl, hb, SIZE_MOD]
    rw [show 64 - (64 - (b + 1)) = b + 1 by omega, Nat.shiftLeft_eq, Nat.one_mul, hmod]

theorem nextPow2_isCap {v c : Nat} (h : nextPow2 v = some c) : IsCap c ∧ v ≤ c := by
  have h1 : 1 ≤ v := by
    by_contra hcon
    have : v = 0 := by omega
    simp [nextPow2, this] at h
  have h2 : v ≤ 2 ^ 63 := by
    by_contra hcon
    have hsh : (1 <<< 63 : Nat) = 2 ^ 63 := by simp [Nat.shiftLeft_eq]
    have hgt : v > 1 <<< 63 := by rw [hsh]; omega
    have hne0 : v ≠ 0 := by omega
    simp only [nextPow2, hne0, if_false, hgt, if_true] at h
    cases h
  obtain ⟨e, he, hn, hle, _⟩ := nextPow2_spec v h1 h2
  rw [hn] at h
  simp only [Option.some.injEq] at h
  subst h
  exact ⟨⟨e, he, rfl⟩, hle⟩

theorem nextPow2_cap {c : Nat} (hc : IsCap c) : nextPow2 c = some c := by
  have hle := (isCap_le hc)
  have hpos := (isCap_pos hc)
  obtain ⟨e, he, rfl⟩ := hc
  obtain ⟨e2, he2, hn, h1, h2⟩ := nextPow2_spec (2 ^ e) hpos hle
  rw [hn]
  have : e2 = e := by
    have a1 : e ≤ e2 := (Nat.pow_le_pow_iff_right (by norm_num)).mp h1
    have a2 : e2 < e + 1 := by
      have : (2 : Nat) ^ e2 < 2 ^ (e + 1) := by rw [Nat.pow_succ]; omega
      exact (Nat.pow_lt_pow_iff_right (by norm_num)).mp this
    omega
  rw [this]

/-! ## `rehash` -/

section Rehash

variable {K V : Type} [DecidableEq K] (hasher : K → Nat)

theorem grow_spec {m m1 : HashMap K V} {newCapacity : Nat} (hc : IsCap m.capacity)
    (h : grow m newCapacity = some m1) :
    IsCap m1.capacity ∧ m.capacity ≤ m1.capacity ∧ m1.size = m.size ∧
      (∀ i, m1.data i =
        if m.capacity ≤ i ∧ i < m1.capacity then (m.data i).withType .UNUSED else m.data i) ∧
      (newCapacity ≤ m.capacity → m1 = m) ∧
      (m.capacity < newCapacity → nextPow2 newCapacity = some m1.capacity) := by
  unfold grow at h
  by_cases hgt : newCapacity > m.capacity
  · rw [if_pos hgt] at h
    cases hn : nextPow2 newCapacity with
    | none => rw [hn] at h; cases h
    | some c =>
      rw [hn] at h
      simp only [Option.some.injEq] at h
      subst h
      obtain ⟨hcap, hle⟩ := nextPow2_isCap hn
      obtain ⟨_, g2, g3⟩ := growLoop_spec m.capacity (c - m.capacity) m
      refine ⟨hcap, by simp only; omega, g2, fun i => ?_, fun h => by omega, fun _ => rfl⟩
      simp only [g3]
      rw [show m.capacity + (c - m.capacity) = c by omega]
  · rw [if_neg hgt] at h
    simp only [Option.some.injEq] at h
    subst h
    refine ⟨hc, Nat.le_refl _, rfl, fun i => ?_, fun _ => rfl, fun h => by omega⟩
    rw [if_neg (by omega)]

theorem grow_total {m : HashMap K V} {newCapacity : Nat}
    (h : newCapacity ≤ m.capacity ∨ newCapacity ≤ 2 ^ 63) :
    ∃ m1, grow m newCapacity = some m1 := by
  unfold grow
  by_cases hgt : newCapacity > m.capacity
  · rw [if_pos hgt]
    obtain ⟨e, _, hn, _, _⟩ := nextPow2_spec newCapacity (by omega) (by omega)
    rw [hn]
    exact ⟨_, rfl⟩
  · rw [if_neg hgt]
    exact ⟨_, rfl⟩

/-- `rehash` returns whenever the assertions of `nextPow2` hold. -/
theorem rehash_total (m : HashMap K V) (newCapacity : Nat) (hc : IsCap m.capacity)
    (h : newCapacity ≤ m.capacity ∨ newCapacity ≤ 2 ^ 63) :
    ∃ r, rehash hasher m newCapacity = some r := by
  obtain ⟨m1, hg⟩ := grow_total (m := m) h
  obtain ⟨hc1, _⟩ := grow_spec hc hg
  obtain ⟨d, hd⟩ := rehashLoop_total hasher hc1 m1.capacity m1.data (Nat.le_refl _)
  refine ⟨unmarkLoop m1.capacity { m1 with data := d }, ?_⟩
  simp only [rehash, hg, hd]

theorem rehash_capacity {m r : HashMap K V} {newCapacity : Nat} (hc : IsCap m.capacity)
    (h : rehash hasher m newCapacity = some r) :
    (newCapacity ≤ m.capacity → r.capacity = m.capacity) ∧
      (m.capacity < newCapacity → nextPow2 newCapacity = some r.capacity) := by
  unfold rehash at h
  cases hg : grow m newCapacity with
  | none => rw [hg] at h; cases h
  | some m1 =>
    rw [hg] at h
    obtain ⟨_, _, _, _, g5, g6⟩ := grow_spec hc hg
    cases hd : rehashLoop hasher m1.capacity m1.capacity m1.data with
    | none => simp only [hd] at h; cases h
    | some d =>
      simp only [hd, Option.some.injEq] at h
      subst h
      obtain ⟨u1, _, _⟩ := unmarkLoop_spec m1.capacity { m1 with data := d }
      rw [u1]
      exact ⟨fun hle => by rw [g5 hle], g6⟩

/-- The in-place rehash keeps the records of the table and leaves every record
at the end of a run of `OCCUPIED` slots that starts at its home slot. -/
theorem rehash_post {m r : HashMap K V} {newCapacity : Nat} (hc : IsCap m.capacity)
    (hnp : NoPlaced m) (h : rehash hasher m newCapacity = some r) :
    RehashPost hasher m r := by
  unfold rehash at h
  cases hg : grow m newCapacity with
  | none => rw [hg] at h; cases h
  | some m1 =>
    rw [hg] at h
    obtain ⟨hc1, gle, gsize, gdata, _, _⟩ := grow_spec hc hg
    cases hd : rehashLoop hasher m1.capacity m1.capacity m1.data with
    | none => simp only [hd] at h; cases h
    | some d =>
      simp only [hd, Option.some.injEq] at h
      subst h
      obtain ⟨u1, u2, u3⟩ := unmarkLoop_spec m1.capacity { m1 with data := d }
      simp only at u1 u2 u3
      -- the grown array has no PLACED record, and is live where `m` is occupied
      have hm1np : ∀ i, i < m1.capacity → (m1.data i).type ≠ .PLACED := by
        intro i hi
        rw [gdata]
        split
        · simp
        · exact hnp i (by omega)
      have hm1live : ∀ i, i < m1.capacity →
          (Live m1.data i ↔ i < m.capacity ∧ (m.data i).type = .OCCUPIED) := by
        intro i hi
        rw [live_iff, gdata]
        by_cases hlt : i < m.capacity
        · have := hnp i hlt
          rw [if_neg (by omega)]
          simp [hlt, this]
        · rw [if_pos (by omega)]
          simp [hlt]
      have hm1eq : ∀ i, i < m.capacity → m1.data i = m.data i := by
        intro i hi
        rw [gdata, if_neg (by omega)]
      have hch0 : PlacedChain hasher m1.capacity m1.data :=
        fun i hi hp => absurd hp (hm1np i hi)
      obtain ⟨hch, hdone, hsame⟩ :=
        rehashLoop_inv hasher hc1 m1.capacity m1.data d (Nat.le_refl _) hch0 hd
      -- the result, slot by slot
      have hres : ∀ i, i < m1.capacity →
          ((d i).type = .UNUSED ∧ (unmarkLoop m1.capacity { m1 with data := d }).data i = d i) ∨
          ((d i).type = .PLACED ∧ (unmarkLoop m1.capacity { m1 with data := d }).data i =
            (d i).withType .OCCUPIED) := by
        intro i hi
        rcases hdone i hi with hu | hp
        · left
          refine ⟨hu, ?_⟩
          rw [u3, if_neg (by rw [hu]; simp)]
        · right
          refine ⟨hp, ?_⟩
          rw [u3, if_pos ⟨hi, hp⟩]
      have hocc : ∀ i, i < m1.capacity →
          (((unmarkLoop m1.capacity { m1 with data := d }).data i).type = .OCCUPIED ↔
            Live d i) := by
        intro i hi
        rw [live_iff]
        rcases hres i hi with ⟨hu, he⟩ | ⟨hp, he⟩
        · rw [he, hu]; simp
        · rw [he, hp]; simp
      have hkv : ∀ i, i < m1.capacity →
          ((unmarkLoop m1.capacity { m1 with data := d }).data i).key = (d i).key ∧
          ((unmarkLoop m1.capacity { m1 with data := d }).data i).value = (d i).value := by
        intro i hi
        rcases hres i hi with ⟨_, he⟩ | ⟨_, he⟩ <;> rw [he] <;> exact ⟨rfl, rfl⟩
      refine ⟨by rw [u1]; exact hc1, by rw [u1]; exact gle, by rw [u2]; exact gsize,
        ?_, ?_, ?_, ?_, ?_, ?_⟩
      · intro i hi
        rw [u1] at hi
        rcases hres i hi with ⟨hu, he⟩ | ⟨_, he⟩
        · rw [he, hu]; simp
        · rw [he]; simp
      · intro i hi
        rw [u1] at hi
        rcases hres i hi with ⟨hu, he⟩ | ⟨_, he⟩
        · rw [he, hu]; simp
        · rw [he]; simp
      · intro i hi ho t ht
        have hcr : IsCap (unmarkLoop m1.capacity { m1 with data := d }).capacity := by
          rw [u1]; exact hc1
        rw [getHash_eq hasher hcr] at ht ⊢
        rw [u1] at hi ht ⊢
        rcases hres i hi with ⟨hu, he⟩ | ⟨hp, he⟩
        · rw [he, hu] at ho; cases ho
        · rw [(hkv i hi).1] at ht ⊢
          have hpl := hch i hi hp t ht
          have hlt : (hasher (d i).key % m1.capacity + t) % m1.capacity < m1.capacity :=
            Nat.mod_lt _ (isCap_pos hc1)
          rcases hres _ hlt with ⟨hu2, _⟩ | ⟨_, he2⟩
          · rw [hu2] at hpl; cases hpl
          · rw [he2]; simp
      · intro hdist i j hi hj hoi hoj hk
        rw [u1] at hi hj
        have hld : LiveDistinct m1.capacity m1.data := by
          intro a b ha hb hla hlb hkab
          obtain ⟨ha1, ha2⟩ := (hm1live a ha).mp hla
          obtain ⟨hb1, hb2⟩ := (hm1live b hb).mp hlb
          rw [hm1eq a ha1, hm1eq b hb1] at hkab
          exact hdist a b ha1 hb1 ha2 hb2 hkab
        refine hsame.distinct hld i j hi hj ((hocc i hi).mp hoi) ((hocc j hj).mp hoj) ?_
        rw [← (hkv i hi).1, ← (hkv j hj).1]
        exact hk
      · unfold occupied
        rw [u1]
        have e1 : countType (fun t => decide (t = .OCCUPIED))
            (unmarkLoop m1.capacity { m1 with data := d }).data m1.capacity =
            countType isLive d m1.capacity := by
          refine countType_congr _ _ _ _ _ (fun i hi => ?_)
          have := hocc i hi
          rw [Live] at this
          by_cases hl : isLive (d i).type = true
          · rw [hl]; simpa using this.mpr hl
          · have hn : ¬ ((unmarkLoop m1.capacity { m1 with data := d }).data i).type =
                .OCCUPIED := fun hx => hl (this.mp hx)
            simp only [Bool.not_eq_true] at hl
            rw [hl]
            simpa using hn
        have e2 : countType isLive m1.data m1.capacity = countType isLive m1.data m.capacity := by
          rw [show m1.capacity = m.capacity + (m1.capacity - m.capacity) by omega]
          refine countType_split _ _ _ _ (fun i h1 h2 => ?_)
          have hi : i < m1.capacity := by omega
          have := hm1live i hi
          rw [Live] at this
          by_contra hcon
          simp only [Bool.not_eq_false] at hcon
          have := (this.mp hcon).1
          omega
        have e3 : countType isLive m1.data m.capacity =
            countType (fun t => decide (t = .OCCUPIED)) m.data m.capacity := by
          refine countType_congr _ _ _ _ _ (fun i hi => ?_)
          have := hm1live i (by omega)
          rw [Live] at this
          by_cases hl : isLive (m1.data i).type = true
          · rw [hl]; simpa using (this.mp hl).2
          · have hn : ¬ (m.data i).type = .OCCUPIED := fun hx => hl (this.mpr ⟨hi, hx⟩)
            simp only [Bool.not_eq_true] at hl
            rw [hl]
            simpa using hn
        rw [e1, hsame.count, e2, e3]
      · intro k v
        have hcont := hsame.content k v
        constructor
        · rintro ⟨i, hi, ⟨ho, hk⟩, hv⟩
          rw [u1] at hi
          obtain ⟨j, hj, hlj, hkj, hvj⟩ := hcont.mp
            ⟨i, hi, (hocc i hi).mp ho, (hkv i hi).1 ▸ hk, (hkv i hi).2 ▸ hv⟩
          obtain ⟨hj1, hj2⟩ := (hm1live j hj).mp hlj
          rw [hm1eq j hj1] at hkj hvj
          exact ⟨j, hj1, ⟨hj2, hkj⟩, hvj⟩
        · rintro ⟨j, hj, ⟨ho, hk⟩, hv⟩
          have hj1 : j < m1.capacity := by omega
          obtain ⟨i, hi, hli, hki, hvi⟩ := hcont.mpr
            ⟨j, hj1, (hm1live j hj1).mpr ⟨hj, ho⟩, by rw [hm1eq j hj]; exact hk,
              by rw [hm1eq j hj]; exact hv⟩
          exact ⟨i, by rw [u1]; exact hi, ⟨(hocc i hi).mpr hli, (hkv i hi).1.trans hki⟩,
            (hkv i hi).2.trans hvi⟩

end Rehash

/-! ## Lookup -/

section Lookup

variable {K V : Type} [DecidableEq K] (hasher : K → Nat)

theorem get_eq_lookup (m : HashMap K V) (key : K) : get hasher m key = lookup hasher m key := rfl

/-- On a table with the probe-path invariant and distinct keys, looking a key
up gives the value stored with it. -/
theorem lookup_eq_some_iff {m : HashMap K V} (hc : IsCap m.capacity)
    (hp : ProbePath hasher m) (hd : DistinctKeys m) (k : K) (v : V) :
    lookup hasher m k = some v ↔ Stores m k v := by
  constructor
  · intro h
    unfold lookup at h
    split at h
    · rename_i i hg
      obtain ⟨hi, hk⟩ := getRecord_sound hasher hc hg
      simp only [Option.some.injEq] at h
      exact ⟨i, hi, hk, h⟩
    · cases h
  · rintro ⟨i, hi, hk, hv⟩
    unfold lookup
    rw [getRecord_found hasher hc hp hd hi hk]
    simp [hv]

theorem lookup_eq_none_iff {m : HashMap K V} (hc : IsCap m.capacity)
    (hp : ProbePath hasher m) (hd : DistinctKeys m) (k : K) :
    lookup hasher m k = none ↔ getRecord hasher m k = some none := by
  obtain ⟨r, hr⟩ := getRecord_total hasher k hc
  unfold lookup
  rw [hr]
  cases r <;> simp

/-- Two tables that store the same records answer every lookup alike. -/
theorem lookup_congr {m r : HashMap K V} (hc : IsCap m.capacity) (hp : ProbePath hasher m)
    (hd : DistinctKeys m) (hc2 : IsCap r.capacity) (hp2 : ProbePath hasher r)
    (hd2 : DistinctKeys r) (k : K) (h : ∀ v, Stores r k v ↔ Stores m k v) :
    lookup hasher r k = lookup hasher m k := by
  apply Option.ext
  intro v
  simp only [Option.mem_def]
  rw [lookup_eq_some_iff hasher hc2 hp2 hd2, lookup_eq_some_iff hasher hc hp hd]
  exact h v

theorem sound_lookup_some {m : HashMap K V} (h : Sound hasher m) (k : K) (v : V) :
    lookup hasher m k = some v ↔ Stores m k v :=
  lookup_eq_some_iff hasher h.cap h.probe h.distinct k v

theorem sound_getRecord_none {m : HashMap K V} (h : Sound hasher m) (k : K) :
    getRecord hasher m k = some none ↔ ∀ v, ¬ Stores m k v := by
  rw [getRecord_none_iff hasher h.cap h.probe h.distinct]
  constructor
  · rintro hno v ⟨i, hi, hk, _⟩
    exact hno i hi hk
  · intro hno i hi hk
    exact hno _ ⟨i, hi, hk, rfl⟩

end Lookup

/-! ## The load factor test and `reserve` -/

theorem toDouble_small {v : Nat} (h : v < 2 ^ 53) : toDouble v = v := by
  unfold toDouble
  rw [if_pos h]

theorem toDouble_zero : toDouble 0 = 0 := by simp [toDouble]

/-- Below `2^53` the test `(double)value / capacity > 0.7` is the exact
comparison with the `double` nearest to `0.7`. -/
theorem loadExceeds_small {v c : Nat} (hv : v < 2 ^ 53) (hc : 0 < c) :
    loadExceeds v c = decide (MAX_LOAD_NUM * c < v * 2 ^ 52) := by
  simp [loadExceeds, toDouble_small hv, Nat.pos_iff_ne_zero.mp hc]

/-- For a power-of-two capacity up to `2^52` the test is the comparison of
`value / capacity` with seven tenths. -/
theorem loadExceeds_iff_tenths {v e : Nat} (hv : v < 2 ^ 53) (he : e ≤ 52) :
    loadExceeds v (2 ^ e) = true ↔ 7 * 2 ^ e < 10 * v := by
  rw [loadExceeds_small hv (Nat.two_pow_pos e)]
  simp only [decide_eq_true_eq, MAX_LOAD_NUM]
  obtain ⟨k, hk⟩ : ∃ k, 52 = e + k := ⟨52 - e, by omega⟩
  rw [hk, Nat.pow_add]
  have hpos : 0 < 2 ^ e := Nat.two_pow_pos e
  have h52 : (2 : Nat) ^ e * 2 ^ k = 4503599627370496 := by
    rw [← Nat.pow_add, ← hk]
  constructor
  · intro h
    -- M * 2^e < v * 2^e * 2^k, so M < v * 2^k, so 10 * M + 10 ≤ 10 * v * 2^k
    have h1 : 3152519739159347 < v * 2 ^ k := by
      have : 3152519739159347 * 2 ^ e < (v * 2 ^ k) * 2 ^ e := by
        calc 3152519739159347 * 2 ^ e < v * (2 ^ e * 2 ^ k) := h
          _ = (v * 2 ^ k) * 2 ^ e := by ring
      exact Nat.lt_of_mul_lt_mul_right this
    by_contra hcon
    have h2 : 10 * v * 2 ^ k ≤ 7 * 2 ^ e * 2 ^ k := Nat.mul_le_mul_right _ (by omega)
    have h3 : 7 * 2 ^ e * 2 ^ k = 7 * 4503599627370496 := by rw [Nat.mul_assoc, h52]
    have h4 : 10 * v * 2 ^ k = 10 * (v * 2 ^ k) := by ring
    omega
  · intro h
    have h2 : 7 * 2 ^ e * 2 ^ k < 10 * v * 2 ^ k :=
      Nat.mul_lt_mul_of_pos_right h (Nat.two_pow_pos k)
    have h3 : 7 * 2 ^ e * 2 ^ k = 7 * 4503599627370496 := by rw [Nat.mul_assoc, h52]
    have h4 : 10 * v * 2 ^ k = 10 * (v * 2 ^ k) := by ring
    have h1 : 3152519739159347 < v * 2 ^ k := by omega
    calc 3152519739159347 * 2 ^ e < (v * 2 ^ k) * 2 ^ e :=
          Nat.mul_lt_mul_of_pos_right h1 hpos
      _ = v * (2 ^ e * 2 ^ k) := by ring

/-- A larger capacity never turns an acceptable load into an excessive one. -/
theorem loadExceeds_mono {v c c2 : Nat} (hc : 0 < c) (hle : c ≤ c2)
    (h : loadExceeds v c = false) : loadExceeds v c2 = false := by
  have h1 : c ≠ 0 := by omega
  have h2 : c2 ≠ 0 := by omega
  simp only [loadExceeds, h1, h2, if_false, decide_eq_false_iff_not, Nat.not_lt] at h ⊢
  exact Nat.le_trans h (Nat.mul_le_mul_left _ hle)

theorem loadExceeds_pos {v c : Nat} (h : loadExceeds v c = true) : 0 < v := by
  by_contra hv
  have : v = 0 := by omega
  subst this
  simp [loadExceeds, toDouble_zero] at h

theorem shift_pow {e : Nat} (he : e + 1 ≤ 63) : (2 ^ e <<< 1) % SIZE_MOD = 2 ^ (e + 1) := by
  have h1 : (2 : Nat) ^ (e + 1) ≤ 2 ^ 63 := Nat.pow_le_pow_right (by norm_num) he
  have h2 : (2 : Nat) ^ 63 < 2 ^ 64 := by norm_num
  rw [Nat.shiftLeft_eq, ← Nat.pow_succ]
  exact Nat.mod_eq_of_lt (by unfold SIZE_MOD; omega)

theorem shift_top : (2 ^ 63 <<< 1) % SIZE_MOD = 0 := by
  simp [Nat.shiftLeft_eq, SIZE_MOD]

/-- Once `newCapacity` has wrapped to zero the loop of `reserve` never ends. -/
theorem reserveLoop_zero {v : Nat} (hv : 0 < v) : ∀ fuel, reserveLoop v fuel 0 = none := by
  intro fuel
  induction fuel with
  | zero => rfl
  | succ f ih =>
    have h0 : (0 <<< 1) % SIZE_MOD = 0 := by simp
    have hl : loadExceeds v 0 = true := by simp [loadExceeds, hv]
    simp only [reserveLoop, h0, hl, if_true]
    exact ih

/-- When the loop of `reserve` ends, it has doubled the capacity the least
number of times that makes the load acceptable. -/
theorem reserveLoop_sound {v : Nat} (hv : 0 < v) :
    ∀ fuel e nc, e ≤ 63 → reserveLoop v fuel (2 ^ e) = some nc →
      ∃ j, 1 ≤ j ∧ e + j ≤ 63 ∧ nc = 2 ^ (e + j) ∧ loadExceeds v nc = false ∧
        ∀ i, 1 ≤ i → i < j → loadExceeds v (2 ^ (e + i)) = true := by
  intro fuel
  induction fuel with
  | zero => intro e nc _ h; simp [reserveLoop] at h
  | succ f ih =>
    intro e nc he h
    by_cases he63 : e = 63
    · subst he63
      simp only [reserveLoop, shift_top] at h
      have hl : loadExceeds v 0 = true := by simp [loadExceeds, hv]
      rw [if_pos hl, reserveLoop_zero hv] at h
      cases h
    · have hs := shift_pow (e := e) (by omega)
      simp only [reserveLoop, hs] at h
      by_cases hl : loadExceeds v (2 ^ (e + 1)) = true
      · rw [if_pos hl] at h
        obtain ⟨j, hj1, hj2, hj3, hj4, hj5⟩ := ih (e + 1) nc (by omega) h
        refine ⟨j + 1, by omega, by omega, by rw [hj3]; congr 1; omega, hj4, ?_⟩
        intro i hi1 hi2
        by_cases hi : i = 1
        · subst hi; exact hl
        · have := hj5 (i - 1) (by omega) (by omega)
          rwa [show e + 1 + (i - 1) = e + i by omega] at this
      · rw [if_neg hl] at h
        simp only [Option.some.injEq] at h
        subst h
        exact ⟨1, by omega, by omega, rfl, by simpa using hl, fun i h1 h2 => by omega⟩

/-- The loop of `reserve` ends if some capacity that fits a `size_t` makes the
load acceptable. -/
theorem reserveLoop_total {v : Nat} :
    ∀ gap e fuel, 1 ≤ gap → e + gap ≤ 63 → gap ≤ fuel →
      loadExceeds v (2 ^ (e + gap)) = false → ∃ nc, reserveLoop v fuel (2 ^ e) = some nc := by
  intro gap
  induction gap with
  | zero => intro e fuel h; omega
  | succ g ih =>
    intro e fuel _ hle hfuel hok
    obtain ⟨f, rfl⟩ : ∃ f, fuel = f + 1 := ⟨fuel - 1, by omega⟩
    have hs := shift_pow (e := e) (by omega)
    simp only [reserveLoop, hs]
    by_cases hl : loadExceeds v (2 ^ (e + 1)) = true
    · rw [if_pos hl]
      have hg : 1 ≤ g := by
        by_contra hcon
        have : g = 0 := by omega
        subst this
        rw [hok] at hl
        cases hl
      exact ih (e + 1) f hg (by omega) (by omega)
        (by rwa [show e + 1 + g = e + (g + 1) by omega])
    · rw [if_neg hl]
      exact ⟨_, rfl⟩

section Reserve

variable {K V : Type} [DecidableEq K] (hasher : K → Nat)

theorem rehashPost_kept {m r : HashMap K V} (h : RehashPost hasher m r) : Kept hasher m r :=
  ⟨h.cap, h.capLe, h.size, h.noPlaced, fun _ => h.probe, h.distinct, h.count, h.content⟩

theorem kept_refl {m : HashMap K V} (hc : IsCap m.capacity) (hnp : NoPlaced m) :
    Kept hasher m m :=
  ⟨hc, Nat.le_refl _, rfl, hnp, id, id, rfl, fun _ _ => Iff.rfl⟩

/-- What `reserve` does: nothing when the load is acceptable; otherwise a
rehash into the capacity doubled the least number of times that makes it so. -/
theorem reserve_spec {m r : HashMap K V} {v : Nat} (hc : IsCap m.capacity)
    (h : reserve hasher m v = some r) :
    (loadExceeds v m.capacity = false ∧ r = m) ∨
    (loadExceeds v m.capacity = true ∧ ∃ e j, m.capacity = 2 ^ e ∧ 1 ≤ j ∧ e + j ≤ 63 ∧
      r.capacity = 2 ^ (e + j) ∧ rehash hasher m (2 ^ (e + j)) = some r ∧
      loadExceeds v (2 ^ (e + j)) = false ∧
      ∀ i, 1 ≤ i → i < j → loadExceeds v (2 ^ (e + i)) = true) := by
  unfold reserve at h
  by_cases hl : loadExceeds v m.capacity = true
  · right
    rw [if_pos hl] at h
    obtain ⟨e, he, hce⟩ := hc
    cases hr : reserveLoop v 65 m.capacity with
    | none => rw [hr] at h; cases h
    | some nc =>
      rw [hr] at h
      simp only at h
      rw [hce] at hr
      obtain ⟨j, hj1, hj2, hj3, hj4, hj5⟩ :=
        reserveLoop_sound (loadExceeds_pos hl) 65 e nc he hr
      subst hj3
      have hgt : m.capacity < 2 ^ (e + j) := by
        rw [hce]
        exact Nat.pow_lt_pow_right (by norm_num) (by omega)
      have hcap := (rehash_capacity hasher ⟨e, he, hce⟩ h).2 hgt
      rw [nextPow2_cap ⟨e + j, hj2, rfl⟩] at hcap
      simp only [Option.some.injEq] at hcap
      exact ⟨hl, e, j, hce, hj1, hj2, hcap.symm, h, hj4, hj5⟩
  · left
    rw [if_neg hl] at h
    simp only [Option.some.injEq] at h
    exact ⟨by simpa using hl, h.symm⟩

theorem reserve_kept {m r : HashMap K V} {v : Nat} (hc : IsCap m.capacity)
    (hnp : NoPlaced m) (h : reserve hasher m v = some r) :
    Kept hasher m r ∧ loadExceeds v r.capacity = false := by
  rcases reserve_spec hasher hc h with ⟨hl, rfl⟩ | ⟨_, e, j, _, _, _, hcap, hre, hl, _⟩
  · exact ⟨kept_refl hasher hc hnp, hl⟩
  · exact ⟨rehashPost_kept hasher (rehash_post hasher hc hnp hre), by rw [hcap]; exact hl⟩

/-- `reserve` returns if the load would be acceptable at the largest
capacity. -/
theorem reserve_total {m : HashMap K V} {v : Nat} (hc : IsCap m.capacity)
    (hmax : loadExceeds v (2 ^ 63) = false) : ∃ r, reserve hasher m v = some r := by
  unfold reserve
  by_cases hl : loadExceeds v m.capacity = true
  · rw [if_pos hl]
    obtain ⟨e, he, hce⟩ := hc
    have he63 : e ≠ 63 := by
      intro h63
      rw [hce, h63, hmax] at hl
      cases hl
    obtain ⟨nc, hnc⟩ := reserveLoop_total (v := v) (63 - e) e 65 (by omega) (by omega)
      (by omega) (by rwa [show e + (63 - e) = 63 by omega])
    rw [hce, hnc]
    simp only
    obtain ⟨j, _, hj2, hj3, _, _⟩ := reserveLoop_sound (loadExceeds_pos hl) 65 e nc he hnc
    have hle : nc ≤ 2 ^ 63 := by
      rw [hj3]; exact Nat.pow_le_pow_right (by norm_num) hj2
    exact rehash_total hasher m nc ⟨e, he, hce⟩ (Or.inr hle)
  · rw [if_neg hl]
    exact ⟨_, rfl⟩

end Reserve

/-! ## Conversion to `double` is monotone -/

/-- The binade of a value that needs rounding. -/
theorem binade {v : Nat} (h1 : 2 ^ 53 ≤ v) (h2 : v < 2 ^ 64) :
    1 ≤ bitLength 64 v - 53 ∧ 2 ^ 52 * 2 ^ (bitLength 64 v - 53) ≤ v ∧
      v < 2 ^ 53 * 2 ^ (bitLength 64 v - 53) := by
  obtain ⟨b1, b2, b3⟩ := bitLength_spec 64 v h2
  have b4 := b2 (by have : 0 < 2 ^ 53 := by norm_num
                    omega)
  have hlt : 53 < bitLength 64 v :=
    (Nat.pow_lt_pow_iff_right (by norm_num : 1 < 2)).mp (Nat.lt_of_le_of_lt h1 b1)
  refine ⟨by omega, ?_, ?_⟩
  · rw [← Nat.pow_add, show 52 + (bitLength 64 v - 53) = bitLength 64 v - 1 by omega]
    exact b4
  · rw [← Nat.pow_add, show 53 + (bitLength 64 v - 53) = bitLength 64 v by omega]
    exact b1

theorem toDouble_eq {v : Nat} (h1 : 2 ^ 53 ≤ v) :
    toDouble v =
      if v % 2 ^ (bitLength 64 v - 53) > 2 ^ (bitLength 64 v - 53 - 1) ∨
          (v % 2 ^ (bitLength 64 v - 53) = 2 ^ (bitLength 64 v - 53 - 1) ∧
            v / 2 ^ (bitLength 64 v - 53) % 2 = 1)
      then (v / 2 ^ (bitLength 64 v - 53) + 1) * 2 ^ (bitLength 64 v - 53)
      else v / 2 ^ (bitLength 64 v - 53) * 2 ^ (bitLength 64 v - 53) := by
  unfold toDouble
  rw [if_neg (by omega)]

theorem toDouble_bracket {v : Nat} (h1 : 2 ^ 53 ≤ v) :
    v / 2 ^ (bitLength 64 v - 53) * 2 ^ (bitLength 64 v - 53) ≤ toDouble v ∧
      toDouble v ≤ (v / 2 ^ (bitLength 64 v - 53) + 1) * 2 ^ (bitLength 64 v - 53) := by
  rw [toDouble_eq h1]
  split
  · exact ⟨Nat.mul_le_mul_right _ (Nat.le_succ _), Nat.le_refl _⟩
  · exact ⟨Nat.le_refl _, Nat.mul_le_mul_right _ (Nat.le_succ _)⟩

/-- Converting to `double` is monotone. -/
theorem toDouble_mono {v w : Nat} (hvw : v ≤ w) (hw : w < 2 ^ 64) : toDouble v ≤ toDouble w := by
  by_cases hw53 : w < 2 ^ 53
  · rw [toDouble_small hw53, toDouble_small (by omega)]
    exact hvw
  · have hw1 : 2 ^ 53 ≤ w := by omega
    obtain ⟨we1, we2, we3⟩ := binade hw1 hw
    obtain ⟨wb1, wb2⟩ := toDouble_bracket hw1
    generalize hew : bitLength 64 w - 53 = ew at *
    have hPw : 0 < 2 ^ ew := Nat.two_pow_pos ew
    -- the quotient of `w` is at least `2^52`
    have hqw : 2 ^ 52 ≤ w / 2 ^ ew := (Nat.le_div_iff_mul_le hPw).mpr we2
    have hlow : 2 ^ 52 * 2 ^ ew ≤ toDouble w :=
      Nat.le_trans (Nat.mul_le_mul_right _ hqw) wb1
    by_cases hv53 : v < 2 ^ 53
    · rw [toDouble_small hv53]
      have : 2 ^ 52 * 2 ≤ 2 ^ 52 * 2 ^ ew :=
        Nat.mul_le_mul_left _ (by
          calc 2 = 2 ^ 1 := by norm_num
            _ ≤ 2 ^ ew := Nat.pow_le_pow_right (by norm_num) we1)
      have h53 : (2 : Nat) ^ 53 = 2 ^ 52 * 2 := by norm_num
      omega
    · have hv1 : 2 ^ 53 ≤ v := by omega
      obtain ⟨ve1, ve2, ve3⟩ := binade hv1 (by omega)
      obtain ⟨vb1, vb2⟩ := toDouble_bracket hv1
      have hveq := toDouble_eq hv1
      have hweq := toDouble_eq hw1
      rw [hew] at hweq
      generalize hev : bitLength 64 v - 53 = ev at *
      have hPv : 0 < 2 ^ ev := Nat.two_pow_pos ev
      have hqv : v / 2 ^ ev < 2 ^ 53 := (Nat.div_lt_iff_lt_mul hPv).mpr ve3
      have hle : ev ≤ ew := by
        have : 2 ^ (52 + ev) < 2 ^ (53 + ew) := by
          rw [Nat.pow_add, Nat.pow_add]; omega
        have := (Nat.pow_lt_pow_iff_right (by norm_num : 1 < 2)).mp this
        omega
      by_cases hlt : ev < ew
      · have h1 : toDouble v ≤ 2 ^ 53 * 2 ^ ev :=
          Nat.le_trans vb2 (Nat.mul_le_mul_right _ hqv)
        have h2 : 2 ^ 53 * 2 ^ ev ≤ 2 ^ 52 * 2 ^ ew := by
          rw [← Nat.pow_add, ← Nat.pow_add]
          exact Nat.pow_le_pow_right (by norm_num) (by omega)
        omega
      · have heq : ev = ew := by omega
        subst heq
        have hq : v / 2 ^ ev ≤ w / 2 ^ ev := Nat.div_le_div_right hvw
        by_cases hqlt : v / 2 ^ ev < w / 2 ^ ev
        · exact Nat.le_trans vb2 (Nat.le_trans (Nat.mul_le_mul_right _ hqlt) wb1)
        · have hqeq : v / 2 ^ ev = w / 2 ^ ev := by omega
          have hv2 := Nat.div_add_mod v (2 ^ ev)
          have hw2 := Nat.div_add_mod w (2 ^ ev)
          rw [hqeq] at hv2
          have hr : v % 2 ^ ev ≤ w % 2 ^ ev := by omega
          rw [hveq, hweq, hqeq]
          by_cases hup : v % 2 ^ ev > 2 ^ (ev - 1) ∨
              (v % 2 ^ ev = 2 ^ (ev - 1) ∧ w / 2 ^ ev % 2 = 1)
          · have hup2 : w % 2 ^ ev > 2 ^ (ev - 1) ∨
                (w % 2 ^ ev = 2 ^ (ev - 1) ∧ w / 2 ^ ev % 2 = 1) := by
              rcases hup with h | ⟨h, h'⟩
              · left; omega
              · by_cases hx : w % 2 ^ ev = 2 ^ (ev - 1)
                · right; exact ⟨hx, h'⟩
                · left; omega
            rw [if_pos hup, if_pos hup2]
          · rw [if_neg hup]
            split
            · exact Nat.mul_le_mul_right _ (Nat.le_succ _)
            · exact Nat.le_refl _

/-- A power of two that fits a `size_t` converts to `double` exactly. -/
theorem toDouble_pow2 : ∀ e, e ≤ 63 → toDouble (2 ^ e) = 2 ^ e := by decide

/-- A smaller value never turns an acceptable load into an excessive one. -/
theorem loadExceeds_mono_value {v w c : Nat} (hvw : v ≤ w) (hw : w < SIZE_MOD)
    (h : loadExceeds w c = false) : loadExceeds v c = false := by
  unfold SIZE_MOD at hw
  by_cases hc : c = 0
  · subst hc
    simp only [loadExceeds, if_true, decide_eq_false_iff_not, Nat.not_lt] at h ⊢
    omega
  · simp only [loadExceeds, hc, if_false, decide_eq_false_iff_not, Nat.not_lt] at h ⊢
    exact Nat.le_trans (Nat.mul_le_mul_right _ (toDouble_mono hvw hw)) h

/-- A load that passes the test leaves the table with a free slot: the value is
below the capacity. -/
theorem load_lt_cap {s c : Nat} (hc : IsCap c) (hs : s < SIZE_MOD)
    (h : loadExceeds s c = false) : s < c := by
  unfold SIZE_MOD at hs
  have hpos := isCap_pos hc
  obtain ⟨e, he, rfl⟩ := hc
  by_contra hcon
  have hm := toDouble_mono (v := 2 ^ e) (w := s) (by omega) hs
  rw [toDouble_pow2 e he] at hm
  have hne : (2 : Nat) ^ e ≠ 0 := by omega
  simp only [loadExceeds, hne, if_false, decide_eq_false_iff_not, Nat.not_lt,
    MAX_LOAD_NUM] at h
  have h1 : 2 ^ e * 2 ^ 52 ≤ toDouble s * 2 ^ 52 := Nat.mul_le_mul_right _ hm
  have h52 : (2 : Nat) ^ 52 = 4503599627370496 := by norm_num
  rw [h52] at h1 h
  have h2 : 3152519739159347 * 2 ^ e < 2 ^ e * 4503599627370496 := by omega
  omega

theorem fits_mono {k n : Nat} (h : Fits n) (hle : k ≤ n) : Fits k :=
  ⟨Nat.lt_of_le_of_lt hle h.1, loadExceeds_mono_value hle h.1 h.2⟩

/-! ## `getUnusedRecord` and `insert` -/

section Insert

variable {K V : Type} [DecidableEq K] (hasher : K → Nat)

theorem wf_sound {m : HashMap K V} (h : WF hasher m) : Sound hasher m :=
  ⟨h.cap, h.min, h.noPlaced, h.probe, h.distinct, h.count⟩

/-- The slot `getUnusedRecord` returns is the first of the probe that is not
`OCCUPIED`. -/
theorem getUnusedRecord_spec {m : HashMap K V} {key : K} {i : Nat} (hc : IsCap m.capacity)
    (h : getUnusedRecord hasher m key = some i) :
    i < m.capacity ∧ (m.data i).type ≠ .OCCUPIED ∧
      ∀ t, t < (i + m.capacity - getHash hasher m key) % m.capacity →
        (m.data ((getHash hasher m key + t) % m.capacity)).type = .OCCUPIED := by
  have hh := getHash_lt hasher hc key
  unfold getUnusedRecord getUnusedRecordFuel at h
  rw [getUnusedRecordLoop_eq] at h
  obtain ⟨t0, ht0, hi, hstop, hlt, hmin⟩ := probeLoop_spec hc hh h
  refine ⟨hlt, by simpa using hstop, fun t ht => ?_⟩
  rw [hi, dist_pos hh ht0] at ht
  simpa using hmin t ht

/-- The probe of `getUnusedRecord` ends within `capacity` steps as soon as one
slot is not `OCCUPIED`, tombstone or not. -/
theorem getUnusedRecord_total {m : HashMap K V} (key : K) (hc : IsCap m.capacity)
    (hex : ∃ j, j < m.capacity ∧ (m.data j).type ≠ .OCCUPIED) :
    ∃ i, getUnusedRecord hasher m key = some i := by
  have hh := getHash_lt hasher hc key
  obtain ⟨j, hj, hne⟩ := hex
  obtain ⟨t0, _, hres, _, _⟩ :=
    @probeLoop_some (fun j => decide ((m.data j).type ≠ .OCCUPIED)) m.capacity _ hc hh
      ⟨j, hj, by simpa using hne⟩
  exact ⟨_, by unfold getUnusedRecord getUnusedRecordFuel; rw [getUnusedRecordLoop_eq]; exact hres⟩

/-- The parts of a successful `insert`: the key was absent, `reserve` returned
`r`, and the record was written to the slot `getUnusedRecord` found in `r`. -/
theorem insert_parts {m r : HashMap K V} {key : K} {value : V} {i : Nat}
    (h : insert hasher m key value = some (r, i)) :
    getRecord hasher m key = some none ∧
    ∃ m1, reserve hasher m ((m.size + 1) % SIZE_MOD) = some m1 ∧
      getUnusedRecord hasher m1 key = some i ∧
      r = { m1 with data := store m1.data i ⟨key, value, .OCCUPIED⟩,
                    size := (m1.size + 1) % SIZE_MOD } := by
  unfold insert at h
  split at h
  · rename_i hg
    refine ⟨hg, ?_⟩
    cases hr : reserve hasher m ((m.size + 1) % SIZE_MOD) with
    | none => rw [hr] at h; cases h
    | some m1 =>
      rw [hr] at h
      cases hu : getUnusedRecord hasher m1 key with
      | none => simp only [hu] at h; cases h
      | some j =>
        simp only [hu, Option.some.injEq, Prod.mk.injEq] at h
        obtain ⟨h1, h2⟩ := h
        subst h2
        exact ⟨m1, rfl, hu, h1.symm⟩
  · cases h

/-- Writing an `OCCUPIED` record keeps the probe-path invariant when its slot
ends a run of `OCCUPIED` slots that starts at the home slot of the key. -/
theorem place_probe {m : HashMap K V} {key : K} {value : V} {i s : Nat}
    (hc : IsCap m.capacity) (hp : ProbePath hasher m)
    (hrun : ∀ t, t < (i + m.capacity - getHash hasher m key) % m.capacity →
      (m.data ((getHash hasher m key + t) % m.capacity)).type = .OCCUPIED) :
    ProbePath hasher { m with data := store m.data i ⟨key, value, .OCCUPIED⟩, size := s } := by
  intro j hj ho t ht
  simp only [getHash] at ht ⊢
  simp only at hj ho
  have key2 : ∀ x, (m.data x).type ≠ .UNUSED →
      (store m.data i ⟨key, value, .OCCUPIED⟩ x).type ≠ .UNUSED := by
    intro x hx
    by_cases hxi : x = i
    · subst hxi; simp
    · rw [store_other _ _ hxi]; exact hx
  apply key2
  by_cases hji : j = i
  · subst hji
    simp only [store_same] at ht ⊢
    have := hrun t ht
    simp only [getHash] at this
    rw [this]
    decide
  · rw [store_other _ _ hji] at ho ht ⊢
    exact hp j hj ho t ht

theorem place_distinct {m : HashMap K V} {key : K} {value : V} {i s : Nat}
    (hd : DistinctKeys m) (hno : ∀ j, j < m.capacity → ¬ Holds m key j) :
    DistinctKeys { m with data := store m.data i ⟨key, value, .OCCUPIED⟩, size := s } := by
  intro a b ha hb hoa hob hk
  simp only at ha hb hoa hob hk
  by_cases hai : a = i
  · by_cases hbi : b = i
    · rw [hai, hbi]
    · exfalso
      rw [hai, store_same] at hk
      rw [store_other _ _ hbi] at hob hk
      exact hno b hb ⟨hob, hk.symm⟩
  · by_cases hbi : b = i
    · exfalso
      rw [hbi, store_same] at hk
      rw [store_other _ _ hai] at hoa hk
      exact hno a ha ⟨hoa, hk⟩
    · rw [store_other _ _ hai] at hoa hk
      rw [store_other _ _ hbi] at hob hk
      exact hd a b ha hb hoa hob hk

theorem place_count {m : HashMap K V} {key : K} {value : V} {i s : Nat}
    (hi : i < m.capacity) (hfree : (m.data i).type ≠ .OCCUPIED) :
    occupied { m with data := store m.data i ⟨key, value, .OCCUPIED⟩, size := s } =
      occupied m + 1 := by
  unfold occupied
  have := countType_store (fun t => decide (t = .OCCUPIED)) m.data m.capacity i
    ⟨key, value, .OCCUPIED⟩ hi
  simp only [hfree, decide_False, decide_True, if_true] at this
  simpa using this

theorem place_content {m : HashMap K V} {key : K} {value : V} {i s : Nat}
    (hi : i < m.capacity) (hfree : (m.data i).type ≠ .OCCUPIED) (k : K) (v : V) :
    Stores { m with data := store m.data i ⟨key, value, .OCCUPIED⟩, size := s } k v ↔
      (k = key ∧ v = value) ∨ Stores m k v := by
  constructor
  · rintro ⟨j, hj, ⟨ho, hk⟩, hv⟩
    simp only at hj ho hk hv
    by_cases hji : j = i
    · subst hji
      rw [store_same] at hk hv
      exact Or.inl ⟨hk.symm, hv.symm⟩
    · rw [store_other _ _ hji] at ho hk hv
      exact Or.inr ⟨j, hj, ⟨ho, hk⟩, hv⟩
  · rintro (⟨rfl, rfl⟩ | ⟨j, hj, ⟨ho, hk⟩, hv⟩)
    · exact ⟨i, hi, ⟨by simp, by simp⟩, by simp⟩
    · have hji : j ≠ i := fun h => hfree (h ▸ ho)
      refine ⟨j, hj, ⟨?_, ?_⟩, ?_⟩ <;> simp only <;> rw [store_other _ _ hji] <;> assumption

end Insert

section InsertSound

variable {K V : Type} [DecidableEq K] (hasher : K → Nat)

theorem sound_size_le {m : HashMap K V} (h : Sound hasher m) : m.size ≤ m.capacity := by
  rw [← h.count]
  exact countType_le _ _ _

theorem sound_size_lt {m : HashMap K V} (h : Sound hasher m) : m.size + 1 < SIZE_MOD := by
  have h1 := sound_size_le hasher h
  have h2 := isCap_le h.cap
  have h3 : (2 : Nat) ^ 63 + 1 < 2 ^ 64 := by norm_num
  unfold SIZE_MOD
  omega

theorem kept_sound {m r : HashMap K V} (h : Sound hasher m) (hk : Kept hasher m r) :
    Sound hasher r :=
  ⟨hk.cap, Nat.le_trans h.min hk.capLe, hk.noPlaced, hk.probe h.probe, hk.distinct h.distinct,
    by rw [hk.count, hk.size]; exact h.count⟩

/-- What a successful `insert` establishes. -/
theorem insert_sound {m r : HashMap K V} {key : K} {value : V} {i : Nat}
    (hs : Sound hasher m) (h : insert hasher m key value = some (r, i)) :
    Sound hasher r ∧ r.size = m.size + 1 ∧ m.capacity ≤ r.capacity ∧
      overloaded r = false ∧ i < r.capacity ∧ Holds r key i ∧ (r.data i).value = value ∧
      (∀ v, ¬ Stores m key v) ∧
      ∀ k v, Stores r k v ↔ (k = key ∧ v = value) ∨ Stores m k v := by
  obtain ⟨habs, m1, hres, hun, rfl⟩ := insert_parts hasher h
  obtain ⟨hk, hload⟩ := reserve_kept hasher hs.cap hs.noPlaced hres
  have hs1 := kept_sound hasher hs hk
  obtain ⟨hi, hfree, hrun⟩ := getUnusedRecord_spec hasher hs1.cap hun
  have habs2 := (sound_getRecord_none hasher hs key).mp habs
  have hno : ∀ j, j < m1.capacity → ¬ Holds m1 key j := by
    intro j hj hh
    exact habs2 _ ((hk.content key _).mp ⟨j, hj, hh, rfl⟩)
  have hsz : (m1.size + 1) % SIZE_MOD = m.size + 1 := by
    rw [hk.size]
    exact Nat.mod_eq_of_lt (sound_size_lt hasher hs)
  refine ⟨⟨hs1.cap, hs1.min, ?_, place_probe hasher hs1.cap hs1.probe hrun,
    place_distinct hs1.distinct hno, ?_⟩, hsz, hk.capLe, ?_, hi, ⟨by simp, by simp⟩, by simp,
    habs2, ?_⟩
  · intro j hj
    simp only at hj ⊢
    by_cases hji : j = i
    · subst hji; simp
    · rw [store_other _ _ hji]; exact hs1.noPlaced j hj
  · rw [place_count hi hfree, hs1.count]
    simp only
    rw [hsz, hk.size]
  · simp only [overloaded]
    rw [hk.size] at *
    exact hload
  · intro k v
    rw [place_content hi hfree, hk.content]

/-- `insert` of an absent key returns on a table with the invariants that can
hold one more record: `reserve` returns, and it leaves a slot that is not
`OCCUPIED` for `getUnusedRecord` to find. -/
theorem insert_total {m : HashMap K V} (key : K) (value : V) (hs : Sound hasher m)
    (hfits : Fits (m.size + 1)) (habs : getRecord hasher m key = some none) :
    ∃ r i, insert hasher m key value = some (r, i) := by
  have hmod : (m.size + 1) % SIZE_MOD = m.size + 1 :=
    Nat.mod_eq_of_lt (sound_size_lt hasher hs)
  obtain ⟨m1, hres⟩ := reserve_total hasher (v := m.size + 1) hs.cap hfits.2
  obtain ⟨hk, hload⟩ := reserve_kept hasher hs.cap hs.noPlaced hres
  have hs1 := kept_sound hasher hs hk
  have hfree : ∃ j, j < m1.capacity ∧ (m1.data j).type ≠ .OCCUPIED := by
    have hlt : occupied m1 < m1.capacity := by
      rw [hs1.count, hk.size]
      have := load_lt_cap hs1.cap hfits.1 hload
      omega
    obtain ⟨j, hj, hp⟩ := countType_lt_exists _ _ _ hlt
    exact ⟨j, hj, by simpa using hp⟩
  obtain ⟨i, hun⟩ := getUnusedRecord_total hasher key hs1.cap hfree
  refine ⟨{ m1 with data := store m1.data i ⟨key, value, .OCCUPIED⟩,
                    size := (m1.size + 1) % SIZE_MOD }, i, ?_⟩
  unfold insert
  simp only [habs, hmod, hres, hun]

end InsertSound

/-! ## `remove`, `operator[]`, `init`, `optimize` -/

section Remove

variable {K V : Type} [DecidableEq K] (hasher : K → Nat)

theorem remove_parts {m r : HashMap K V} {key : K} (h : remove hasher m key = some r) :
    ∃ i, getRecord hasher m key = some (some i) ∧
      r = { m with data := store m.data i ((m.data i).withType .DELETED),
                   size := (m.size + (SIZE_MOD - 1)) % SIZE_MOD } := by
  unfold remove at h
  split at h
  · rename_i i hg
    simp only [Option.some.injEq] at h
    exact ⟨i, hg, h.symm⟩
  · cases h

/-- Marking a record `DELETED` keeps the probe-path invariant. -/
theorem delete_probe {m : HashMap K V} {i s : Nat} (hp : ProbePath hasher m) :
    ProbePath hasher
      { m with data := store m.data i ((m.data i).withType .DELETED), size := s } := by
  intro j hj ho t ht
  simp only [getHash] at ht ⊢
  simp only at hj ho
  have hji : j ≠ i := by
    intro h
    rw [h, store_same] at ho
    cases ho
  rw [store_other _ _ hji] at ho ht ⊢
  have := hp j hj ho t ht
  simp only [getHash] at this
  by_cases hx : (BIT_MODULO (hasher (m.data j).key) m.capacity + t) % m.capacity = i
  · rw [hx, store_same]
    simp
  · rw [store_other _ _ hx]
    exact this

/-- What a successful `remove` establishes. -/
theorem remove_sound {m r : HashMap K V} {key : K} (hs : Sound hasher m)
    (h : remove hasher m key = some r) :
    Sound hasher r ∧ r.size + 1 = m.size ∧ r.capacity = m.capacity ∧
      (∃ v, Stores m key v) ∧ ∀ k v, Stores r k v ↔ (k ≠ key ∧ Stores m k v) := by
  obtain ⟨i, hg, rfl⟩ := remove_parts hasher h
  obtain ⟨hi, hk⟩ := getRecord_sound hasher hs.cap hg
  have hcount := countType_store (fun t => decide (t = .OCCUPIED)) m.data m.capacity i
    ((m.data i).withType .DELETED) hi
  simp only [hk.1, withType_type, decide_True, if_true] at hcount
  simp at hcount
  have hsz := sound_size_lt hasher hs
  have hpos : 0 < m.size := by
    rw [← hs.count]
    exact countType_pos _ _ _ i hi (by simp [hk.1])
  have hsize : (m.size + (SIZE_MOD - 1)) % SIZE_MOD + 1 = m.size := by
    have : m.size + (SIZE_MOD - 1) = (m.size - 1) + SIZE_MOD := by
      have : 0 < SIZE_MOD := by unfold SIZE_MOD; norm_num
      omega
    rw [this, Nat.add_mod_right, Nat.mod_eq_of_lt (by omega)]
    omega
  refine ⟨⟨hs.cap, hs.min, ?_, delete_probe hasher hs.probe, ?_, ?_⟩, hsize, rfl,
    ⟨_, i, hi, hk, rfl⟩, ?_⟩
  · intro j hj
    simp only at hj ⊢
    by_cases hji : j = i
    · subst hji; simp
    · rw [store_other _ _ hji]; exact hs.noPlaced j hj
  · intro a b ha hb hoa hob hkab
    simp only at ha hb hoa hob hkab
    have hai : a ≠ i := by
      intro h
      rw [h, store_same] at hoa
      cases hoa
    have hbi : b ≠ i := by
      intro h
      rw [h, store_same] at hob
      cases hob
    rw [store_other _ _ hai] at hoa hkab
    rw [store_other _ _ hbi] at hob hkab
    exact hs.distinct a b ha hb hoa hob hkab
  · unfold occupied
    simp only
    have := hs.count
    unfold occupied at this
    omega
  · intro k v
    constructor
    · rintro ⟨j, hj, ⟨ho, hkj⟩, hv⟩
      simp only at hj ho hkj hv
      have hji : j ≠ i := by
        intro h
        rw [h, store_same] at ho
        cases ho
      rw [store_other _ _ hji] at ho hkj hv
      refine ⟨fun hkk => hji ?_, j, hj, ⟨ho, hkj⟩, hv⟩
      exact hs.distinct j i hj hi ho hk.1 (by rw [hkj, hk.2, hkk])
    · rintro ⟨hne, j, hj, ⟨ho, hkj⟩, hv⟩
      have hji : j ≠ i := by
        intro h
        rw [h, hk.2] at hkj
        exact hne hkj.symm
      refine ⟨j, hj, ⟨?_, ?_⟩, ?_⟩ <;> simp only <;> rw [store_other _ _ hji] <;> assumption

theorem remove_total {m : HashMap K V} {key : K} {v : V} (hs : Sound hasher m)
    (h : Stores m key v) : ∃ r, remove hasher m key = some r := by
  obtain ⟨i, hi, hk, _⟩ := h
  have := getRecord_found hasher hs.cap hs.probe hs.distinct hi hk
  unfold remove
  rw [this]
  exact ⟨_, rfl⟩

end Remove

section Subscript

variable {K V : Type} [DecidableEq K] [Inhabited V] (hasher : K → Nat)

theorem subscript_parts {m r : HashMap K V} {key : K} {i : Nat}
    (h : subscript hasher m key = some (r, i)) :
    (getRecord hasher m key = some (some i) ∧ r = m) ∨
    (getRecord hasher m key = some none ∧ insert hasher m key default = some (r, i)) := by
  unfold subscript at h
  split at h
  · cases h
  · rename_i j hg
    simp only [Option.some.injEq, Prod.mk.injEq] at h
    obtain ⟨h1, h2⟩ := h
    subst h1 h2
    exact Or.inl ⟨hg, rfl⟩
  · rename_i hg
    exact Or.inr ⟨hg, h⟩

theorem assign_parts {m r : HashMap K V} {key : K} {value : V}
    (h : assign hasher m key value = some r) :
    ∃ m1 i, subscript hasher m key = some (m1, i) ∧
      r = { m1 with data := store m1.data i { m1.data i with value := value } } := by
  unfold assign at h
  cases hs : subscript hasher m key with
  | none => rw [hs] at h; cases h
  | some p =>
    obtain ⟨m1, i⟩ := p
    rw [hs] at h
    simp only [Option.some.injEq] at h
    exact ⟨m1, i, rfl, h.symm⟩

/-- Writing the value of an `OCCUPIED` record keeps the invariants and changes
the value stored with its key. -/
theorem setValue_sound {m : HashMap K V} {key : K} (value : V) {i : Nat}
    (hs : Sound hasher m) (hi : i < m.capacity) (hk : Holds m key i) :
    Sound hasher { m with data := store m.data i { m.data i with value := value } } ∧
      ∀ k v, Stores { m with data := store m.data i { m.data i with value := value } } k v ↔
        (k = key ∧ v = value) ∨ (k ≠ key ∧ Stores m k v) := by
  have hty : ∀ j, (store m.data i { m.data i with value := value } j).type = (m.data j).type ∧
      (store m.data i { m.data i with value := value } j).key = (m.data j).key := by
    intro j
    by_cases hji : j = i
    · subst hji; simp
    · rw [store_other _ _ hji]; exact ⟨rfl, rfl⟩
  refine ⟨⟨hs.cap, hs.min, ?_, ?_, ?_, ?_⟩, ?_⟩
  · intro j hj
    simp only at hj ⊢
    rw [(hty j).1]
    exact hs.noPlaced j hj
  · intro j hj ho t ht
    simp only [getHash] at ht ⊢
    simp only at hj ho
    rw [(hty j).1] at ho
    rw [(hty j).2] at ht ⊢
    rw [(hty _).1]
    exact hs.probe j hj ho t ht
  · intro a b ha hb hoa hob hkab
    simp only at ha hb hoa hob hkab
    rw [(hty a).1] at hoa
    rw [(hty b).1] at hob
    rw [(hty a).2, (hty b).2] at hkab
    exact hs.distinct a b ha hb hoa hob hkab
  · unfold occupied
    simp only
    rw [countType_congr _ (fun t => decide (t = .OCCUPIED)) m.data _ m.capacity
      (fun j _ => by rw [(hty j).1])]
    exact hs.count
  · intro k v
    constructor
    · rintro ⟨j, hj, ⟨ho, hkj⟩, hv⟩
      simp only at hj ho hkj hv
      rw [(hty j).1] at ho
      rw [(hty j).2] at hkj
      by_cases hji : j = i
      · subst hji
        rw [store_same] at hv
        exact Or.inl ⟨by rw [← hkj, hk.2], hv.symm⟩
      · rw [store_other _ _ hji] at hv
        refine Or.inr ⟨fun hkk => hji ?_, j, hj, ⟨ho, hkj⟩, hv⟩
        exact hs.distinct j i hj hi ho hk.1 (by rw [hkj, hk.2, hkk])
    · rintro (⟨rfl, rfl⟩ | ⟨hne, j, hj, ⟨ho, hkj⟩, hv⟩)
      · refine ⟨i, hi, ⟨?_, ?_⟩, ?_⟩
        · simp only; rw [(hty i).1]; exact hk.1
        · simp only; rw [(hty i).2]; exact hk.2
        · simp
      · have hji : j ≠ i := by
          intro h
          rw [h, hk.2] at hkj
          exact hne hkj.symm
        refine ⟨j, hj, ⟨?_, ?_⟩, ?_⟩
        · simp only; rw [(hty j).1]; exact ho
        · simp only; rw [(hty j).2]; exact hkj
        · simp only; rw [store_other _ _ hji]; exact hv

/-- What a successful `map[key] = value` establishes. -/
theorem assign_sound {m r : HashMap K V} {key : K} {value : V} (hs : Sound hasher m)
    (h : assign hasher m key value = some r) :
    Sound hasher r ∧ m.capacity ≤ r.capacity ∧
      ((∃ v, Stores m key v) → r.size = m.size ∧ r.capacity = m.capacity) ∧
      ((∀ v, ¬ Stores m key v) → r.size = m.size + 1) ∧
      ∀ k v, Stores r k v ↔ (k = key ∧ v = value) ∨ (k ≠ key ∧ Stores m k v) := by
  obtain ⟨m1, i, hsub, rfl⟩ := assign_parts hasher h
  rcases subscript_parts hasher hsub with ⟨hg, rfl⟩ | ⟨hg, hins⟩
  · obtain ⟨hi, hk⟩ := getRecord_sound hasher hs.cap hg
    obtain ⟨h1, h2⟩ := setValue_sound hasher value hs hi hk
    refine ⟨h1, Nat.le_refl _, fun _ => ⟨rfl, rfl⟩, fun hno => ?_, h2⟩
    exact absurd ⟨i, hi, hk, rfl⟩ (hno _)
  · obtain ⟨h1, h2, h3, _, h5, h6, _, h8, h9⟩ := insert_sound hasher hs hins
    obtain ⟨a1, a2⟩ := setValue_sound hasher value h1 h5 h6
    refine ⟨a1, h3, fun hex => ?_, fun _ => h2, fun k v => ?_⟩
    · obtain ⟨v, hv⟩ := hex
      exact absurd hv (h8 v)
    · rw [a2, h9]
      constructor
      · rintro (h | ⟨hne, (⟨h, _⟩ | h)⟩)
        · exact Or.inl h
        · exact absurd h hne
        · exact Or.inr ⟨hne, h⟩
      · rintro (h | ⟨hne, h⟩)
        · exact Or.inl h
        · exact Or.inr ⟨hne, Or.inr h⟩

theorem assign_total {m : HashMap K V} (key : K) (value : V) (hs : Sound hasher m)
    (hfits : Fits (m.size + 1)) : ∃ r, assign hasher m key value = some r := by
  obtain ⟨g, hg⟩ := getRecord_total hasher key hs.cap
  unfold assign subscript
  rw [hg]
  cases g with
  | none =>
    obtain ⟨r, i, hins⟩ := insert_total hasher key default hs hfits hg
    simp only [hins]
    exact ⟨_, rfl⟩
  | some i => exact ⟨_, rfl⟩

end Subscript

section InitOptimize

variable {K V : Type} [DecidableEq K] (hasher : K → Nat)

theorem init_parts {mem : Nat → Record K V} {initial : Nat} {m : HashMap K V}
    (h : init mem initial = some m) :
    nextPow2 (max initial MIN_CAPACITY) = some m.capacity ∧ m.size = 0 ∧
      ∀ i, m.data i = if i < m.capacity then (mem i).withType .UNUSED else mem i := by
  unfold init at h
  cases hn : nextPow2 (max initial MIN_CAPACITY) with
  | none => rw [hn] at h; cases h
  | some c =>
    rw [hn] at h
    simp only [Option.some.injEq] at h
    subst h
    obtain ⟨c1, c2, c3⟩ := clearLoop_spec c { capacity := c, size := 0, data := mem }
    unfold clear
    simp only at c1 c2 c3 ⊢
    exact ⟨by rw [c1], c2, fun i => by rw [c3, c1]⟩

/-- A table made by `init` has the steady-state invariants and is empty. -/
theorem init_sound {mem : Nat → Record K V} {initial : Nat} {m : HashMap K V}
    (h : init mem initial = some m) :
    Sound hasher m ∧ overloaded m = false ∧ m.size = 0 ∧
      (∀ i, i < m.capacity → (m.data i).type = .UNUSED) ∧ initial ≤ m.capacity := by
  obtain ⟨h1, h2, h3⟩ := init_parts h
  obtain ⟨hc, hle⟩ := nextPow2_isCap h1
  have hun : ∀ i, i < m.capacity → (m.data i).type = .UNUSED := by
    intro i hi
    rw [h3, if_pos hi]
    rfl
  have hpos := isCap_pos hc
  refine ⟨⟨hc, Nat.le_trans (Nat.le_max_right _ _) hle, ?_, ?_, ?_, ?_⟩, ?_, h2, hun,
    Nat.le_trans (Nat.le_max_left _ _) hle⟩
  · intro i hi; rw [hun i hi]; decide
  · intro i hi ho; rw [hun i hi] at ho; cases ho
  · intro i j hi _ ho; rw [hun i hi] at ho; cases ho
  · unfold occupied
    rw [h2]
    exact countType_none _ _ _ (fun i hi => by rw [hun i hi]; rfl)
  · unfold overloaded
    rw [h2]
    simp [loadExceeds, toDouble_zero, Nat.pos_iff_ne_zero.mp hpos]

theorem init_total (mem : Nat → Record K V) {initial : Nat} (h : initial ≤ 2 ^ 63) :
    ∃ m, init mem initial = some m := by
  have h16 : MIN_CAPACITY ≤ 2 ^ 63 := by unfold MIN_CAPACITY; norm_num
  obtain ⟨e, _, hn, _, _⟩ := nextPow2_spec (max initial MIN_CAPACITY)
    (Nat.le_trans (by unfold MIN_CAPACITY; norm_num) (Nat.le_max_right _ _)) (max_le h h16)
  unfold init
  rw [hn]
  exact ⟨_, rfl⟩

theorem kept_trans {m r s : HashMap K V} (h1 : Kept hasher m r) (h2 : Kept hasher r s) :
    Kept hasher m s :=
  ⟨h2.cap, Nat.le_trans h1.capLe h2.capLe, h2.size.trans h1.size, h2.noPlaced,
    fun h => h2.probe (h1.probe h), fun h => h2.distinct (h1.distinct h),
    h2.count.trans h1.count, fun k v => (h2.content k v).trans (h1.content k v)⟩

/-- When `optimize` returns it has kept the records and the invariants. -/
theorem optimize_kept (maxCollisionScore maxCapacity : Nat) :
    ∀ fuel (m r : HashMap K V), IsCap m.capacity → NoPlaced m →
      optimize hasher maxCollisionScore maxCapacity fuel m = some r → Kept hasher m r := by
  intro fuel
  induction fuel with
  | zero => intro m r _ _ h; simp [optimize] at h
  | succ f ih =>
    intro m r hc hnp h
    simp only [optimize] at h
    split at h
    · cases hr : rehash hasher m ((m.capacity <<< 1) % SIZE_MOD) with
      | none => rw [hr] at h; cases h
      | some m1 =>
        rw [hr] at h
        have hp := rehash_post hasher hc hnp hr
        exact kept_trans hasher (rehashPost_kept hasher hp) (ih m1 r hp.cap hp.noPlaced h)
    · simp only [Option.some.injEq] at h
      subst h
      exact kept_refl hasher hc hnp

end InitOptimize

/-! ## Every operation keeps the invariants -/

section StepNoPlaced

variable {K V : Type} [DecidableEq K] (hasher : K → Nat)

theorem rehash_noPlaced {m r : HashMap K V} {newCapacity : Nat}
    (h : rehash hasher m newCapacity = some r) : NoPlaced r := by
  unfold rehash at h
  cases hg : grow m newCapacity with
  | none => rw [hg] at h; cases h
  | some m1 =>
    rw [hg] at h
    cases hd : rehashLoop hasher m1.capacity m1.capacity m1.data with
    | none => simp only [hd] at h; cases h
    | some d =>
      simp only [hd, Option.some.injEq] at h
      subst h
      obtain ⟨u1, _, u3⟩ := unmarkLoop_spec m1.capacity { m1 with data := d }
      intro i hi
      rw [u1] at hi
      rw [u3]
      simp only at hi ⊢
      by_cases hp : (d i).type = .PLACED
      · rw [if_pos ⟨hi, hp⟩]; simp
      · rw [if_neg (fun h => hp h.2)]; exact hp

theorem reserve_noPlaced {m r : HashMap K V} {v : Nat} (hnp : NoPlaced m)
    (h : reserve hasher m v = some r) : NoPlaced r := by
  unfold reserve at h
  split at h
  · cases hr : reserveLoop v 65 m.capacity with
    | none => rw [hr] at h; cases h
    | some nc => rw [hr] at h; exact rehash_noPlaced hasher h
  · simp only [Option.some.injEq] at h
    subst h
    exact hnp

theorem insert_noPlaced {m r : HashMap K V} {key : K} {value : V} {i : Nat}
    (hnp : NoPlaced m) (h : insert hasher m key value = some (r, i)) : NoPlaced r := by
  obtain ⟨_, m1, hres, _, rfl⟩ := insert_parts hasher h
  have h1 := reserve_noPlaced hasher hnp hres
  intro j hj
  simp only at hj ⊢
  by_cases hji : j = i
  · subst hji; simp
  · rw [store_other _ _ hji]; exact h1 j hj

theorem remove_noPlaced {m r : HashMap K V} {key : K} (hnp : NoPlaced m)
    (h : remove hasher m key = some r) : NoPlaced r := by
  obtain ⟨i, _, rfl⟩ := remove_parts hasher h
  intro j hj
  simp only at hj ⊢
  by_cases hji : j = i
  · subst hji; simp
  · rw [store_other _ _ hji]; exact hnp j hj

theorem optimize_noPlaced (maxCollisionScore maxCapacity : Nat) :
    ∀ fuel (m r : HashMap K V), NoPlaced m →
      optimize hasher maxCollisionScore maxCapacity fuel m = some r → NoPlaced r := by
  intro fuel
  induction fuel with
  | zero => intro m r _ h; simp [optimize] at h
  | succ f ih =>
    intro m r hnp h
    simp only [optimize] at h
    split at h
    · cases hr : rehash hasher m ((m.capacity <<< 1) % SIZE_MOD) with
      | none => rw [hr] at h; cases h
      | some m1 =>
        rw [hr] at h
        exact ih m1 r (rehash_noPlaced hasher hr) h
    · simp only [Option.some.injEq] at h
      subst h
      exact hnp

theorem init_noPlaced {mem : Nat → Record K V} {initial : Nat} {m : HashMap K V}
    (h : init mem initial = some m) : NoPlaced m := by
  obtain ⟨_, _, h3⟩ := init_parts h
  intro i hi
  rw [h3, if_pos hi]
  simp

end StepNoPlaced

section StepInv

variable {K V : Type} [DecidableEq K] [Inhabited V] (hasher : K → Nat)

theorem subscript_noPlaced {m r : HashMap K V} {key : K} {i : Nat} (hnp : NoPlaced m)
    (h : subscript hasher m key = some (r, i)) : NoPlaced r := by
  rcases subscript_parts hasher h with ⟨_, rfl⟩ | ⟨_, hins⟩
  · exact hnp
  · exact insert_noPlaced hasher hnp hins

theorem setValue_type (d : Nat → Record K V) (i j : Nat) (value : V) :
    (store d i { d i with value := value } j).type = (d j).type ∧
      (store d i { d i with value := value } j).key = (d j).key := by
  by_cases hji : j = i
  · subst hji; simp
  · rw [store_other _ _ hji]; exact ⟨rfl, rfl⟩

theorem assign_noPlaced {m r : HashMap K V} {key : K} {value : V} (hnp : NoPlaced m)
    (h : assign hasher m key value = some r) : NoPlaced r := by
  obtain ⟨m1, i, hsub, rfl⟩ := assign_parts hasher h
  have h1 := subscript_noPlaced hasher hnp hsub
  intro j hj
  simp only at hj ⊢
  rw [(setValue_type m1.data i j value).1]
  exact h1 j hj

/-- No operation leaves a `PLACED` record behind. -/
theorem step_noPlaced {m r : HashMap K V} (op : Op K V) (hnp : NoPlaced m)
    (h : step hasher op m = some r) : NoPlaced r := by
  cases op with
  | insert key value =>
    simp only [step, Option.map_eq_some'] at h
    obtain ⟨⟨r1, i⟩, h1, rfl⟩ := h
    exact insert_noPlaced hasher hnp h1
  | subscript key =>
    simp only [step, Option.map_eq_some'] at h
    obtain ⟨⟨r1, i⟩, h1, rfl⟩ := h
    exact subscript_noPlaced hasher hnp h1
  | assign key value => exact assign_noPlaced hasher hnp h
  | remove key => exact remove_noPlaced hasher hnp h
  | reserve value => exact reserve_noPlaced hasher hnp h
  | rehash newCapacity => exact rehash_noPlaced hasher h
  | optimize s c fuel => exact optimize_noPlaced hasher s c fuel m r hnp h

end StepInv

section StepProbe

variable {K V : Type} [DecidableEq K] [Inhabited V] (hasher : K → Nat)

theorem insert_probe {m r : HashMap K V} {key : K} {value : V} {i : Nat}
    (hc : IsCap m.capacity) (hnp : NoPlaced m) (hp : ProbePath hasher m)
    (h : insert hasher m key value = some (r, i)) :
    IsCap r.capacity ∧ ProbePath hasher r := by
  obtain ⟨_, m1, hres, hun, rfl⟩ := insert_parts hasher h
  obtain ⟨hk, _⟩ := reserve_kept hasher hc hnp hres
  obtain ⟨_, _, hrun⟩ := getUnusedRecord_spec hasher hk.cap hun
  exact ⟨hk.cap, place_probe hasher hk.cap (hk.probe hp) hrun⟩

theorem subscript_probe {m r : HashMap K V} {key : K} {i : Nat}
    (hc : IsCap m.capacity) (hnp : NoPlaced m) (hp : ProbePath hasher m)
    (h : subscript hasher m key = some (r, i)) :
    IsCap r.capacity ∧ ProbePath hasher r := by
  rcases subscript_parts hasher h with ⟨_, rfl⟩ | ⟨_, hins⟩
  · exact ⟨hc, hp⟩
  · exact insert_probe hasher hc hnp hp hins

theorem setValue_probe {m : HashMap K V} (i : Nat) (value : V) (hp : ProbePath hasher m) :
    ProbePath hasher { m with data := store m.data i { m.data i with value := value } } := by
  intro j hj ho t ht
  simp only [getHash] at ht ⊢
  simp only at hj ho
  rw [(setValue_type m.data i j value).1] at ho
  rw [(setValue_type m.data i j value).2] at ht ⊢
  rw [(setValue_type m.data i _ value).1]
  exact hp j hj ho t ht

/-- Every operation keeps the probe-path invariant, on a table whose capacity
is a power of two and that has no `PLACED` record. -/
theorem step_probe {m r : HashMap K V} (op : Op K V) (hc : IsCap m.capacity)
    (hnp : NoPlaced m) (hp : ProbePath hasher m) (h : step hasher op m = some r) :
    IsCap r.capacity ∧ ProbePath hasher r := by
  cases op with
  | insert key value =>
    simp only [step, Option.map_eq_some'] at h
    obtain ⟨⟨r1, i⟩, h1, rfl⟩ := h
    exact insert_probe hasher hc hnp hp h1
  | subscript key =>
    simp only [step, Option.map_eq_some'] at h
    obtain ⟨⟨r1, i⟩, h1, rfl⟩ := h
    exact subscript_probe hasher hc hnp hp h1
  | assign key value =>
    obtain ⟨m1, i, hsub, rfl⟩ := assign_parts hasher h
    obtain ⟨h1, h2⟩ := subscript_probe hasher hc hnp hp hsub
    exact ⟨h1, setValue_probe hasher i value h2⟩
  | remove key =>
    obtain ⟨i, _, rfl⟩ := remove_parts hasher h
    exact ⟨hc, delete_probe hasher hp⟩
  | reserve value =>
    obtain ⟨hk, _⟩ := reserve_kept hasher hc hnp h
    exact ⟨hk.cap, hk.probe hp⟩
  | rehash newCapacity =>
    have hk := rehash_post hasher hc hnp h
    exact ⟨hk.cap, hk.probe⟩
  | optimize s c fuel =>
    have hk := optimize_kept hasher s c fuel m r hc hnp h
    exact ⟨hk.cap, hk.probe hp⟩

/-- Every operation keeps the invariants of `Sound`. -/
theorem step_sound {m r : HashMap K V} (op : Op K V) (hs : Sound hasher m)
    (h : step hasher op m = some r) : Sound hasher r := by
  cases op with
  | insert key value =>
    simp only [step, Option.map_eq_some'] at h
    obtain ⟨⟨r1, i⟩, h1, rfl⟩ := h
    exact (insert_sound hasher hs h1).1
  | subscript key =>
    simp only [step, Option.map_eq_some'] at h
    obtain ⟨⟨r1, i⟩, h1, rfl⟩ := h
    rcases subscript_parts hasher h1 with ⟨_, rfl⟩ | ⟨_, hins⟩
    · exact hs
    · exact (insert_sound hasher hs hins).1
  | assign key value => exact (assign_sound hasher hs h).1
  | remove key => exact (remove_sound hasher hs h).1
  | reserve value => exact kept_sound hasher hs (reserve_kept hasher hs.cap hs.noPlaced h).1
  | rehash newCapacity =>
    exact kept_sound hasher hs (rehashPost_kept hasher (rehash_post hasher hs.cap hs.noPlaced h))
  | optimize s c fuel =>
    exact kept_sound hasher hs (optimize_kept hasher s c fuel m r hs.cap hs.noPlaced h)

theorem kept_load {m r : HashMap K V} (hc : IsCap m.capacity) (hk : Kept hasher m r)
    (hl : overloaded m = false) : overloaded r = false := by
  unfold overloaded at hl ⊢
  rw [hk.size]
  exact loadExceeds_mono (isCap_pos hc) hk.capLe hl

/-- Every operation keeps the load factor at or below `MAX_LOAD_FACTOR`. -/
theorem step_load {m r : HashMap K V} (op : Op K V) (hs : Sound hasher m)
    (hl : overloaded m = false) (h : step hasher op m = some r) : overloaded r = false := by
  cases op with
  | insert key value =>
    simp only [step, Option.map_eq_some'] at h
    obtain ⟨⟨r1, i⟩, h1, rfl⟩ := h
    exact (insert_sound hasher hs h1).2.2.2.1
  | subscript key =>
    simp only [step, Option.map_eq_some'] at h
    obtain ⟨⟨r1, i⟩, h1, rfl⟩ := h
    rcases subscript_parts hasher h1 with ⟨_, rfl⟩ | ⟨_, hins⟩
    · exact hl
    · exact (insert_sound hasher hs hins).2.2.2.1
  | assign key value =>
    obtain ⟨m1, i, hsub, rfl⟩ := assign_parts hasher h
    rcases subscript_parts hasher hsub with ⟨_, rfl⟩ | ⟨_, hins⟩
    · exact hl
    · exact (insert_sound hasher hs hins).2.2.2.1
  | remove key =>
    obtain ⟨_, hsz, hcap, _, _⟩ := remove_sound hasher hs h
    have hlt := sound_size_lt hasher hs
    have hpos := isCap_pos hs.cap
    unfold overloaded at hl ⊢
    rw [hcap]
    have hne : m.capacity ≠ 0 := by omega
    simp only [loadExceeds, hne, if_false, decide_eq_false_iff_not, Nat.not_lt] at hl ⊢
    have hmono : toDouble r.size ≤ toDouble m.size :=
      toDouble_mono (by omega) (by unfold SIZE_MOD at hlt; omega)
    exact Nat.le_trans (Nat.mul_le_mul_right _ hmono) hl
  | reserve value =>
    exact kept_load hasher hs.cap (reserve_kept hasher hs.cap hs.noPlaced h).1 hl
  | rehash newCapacity =>
    exact kept_load hasher hs.cap
      (rehashPost_kept hasher (rehash_post hasher hs.cap hs.noPlaced h)) hl
  | optimize s c fuel =>
    exact kept_load hasher hs.cap (optimize_kept hasher s c fuel m r hs.cap hs.noPlaced h) hl

end StepProbe

/-! ## Sequences of operations -/

section Sequences

variable {K V : Type} [DecidableEq K] (hasher : K → Nat)

/-- A loop of insertions of absent, distinct keys returns, and the table then
stores exactly the inserted records and those it stored before. -/
theorem runAll_spec (f : HashMap K V → K → V → Option (HashMap K V))
    (hf : ∀ m k v, Sound hasher m → Fits (m.size + 1) → (∀ w, ¬ Stores m k w) →
      ∃ r, f m k v = some r ∧ Sound hasher r ∧ r.size = m.size + 1 ∧
        ∀ a b, Stores r a b ↔ (a = k ∧ b = v) ∨ Stores m a b) :
    ∀ (kvs : List (K × V)) (m : HashMap K V), Sound hasher m →
      Fits (m.size + kvs.length) →
      (kvs.map Prod.fst).Nodup → (∀ p, p ∈ kvs → ∀ w, ¬ Stores m p.1 w) →
      ∃ r, runAll f kvs m = some r ∧ Sound hasher r ∧ r.size = m.size + kvs.length ∧
        ∀ a b, Stores r a b ↔ (a, b) ∈ kvs ∨ Stores m a b := by
  intro kvs
  induction kvs with
  | nil =>
    intro m hs _ _ _
    exact ⟨m, rfl, hs, rfl, fun a b => by simp⟩
  | cons p rest ih =>
    intro m hs hfits hnd habs
    obtain ⟨k, v⟩ := p
    simp only [List.length_cons] at hfits
    simp only [List.map_cons, List.nodup_cons] at hnd
    obtain ⟨r1, h1, hs1, hsz1, hc1⟩ :=
      hf m k v hs (fits_mono hfits (by omega)) (habs (k, v) (List.mem_cons_self _ _))
    have habs1 : ∀ p, p ∈ rest → ∀ w, ¬ Stores r1 p.1 w := by
      intro p hp w hst
      rcases (hc1 p.1 w).mp hst with ⟨hk, _⟩ | hst2
      · exact hnd.1 (hk ▸ List.mem_map_of_mem Prod.fst hp)
      · exact habs p (List.mem_cons_of_mem _ hp) w hst2
    obtain ⟨r, h2, hs2, hsz2, hc2⟩ :=
      ih r1 hs1 (fits_mono hfits (by omega)) hnd.2 habs1
    refine ⟨r, by simp only [runAll, h1, h2], hs2, by simp only [List.length_cons]; omega,
      fun a b => ?_⟩
    rw [hc2, hc1, List.mem_cons, Prod.mk.injEq]
    tauto

theorem insertAll_spec (kvs : List (K × V)) (m : HashMap K V) (hs : Sound hasher m)
    (hfits : Fits (m.size + kvs.length))
    (hnd : (kvs.map Prod.fst).Nodup) (habs : ∀ p, p ∈ kvs → ∀ w, ¬ Stores m p.1 w) :
    ∃ r, insertAll hasher kvs m = some r ∧ Sound hasher r ∧ r.size = m.size + kvs.length ∧
      ∀ a b, Stores r a b ↔ (a, b) ∈ kvs ∨ Stores m a b := by
  refine runAll_spec hasher _ ?_ kvs m hs hfits hnd habs
  intro m k v hs hfits hno
  obtain ⟨r, i, hins⟩ := insert_total hasher k v hs hfits
    ((sound_getRecord_none hasher hs k).mpr hno)
  obtain ⟨h1, h2, _, _, _, _, _, _, h9⟩ := insert_sound hasher hs hins
  exact ⟨r, by simp only [hins, Option.map_some'], h1, h2, h9⟩

theorem assignAll_spec [Inhabited V] (kvs : List (K × V)) (m : HashMap K V) (hs : Sound hasher m)
    (hfits : Fits (m.size + kvs.length))
    (hnd : (kvs.map Prod.fst).Nodup) (habs : ∀ p, p ∈ kvs → ∀ w, ¬ Stores m p.1 w) :
    ∃ r, assignAll hasher kvs m = some r ∧ Sound hasher r ∧ r.size = m.size + kvs.length ∧
      ∀ a b, Stores r a b ↔ (a, b) ∈ kvs ∨ Stores m a b := by
  refine runAll_spec hasher _ ?_ kvs m hs hfits hnd habs
  intro m k v hs hfits hno
  obtain ⟨r, hr⟩ := assign_total hasher k v hs hfits
  obtain ⟨h1, _, _, h4, h5⟩ := assign_sound hasher hs hr
  refine ⟨r, hr, h1, h4 hno, fun a b => ?_⟩
  rw [h5]
  constructor
  · rintro (h | ⟨_, h⟩)
    · exact Or.inl h
    · exact Or.inr h
  · rintro (h | h)
    · exact Or.inl h
    · by_cases hak : a = k
      · subst hak; exact absurd h (hno b)
      · exact Or.inr ⟨hak, h⟩

/-- A loop of removals of distinct keys that the table stores returns, and
leaves the other records. -/
theorem removeAll_spec : ∀ (ks : List K) (m : HashMap K V), Sound hasher m → ks.Nodup →
    (∀ k, k ∈ ks → ∃ v, Stores m k v) →
    ∃ r, removeAll hasher ks m = some r ∧ Sound hasher r ∧ r.size + ks.length = m.size ∧
      r.capacity = m.capacity ∧ ∀ a b, Stores r a b ↔ (a ∉ ks ∧ Stores m a b) := by
  intro ks
  induction ks with
  | nil =>
    intro m hs _ _
    exact ⟨m, rfl, hs, rfl, rfl, fun a b => by simp⟩
  | cons k rest ih =>
    intro m hs hnd hex
    simp only [List.nodup_cons] at hnd
    obtain ⟨v, hv⟩ := hex k (List.mem_cons_self _ _)
    obtain ⟨r1, h1⟩ := remove_total hasher hs hv
    obtain ⟨hs1, hsz1, hcap1, _, hc1⟩ := remove_sound hasher hs h1
    have hex1 : ∀ a, a ∈ rest → ∃ w, Stores r1 a w := by
      intro a ha
      obtain ⟨w, hw⟩ := hex a (List.mem_cons_of_mem _ ha)
      exact ⟨w, (hc1 a w).mpr ⟨fun h => hnd.1 (h ▸ ha), hw⟩⟩
    obtain ⟨r, h2, hs2, hsz2, hcap2, hc2⟩ := ih r1 hs1 hnd.2 hex1
    refine ⟨r, by simp only [removeAll, h1, h2], hs2, ?_, hcap2.trans hcap1, fun a b => ?_⟩
    · simp only [List.length_cons]; omega
    · rw [hc2, hc1, List.mem_cons]
      tauto

theorem init_default {mem : Nat → Record K V} {m : HashMap K V}
    (h : init mem MIN_CAPACITY = some m) : m.capacity = 16 := by
  obtain ⟨h1, _, _⟩ := init_parts h
  have hc : IsCap 16 := ⟨4, by omega, by norm_num⟩
  rw [show max MIN_CAPACITY MIN_CAPACITY = 16 by simp [MIN_CAPACITY], nextPow2_cap hc] at h1
  simp only [Option.some.injEq] at h1
  exact h1.symm

end Sequences

/-! ## The fuel of the loops is enough -/

theorem reserveLoop_mono {v : Nat} :
    ∀ fuel c nc n, reserveLoop v fuel c = some nc → reserveLoop v (fuel + n) c = some nc := by
  intro fuel
  induction fuel with
  | zero => intro c nc n h; simp [reserveLoop] at h
  | succ f ih =>
    intro c nc n h
    rw [show f + 1 + n = (f + n) + 1 by omega]
    simp only [reserveLoop] at h ⊢
    split
    · rename_i hl
      rw [if_pos hl] at h
      exact ih _ _ _ h
    · rename_i hl
      rw [if_neg hl] at h
      exact h

/-- The 65 iterations that `reserve` is given decide whether its loop ends: if
the loop ends after any number of iterations, it ends within 65, with the same
capacity. -/
theorem reserveLoop_fuel {v c fuel nc : Nat} (hc : IsCap c) (hv : 0 < v)
    (h : reserveLoop v fuel c = some nc) : reserveLoop v 65 c = some nc := by
  obtain ⟨e, he, rfl⟩ := hc
  obtain ⟨j, hj1, hj2, _, hok, _⟩ := reserveLoop_sound hv fuel e nc he h
  subst_vars
  obtain ⟨nc2, h2⟩ := reserveLoop_total (v := v) j e 65 hj1 hj2 (by omega) hok
  by_cases hle : fuel ≤ 65
  · have := reserveLoop_mono fuel (2 ^ e) _ (65 - fuel) h
    rwa [show fuel + (65 - fuel) = 65 by omega] at this
  · have := reserveLoop_mono 65 (2 ^ e) _ (fuel - 65) h2
    rw [show 65 + (fuel - 65) = fuel by omega, h] at this
    rw [h2]
    exact this.symm

theorem probeLoop_mono {stop : Nat → Bool} {c : Nat} :
    ∀ fuel i j n, probeLoop stop c fuel i = some j → probeLoop stop c (fuel + n) i = some j := by
  intro fuel
  induction fuel with
  | zero => intro i j n h; simp [probeLoop] at h
  | succ f ih =>
    intro i j n h
    rw [show f + 1 + n = (f + n) + 1 by omega]
    simp only [probeLoop] at h ⊢
    split
    · rename_i hs
      rw [if_pos hs] at h
      exact h
    · rename_i hs
      rw [if_neg hs] at h
      exact ih _ _ _ h

/-- The `capacity` iterations that the probe loops are given decide whether
they end: a probe that ends after any number of iterations ends within
`capacity`, at the same slot. -/
theorem probeLoop_fuel {stop : Nat → Bool} {c h fuel j : Nat} (hc : IsCap c) (hh : h < c)
    (hres : probeLoop stop c fuel h = some j) : probeLoop stop c c h = some j := by
  obtain ⟨hs, hj⟩ := probeLoop_sound hc fuel h j hh hres
  obtain ⟨t0, _, h2, _, _⟩ := probeLoop_some hc hh ⟨j, hj, hs⟩
  by_cases hle : fuel ≤ c
  · have := probeLoop_mono fuel h j (c - fuel) hres
    rwa [show fuel + (c - fuel) = c by omega] at this
  · have := probeLoop_mono c h _ (fuel - c) h2
    rw [show c + (fuel - c) = fuel by omega, hres] at this
    rw [h2]
    exact this.symm

section FuelAndFit

variable {K V : Type} [DecidableEq K] (hasher : K → Nat)

theorem getUnusedRecord_fuel {m : HashMap K V} {key : K} {fuel i : Nat}
    (hc : IsCap m.capacity) (h : getUnusedRecordFuel hasher fuel m key = some i) :
    getUnusedRecord hasher m key = some i := by
  unfold getUnusedRecord
  unfold getUnusedRecordFuel at h ⊢
  rw [getUnusedRecordLoop_eq] at h ⊢
  exact probeLoop_fuel hc (getHash_lt hasher hc key) h

/-- A table with the steady-state invariants whose capacity is at most `2^62`,
as is every table whose array fits a 64-bit address space, can hold one more
record. -/
theorem fits_of_capacity {m : HashMap K V} (hwf : WF hasher m) (hcap : m.capacity ≤ 2 ^ 62) :
    Fits (m.size + 1) := by
  have hs := wf_sound hasher hwf
  have hlt : m.size < m.capacity := by
    have h1 := sound_size_lt hasher hs
    exact load_lt_cap hwf.cap (by omega) hwf.load
  have h64 : (2 : Nat) ^ 62 < 2 ^ 64 := by norm_num
  refine ⟨sound_size_lt hasher hs, ?_⟩
  have hm := toDouble_mono (v := m.size + 1) (w := 2 ^ 62) (by omega) h64
  rw [toDouble_pow2 62 (by omega)] at hm
  have hne : (2 : Nat) ^ 63 ≠ 0 := by norm_num
  simp only [loadExceeds, hne, if_false, decide_eq_false_iff_not, Nat.not_lt, MAX_LOAD_NUM]
  have h1 : toDouble (m.size + 1) * 2 ^ 52 ≤ 2 ^ 62 * 2 ^ 52 := Nat.mul_le_mul_right _ hm
  have h2 : (2 : Nat) ^ 62 * 2 ^ 52 ≤ 3152519739159347 * 2 ^ 63 := by norm_num
  exact Nat.le_trans h1 h2

end FuelAndFit

/-! ## The sample tables satisfy the invariants -/

theorem isCap_16 : IsCap 16 := ⟨4, by omega, by norm_num⟩

theorem sampleTable_wf : WF defaultHash sampleTable := by
  refine ⟨isCap_16, by decide, ?_, ?_, ?_, ?_, ?_⟩
  · unfold NoPlaced; decide
  · unfold ProbePath; decide
  · intro i j hi hj
    revert hj; revert j; revert hi; revert i
    decide
  · decide
  · decide

theorem fullTable_wf : WF defaultHash fullTable := by
  refine ⟨isCap_16, by decide, ?_, ?_, ?_, ?_, ?_⟩
  · unfold NoPlaced; decide
  · unfold ProbePath; decide
  · intro i j hi hj
    revert hj; revert j; revert hi; revert i
    decide
  · decide
  · decide

theorem tombTable_wf : WF defaultHash tombTable := by
  refine ⟨isCap_16, by decide, ?_, ?_, ?_, ?_, ?_⟩
  · unfold NoPlaced; decide
  · unfold ProbePath; decide
  · intro i j hi hj
    revert hj; revert j; revert hi; revert i
    decide
  · decide
  · decide

/-! ## The claims -/

section Claims

variable {K V : Type} [DecidableEq K] (hasher : K → Nat)

/-- C1: starting from `HashMap::init()` and performing `map[k] = v` in order for
a list of pairs with pairwise distinct keys, as many as a table can hold, every
call returns, across every growth and rehash on the way, and the final table
has `size` equal to the number of pairs and `get(k) == v` for each of them. -/
theorem C1_insertion_scenario [Inhabited V] (mem : Nat → Record K V) (kvs : List (K × V))
    (hnd : (kvs.map Prod.fst).Nodup) (hfits : Fits kvs.length) :
    ∃ m0 r, init mem MIN_CAPACITY = some m0 ∧ assignAll hasher kvs m0 = some r ∧
      r.size = kvs.length ∧ ∀ p, p ∈ kvs → get hasher r p.1 = some p.2 := by
  obtain ⟨m0, h0⟩ := init_total mem (show MIN_CAPACITY ≤ 2 ^ 63 by unfold MIN_CAPACITY; norm_num)
  obtain ⟨hs0, _, hsz0, hun0, _⟩ := init_sound hasher h0
  have hempty : ∀ k w, ¬ Stores m0 k w := by
    rintro k w ⟨i, hi, ⟨ho, _⟩, _⟩
    rw [hun0 i hi] at ho
    cases ho
  obtain ⟨r, hr, hsr, hszr, hcr⟩ := assignAll_spec hasher kvs m0 hs0
    (by rw [hsz0, Nat.zero_add]; exact hfits) hnd (fun p _ w => hempty p.1 w)
  refine ⟨m0, r, h0, hr, by omega, fun p hp => ?_⟩
  rw [get_eq_lookup, sound_lookup_some hasher hsr]
  exact (hcr p.1 p.2).mpr (Or.inl hp)

/-- C2: on a table with the steady-state invariants, `rehash(newCapacity)`
returns for every `newCapacity` that passes the assertions of `nextPow2`, the
capacity staying the same when `newCapacity <= capacity` and growing otherwise,
and when it returns `size` is unchanged and `getRecord` finds a key exactly when
it found it before, with the same value. -/
theorem C2_rehash_preserves_mapping (m : HashMap K V) (newCapacity : Nat)
    (hwf : WF hasher m) :
    (∀ r, rehash hasher m newCapacity = some r →
      r.size = m.size ∧
      (newCapacity ≤ m.capacity → r.capacity = m.capacity) ∧
      (m.capacity < newCapacity → m.capacity < r.capacity) ∧
      ∀ k, lookup hasher r k = lookup hasher m k ∧
        ((∃ i, getRecord hasher r k = some (some i)) ↔
          (∃ i, getRecord hasher m k = some (some i)))) ∧
    (newCapacity ≤ 2 ^ 63 → ∃ r, rehash hasher m newCapacity = some r) := by
  refine ⟨fun r hr => ?_, fun hle => rehash_total hasher m newCapacity hwf.cap (Or.inr hle)⟩
  have hp := rehash_post hasher hwf.cap hwf.noPlaced hr
  obtain ⟨c1, c2⟩ := rehash_capacity hasher hwf.cap hr
  have hd := hp.distinct hwf.distinct
  refine ⟨hp.size, c1, fun hlt => ?_, fun k => ⟨?_, ?_, ?_⟩⟩
  · have := (nextPow2_isCap (c2 hlt)).2
    omega
  · exact lookup_congr hasher hwf.cap hwf.probe hwf.distinct hp.cap hp.probe hd k
      (hp.content k)
  · rintro ⟨i, hi⟩
    obtain ⟨h1, h2⟩ := getRecord_sound hasher hp.cap hi
    obtain ⟨j, hj, hk, _⟩ := (hp.content k _).mp ⟨i, h1, h2, rfl⟩
    exact ⟨j, getRecord_found hasher hwf.cap hwf.probe hwf.distinct hj hk⟩
  · rintro ⟨i, hi⟩
    obtain ⟨h1, h2⟩ := getRecord_sound hasher hwf.cap hi
    obtain ⟨j, hj, hk, _⟩ := (hp.content k _).mpr ⟨i, h1, h2, rfl⟩
    exact ⟨j, getRecord_found hasher hp.cap hp.probe hd hj hk⟩

/-- C3: the probe-path invariant holds after `init`, and on a table whose
capacity is a power of two and that has no `PLACED` record it is kept by each
of `insert`, `operator[]`, `map[k] = v`, `remove`, `reserve`, `rehash` and
`optimize`. -/
theorem C3_probe_path_invariant [Inhabited V] :
    (∀ (mem : Nat → Record K V) initial m, init mem initial = some m → ProbePath hasher m) ∧
    (∀ (m r : HashMap K V) (op : Op K V), IsCap m.capacity → NoPlaced m →
      ProbePath hasher m → step hasher op m = some r → ProbePath hasher r) :=
  ⟨fun _ _ _ h => (init_sound hasher h).1.probe,
    fun _ _ op hc hnp hp h => (step_probe hasher op hc hnp hp h).2⟩

/-- C4: after `init`, and after each of `insert`, `operator[]`, `map[k] = v`,
`remove`, `reserve`, `rehash` and `optimize` returns on a table that had no
`PLACED` record, no record is `PLACED`. -/
theorem C4_no_placed_after_operation [Inhabited V] :
    (∀ (mem : Nat → Record K V) initial m, init mem initial = some m → NoPlaced m) ∧
    (∀ (m r : HashMap K V) (op : Op K V), NoPlaced m → step hasher op m = some r →
      NoPlaced r) :=
  ⟨fun _ _ _ h => init_noPlaced h, fun _ _ op hnp h => step_noPlaced hasher op hnp h⟩

/-- Every operation keeps the steady-state invariants. -/
theorem step_wf [Inhabited V] {m r : HashMap K V} (op : Op K V) (hwf : WF hasher m)
    (h : step hasher op m = some r) : WF hasher r := by
  have hs := step_sound hasher op (wf_sound hasher hwf) h
  exact ⟨hs.cap, hs.min, hs.noPlaced, hs.probe, hs.distinct, hs.count,
    step_load hasher op (wf_sound hasher hwf) hwf.load h⟩

/-- C5: for every initial argument up to `2^63`, `init` returns a table whose
capacity is a power of two that is at least 16 and whose size is 0; and each of
`insert`, `operator[]`, `map[k] = v`, `remove`, `reserve`, `rehash` and
`optimize`, when it returns on a table with the steady-state invariants, leaves
the capacity a power of two that is at least 16 and the load factor at most
`MAX_LOAD_FACTOR`, which for a capacity up to `2^52` says
`size / capacity <= 0.7`. -/
theorem C5_capacity_and_load [Inhabited V] :
    (∀ (mem : Nat → Record K V) initial, initial ≤ 2 ^ 63 →
      ∃ m, init mem initial = some m ∧ IsCap m.capacity ∧ isPow2 m.capacity = true ∧
        MIN_CAPACITY ≤ m.capacity ∧ m.size = 0 ∧ overloaded m = false) ∧
    (∀ (m r : HashMap K V) (op : Op K V), WF hasher m → step hasher op m = some r →
      IsCap r.capacity ∧ isPow2 r.capacity = true ∧ MIN_CAPACITY ≤ r.capacity ∧
        overloaded r = false) ∧
    (∀ (m : HashMap K V), WF hasher m → m.capacity ≤ 2 ^ 52 →
      10 * m.size ≤ 7 * m.capacity) := by
  refine ⟨fun mem initial hle => ?_, fun m r op hwf h => ?_, fun m hwf hcap => ?_⟩
  · obtain ⟨m, hm⟩ := init_total mem hle
    obtain ⟨hs, hl, hsz, _, _⟩ := init_sound hasher hm
    exact ⟨m, hm, hs.cap, isPow2_cap hs.cap, hs.min, hsz, hl⟩
  · have hr := step_wf hasher op hwf h
    exact ⟨hr.cap, isPow2_cap hr.cap, hr.min, hr.load⟩
  · have hsz := sound_size_le hasher (wf_sound hasher hwf)
    obtain ⟨e, he, hce⟩ := hwf.cap
    have hv : m.size < 2 ^ 53 := by
      have : (2 : Nat) ^ 52 < 2 ^ 53 := by norm_num
      omega
    have he52 : e ≤ 52 := by
      rw [hce] at hcap
      exact (Nat.pow_le_pow_iff_right (by norm_num)).mp hcap
    have hl := hwf.load
    unfold overloaded at hl
    rw [hce] at hl ⊢
    by_contra hcon
    have := (loadExceeds_iff_tenths hv he52).mpr (by omega)
    rw [hl] at this
    cases this

end Claims

/-! ## More on the load factor test -/

/-- For a value below `2^53` and a power-of-two capacity that fits a `size_t`,
the test in double precision is the exact comparison with seven tenths. -/
theorem loadExceeds_iff_exact {v e : Nat} (hv : v < 2 ^ 53) (he : e ≤ 63) :
    loadExceeds v (2 ^ e) = true ↔ 7 * 2 ^ e < 10 * v := by
  by_cases he52 : e ≤ 52
  · exact loadExceeds_iff_tenths hv he52
  · rw [loadExceeds_small hv (Nat.two_pow_pos e)]
    simp only [decide_eq_true_eq, MAX_LOAD_NUM]
    have h53 : (2 : Nat) ^ 53 = 9007199254740992 := by norm_num
    have h52 : (2 : Nat) ^ 52 = 4503599627370496 := by norm_num
    have hge : (2 : Nat) ^ 53 ≤ 2 ^ e := Nat.pow_le_pow_right (by norm_num) (by omega)
    by_cases he53 : e = 53
    · subst he53
      omega
    · by_cases he54 : e = 54
      · subst he54
        have : (2 : Nat) ^ 54 = 18014398509481984 := by norm_num
        omega
      · have hge2 : (2 : Nat) ^ 55 ≤ 2 ^ e := Nat.pow_le_pow_right (by norm_num) (by omega)
        have h55 : (2 : Nat) ^ 55 = 36028797018963968 := by norm_num
        constructor
        · intro h; omega
        · intro h; omega

/-- If the load is excessive at every capacity, zero included, the loop of
`reserve` never ends. -/
theorem reserveLoop_never {v : Nat} (h : ∀ c, c < SIZE_MOD → loadExceeds v c = true) :
    ∀ fuel c, reserveLoop v fuel c = none := by
  intro fuel
  induction fuel with
  | zero => intro c; rfl
  | succ f ih =>
    intro c
    have hlt : (c <<< 1) % SIZE_MOD < SIZE_MOD := Nat.mod_lt _ (by unfold SIZE_MOD; norm_num)
    simp only [reserveLoop, h _ hlt, if_true]
    exact ih _

theorem toDouble_max : toDouble (2 ^ 64 - 1) = 2 ^ 64 := by decide

theorem loadExceeds_max (c : Nat) (hc : c < SIZE_MOD) : loadExceeds (2 ^ 64 - 1) c = true := by
  unfold loadExceeds
  by_cases h0 : c = 0
  · subst h0; decide
  · rw [if_neg h0, toDouble_max]
    simp only [decide_eq_true_eq, MAX_LOAD_NUM]
    unfold SIZE_MOD at hc
    have h64 : (2 : Nat) ^ 64 = 18446744073709551616 := by norm_num
    have h52 : (2 : Nat) ^ 52 = 4503599627370496 := by norm_num
    rw [h64, h52] at *
    omega

section Claims2

variable {K V : Type} [DecidableEq K] (hasher : K → Nat)

/-- C6: on a table with the steady-state invariants and for a key that
`getRecord` does not find, whenever `insert(k, v)` and then `remove(k)` return,
`getRecord(k)` is null again, `has(k)` is false and `size` is what it was before
the insert; and both calls do return when the table can hold one more record. -/
theorem C6_insert_remove_lookup (m : HashMap K V) (k : K) (v : V) (hwf : WF hasher m)
    (habs : getRecord hasher m k = some none) :
    (∀ m1 i m2, insert hasher m k v = some (m1, i) → remove hasher m1 k = some m2 →
      getRecord hasher m2 k = some none ∧ has hasher m2 k = some false ∧
        m2.size = m.size) ∧
    (Fits (m.size + 1) →
      ∃ m1 i m2, insert hasher m k v = some (m1, i) ∧ remove hasher m1 k = some m2) := by
  have hs := wf_sound hasher hwf
  constructor
  · intro m1 i m2 hins hrem
    obtain ⟨hs1, hsz1, _, _, _, _, _, _, _⟩ := insert_sound hasher hs hins
    obtain ⟨hs2, hsz2, _, _, hc2⟩ := remove_sound hasher hs1 hrem
    have hnone : getRecord hasher m2 k = some none :=
      (sound_getRecord_none hasher hs2 k).mpr (fun w hw => ((hc2 k w).mp hw).1 rfl)
    refine ⟨hnone, ?_, by omega⟩
    unfold has
    rw [hnone]
    rfl
  · intro hcap
    obtain ⟨m1, i, hins⟩ := insert_total hasher k v hs hcap habs
    obtain ⟨hs1, _, _, _, hi, hk, hv, _, _⟩ := insert_sound hasher hs hins
    obtain ⟨m2, hrem⟩ := remove_total hasher hs1 ⟨i, hi, hk, hv⟩
    exact ⟨m1, i, m2, hins, hrem⟩

/-- C7: inserting a list of pairs with pairwise distinct keys, as many as a
table can hold, into a fresh table and then removing each of the keys returns
at every call and leaves `size == 0` and no slot `OCCUPIED`. -/
theorem C7_deletion_scenario (mem : Nat → Record K V) (kvs : List (K × V))
    (hnd : (kvs.map Prod.fst).Nodup) (hfits : Fits kvs.length) :
    ∃ m0 m1 r, init mem MIN_CAPACITY = some m0 ∧ insertAll hasher kvs m0 = some m1 ∧
      removeAll hasher (kvs.map Prod.fst) m1 = some r ∧ r.size = 0 ∧
      ∀ i, i < r.capacity → (r.data i).type ≠ .OCCUPIED := by
  obtain ⟨m0, h0⟩ := init_total mem (show MIN_CAPACITY ≤ 2 ^ 63 by unfold MIN_CAPACITY; norm_num)
  obtain ⟨hs0, _, hsz0, hun0, _⟩ := init_sound hasher h0
  have hempty : ∀ k w, ¬ Stores m0 k w := by
    rintro k w ⟨i, hi, ⟨ho, _⟩, _⟩
    rw [hun0 i hi] at ho
    cases ho
  obtain ⟨m1, h1, hs1, hsz1, hc1⟩ := insertAll_spec hasher kvs m0 hs0
    (by rw [hsz0, Nat.zero_add]; exact hfits) hnd (fun p _ w => hempty p.1 w)
  have hex : ∀ k, k ∈ kvs.map Prod.fst → ∃ w, Stores m1 k w := by
    intro k hk
    obtain ⟨p, hp, rfl⟩ := List.mem_map.mp hk
    exact ⟨p.2, (hc1 p.1 p.2).mpr (Or.inl hp)⟩
  obtain ⟨r, h2, hs2, hsz2, _, _⟩ := removeAll_spec hasher _ m1 hs1 hnd hex
  have hzero : r.size = 0 := by
    rw [List.length_map] at hsz2
    omega
  refine ⟨m0, m1, r, h0, h1, h2, hzero, fun i hi => ?_⟩
  have hcount := hs2.count
  rw [hzero] at hcount
  have := countType_zero _ _ _ hcount i hi
  simpa using this

/-- C8: on every table whose capacity is a power of two, `getRecord` returns
after it has examined at most `capacity` slots, so that more iterations change
nothing, and it returns null when no `OCCUPIED` slot holds the key; a table
without any `UNUSED` slot is no exception. -/
theorem C8_getRecord_terminates (m : HashMap K V) (key : K) (hc : IsCap m.capacity) :
    (∃ r, getRecord hasher m key = some r ∧
      ∀ fuel, m.capacity ≤ fuel → getRecordFuel hasher fuel m key = some r) ∧
    ((∀ i, i < m.capacity → ¬ Holds m key i) → getRecord hasher m key = some none) := by
  refine ⟨?_, getRecord_absent hasher hc⟩
  obtain ⟨r, hr⟩ := getRecord_total hasher key hc
  refine ⟨r, hr, fun fuel hle => ?_⟩
  have := getRecordLoop_mono m key (getHash hasher m key) m.capacity (getHash hasher m key) r
    (fuel - m.capacity) hr
  rw [show m.capacity + (fuel - m.capacity) = fuel by omega] at this
  exact this

/-- C9: on a table with the steady-state invariants that can hold one more
record, `insert` of an absent key returns: `reserve(size + 1)` returns, and in
the table it leaves the probe of `getUnusedRecord` reaches a slot that is not
`OCCUPIED` within `capacity` steps, tombstone or not; and after inserting
distinct keys, as many as a table can hold, into a fresh table and removing all
of them, inserting any key returns and gives `size == 1`. -/
theorem C9_insert_terminates :
    (∀ (m : HashMap K V) (k : K) (v : V), WF hasher m → Fits (m.size + 1) →
      getRecord hasher m k = some none →
      ∃ m1 i r, reserve hasher m ((m.size + 1) % SIZE_MOD) = some m1 ∧
        getUnusedRecordFuel hasher m1.capacity m1 k = some i ∧
        (m1.data i).type ≠ .OCCUPIED ∧
        insert hasher m k v = some (r, i) ∧ r.size = m.size + 1) ∧
    (∀ (mem : Nat → Record K V) (kvs : List (K × V)) (k : K) (v : V),
      (kvs.map Prod.fst).Nodup → Fits kvs.length →
      ∃ m0 m1 m2 r i, init mem MIN_CAPACITY = some m0 ∧ insertAll hasher kvs m0 = some m1 ∧
        removeAll hasher (kvs.map Prod.fst) m1 = some m2 ∧
        insert hasher m2 k v = some (r, i) ∧ r.size = 1) := by
  constructor
  · intro m k v hwf hcap habs
    have hs := wf_sound hasher hwf
    obtain ⟨r, i, hins⟩ := insert_total hasher k v hs hcap habs
    obtain ⟨_, m1, hres, hun, _⟩ := insert_parts hasher hins
    obtain ⟨hk, _⟩ := reserve_kept hasher hs.cap hs.noPlaced hres
    obtain ⟨_, hfree, _⟩ := getUnusedRecord_spec hasher hk.cap hun
    exact ⟨m1, i, r, hres, hun, hfree, hins, (insert_sound hasher hs hins).2.1⟩
  · intro mem kvs k v hnd hlen
    obtain ⟨m0, h0⟩ := init_total mem
      (show MIN_CAPACITY ≤ 2 ^ 63 by unfold MIN_CAPACITY; norm_num)
    obtain ⟨hs0, _, hsz0, hun0, _⟩ := init_sound hasher h0
    have hempty : ∀ a w, ¬ Stores m0 a w := by
      rintro a w ⟨i, hi, ⟨ho, _⟩, _⟩
      rw [hun0 i hi] at ho
      cases ho
    obtain ⟨m1, h1, hs1, hsz1, hc1⟩ := insertAll_spec hasher kvs m0 hs0
      (by rw [hsz0, Nat.zero_add]; exact hlen) hnd (fun p _ w => hempty p.1 w)
    have hex : ∀ a, a ∈ kvs.map Prod.fst → ∃ w, Stores m1 a w := by
      intro a ha
      obtain ⟨p, hp, rfl⟩ := List.mem_map.mp ha
      exact ⟨p.2, (hc1 p.1 p.2).mpr (Or.inl hp)⟩
    obtain ⟨m2, h2, hs2, hsz2, hcap2, hc2⟩ := removeAll_spec hasher _ m1 hs1 hnd hex
    have hzero : m2.size = 0 := by
      rw [List.length_map] at hsz2
      omega
    have habs : getRecord hasher m2 k = some none := by
      rw [sound_getRecord_none hasher hs2]
      intro w hw
      obtain ⟨hnot, hst⟩ := (hc2 k w).mp hw
      rcases (hc1 k w).mp hst with hmem | hst0
      · exact hnot (List.mem_map_of_mem Prod.fst hmem)
      · exact hempty k w hst0
    have hfits : Fits (m2.size + 1) := by
      rw [hzero]
      exact ⟨by decide, by decide⟩
    obtain ⟨r, i, hins⟩ := insert_total hasher k v hs2 hfits habs
    have := (insert_sound hasher hs2 hins).2.1
    exact ⟨m0, m1, m2, r, i, h0, h1, h2, hins, by omega⟩

/-- C10 (as amended): on a table whose capacity `c` is a power of two,
`reserve(v)` leaves the table as it is when the load `v / c` is acceptable, and
otherwise, provided `v / 2^63` is acceptable, rehashes into the capacity
`c * 2^j` for the least `j >= 1` that makes `v / (c * 2^j)` acceptable; the test
is the one of the code, in double precision, which for `v < 2^53` is the exact
comparison `v / c > 0.7`.  So an insert grows the table exactly when
`(size + 1) / capacity` fails the test: at capacity 16 the eleventh insert does
not and the twelfth does. -/
theorem C10_reserve_growth (m : HashMap K V) (v : Nat) (hc : IsCap m.capacity)
    (hmax : loadExceeds v (2 ^ 63) = false) :
    (loadExceeds v m.capacity = false → reserve hasher m v = some m) ∧
    (loadExceeds v m.capacity = true →
      ∃ r j, 1 ≤ j ∧ reserve hasher m v = some r ∧ r.capacity = m.capacity * 2 ^ j ∧
        rehash hasher m (m.capacity * 2 ^ j) = some r ∧
        loadExceeds v (m.capacity * 2 ^ j) = false ∧
        ∀ i, 1 ≤ i → i < j → loadExceeds v (m.capacity * 2 ^ i) = true) ∧
    (v < 2 ^ 53 → ∀ e, e ≤ 63 → (loadExceeds v (2 ^ e) = true ↔ 7 * 2 ^ e < 10 * v)) ∧
    (∀ (k : K) (w : V) r i, Sound hasher m → insert hasher m k w = some (r, i) →
      ((r.capacity = m.capacity ↔ loadExceeds (m.size + 1) m.capacity = false) ∧
        (m.capacity = 16 → m.size = 10 → r.capacity = 16) ∧
        (m.capacity = 16 → m.size = 11 → r.capacity = 32))) := by
  have hgrow : ∀ u r, reserve hasher m u = some r → loadExceeds u m.capacity = true →
      ∃ j, 1 ≤ j ∧ r.capacity = m.capacity * 2 ^ j ∧
        rehash hasher m (m.capacity * 2 ^ j) = some r ∧
        loadExceeds u (m.capacity * 2 ^ j) = false ∧
        ∀ i, 1 ≤ i → i < j → loadExceeds u (m.capacity * 2 ^ i) = true := by
    intro u r hr hl
    rcases reserve_spec hasher hc hr with ⟨hl2, _⟩ | ⟨_, e, j, hce, hj1, _, hcr, hre, hok, hmin⟩
    · rw [hl] at hl2; cases hl2
    · refine ⟨j, hj1, ?_, ?_, ?_, fun i h1 h2 => ?_⟩
      · rw [hcr, hce, Nat.pow_add]
      · rw [hce, ← Nat.pow_add]; exact hre
      · rw [hce, ← Nat.pow_add]; exact hok
      · rw [hce, ← Nat.pow_add]; exact hmin i h1 h2
  refine ⟨fun hl => ?_, fun hl => ?_, fun hv e he => loadExceeds_iff_exact hv he, ?_⟩
  · unfold reserve
    rw [hl]
    rfl
  · obtain ⟨r, hr⟩ := reserve_total hasher hc hmax
    obtain ⟨j, h1, h2, h3, h4, h5⟩ := hgrow v r hr hl
    exact ⟨r, j, h1, hr, h2, h3, h4, h5⟩
  · intro k w r i hs hins
    obtain ⟨_, m1, hres, _, rfl⟩ := insert_parts hasher hins
    rw [Nat.mod_eq_of_lt (sound_size_lt hasher hs)] at hres
    simp only
    have hiff : m1.capacity = m.capacity ↔ loadExceeds (m.size + 1) m.capacity = false := by
      by_cases hl : loadExceeds (m.size + 1) m.capacity = true
      · obtain ⟨j, h1, h2, _, _, _⟩ := hgrow _ m1 hres hl
        have hpos := isCap_pos hc
        have h2j : 2 ≤ 2 ^ j := by
          calc 2 = 2 ^ 1 := by norm_num
            _ ≤ 2 ^ j := Nat.pow_le_pow_right (by norm_num) h1
        have : m.capacity * 2 ≤ m.capacity * 2 ^ j := Nat.mul_le_mul_left _ h2j
        constructor
        · intro h; omega
        · intro h; rw [hl] at h; cases h
      · have hl2 : loadExceeds (m.size + 1) m.capacity = false := by simpa using hl
        unfold reserve at hres
        rw [hl2] at hres
        simp only [Bool.false_eq_true, if_false, Option.some.injEq] at hres
        subst hres
        exact ⟨fun _ => hl2, fun _ => rfl⟩
    refine ⟨hiff, fun h16 h10 => ?_, fun h16 h11 => ?_⟩
    · rw [hiff.mpr (by rw [h16, h10]; decide), h16]
    · have hl : loadExceeds (m.size + 1) m.capacity = true := by rw [h16, h11]; decide
      obtain ⟨j, h1, h2, _, h4, h5⟩ := hgrow _ m1 hres hl
      have hj : j = 1 := by
        by_contra hne
        have := h5 1 (by omega) (by omega)
        rw [h16, h11] at this
        revert this
        decide
      rw [h2, hj, h16]
      norm_num

end Claims2

/-! ## The claims at sample inputs -/

theorem C1_insertion_scenario_witness :
    (sampleKvs.map Prod.fst).Nodup ∧ Fits sampleKvs.length ∧
      ∃ m0 r, init garbage MIN_CAPACITY = some m0 ∧
        assignAll defaultHash sampleKvs m0 = some r ∧ r.size = sampleKvs.length ∧
        ∀ p, p ∈ sampleKvs → get defaultHash r p.1 = some p.2 :=
  ⟨by decide, ⟨by decide, by decide⟩,
    C1_insertion_scenario defaultHash garbage sampleKvs (by decide) ⟨by decide, by decide⟩⟩

theorem C2_rehash_preserves_mapping_witness :
    WF defaultHash sampleTable ∧
      ∃ r, rehash defaultHash sampleTable 32 = some r ∧ r.size = sampleTable.size ∧
        sampleTable.capacity < r.capacity ∧
        ∀ k, lookup defaultHash r k = lookup defaultHash sampleTable k := by
  have h := C2_rehash_preserves_mapping defaultHash sampleTable 32 sampleTable_wf
  obtain ⟨r, hr⟩ := h.2 (by norm_num)
  obtain ⟨h1, _, h3, h4⟩ := h.1 r hr
  exact ⟨sampleTable_wf, r, hr, h1, h3 (by decide), fun k => (h4 k).1⟩

theorem C3_probe_path_invariant_witness :
    IsCap sampleTable.capacity ∧ NoPlaced sampleTable ∧ ProbePath defaultHash sampleTable ∧
      (∀ r, step defaultHash (Op.remove 1) sampleTable = some r → ProbePath defaultHash r) ∧
      (∀ r, step defaultHash (Op.rehash 0) sampleTable = some r → ProbePath defaultHash r) :=
  ⟨sampleTable_wf.cap, sampleTable_wf.noPlaced, sampleTable_wf.probe,
    fun r h => (C3_probe_path_invariant defaultHash).2 sampleTable r (Op.remove 1)
      sampleTable_wf.cap sampleTable_wf.noPlaced sampleTable_wf.probe h,
    fun r h => (C3_probe_path_invariant defaultHash).2 sampleTable r (Op.rehash 0)
      sampleTable_wf.cap sampleTable_wf.noPlaced sampleTable_wf.probe h⟩

theorem C4_no_placed_after_operation_witness :
    NoPlaced sampleTable ∧
      (∀ m, init garbage 16 = some m → NoPlaced m) ∧
      (∀ r, step defaultHash (Op.insert 49 7) sampleTable = some r → NoPlaced r) :=
  ⟨sampleTable_wf.noPlaced,
    fun m h => (C4_no_placed_after_operation defaultHash).1 garbage 16 m h,
    fun r h => (C4_no_placed_after_operation defaultHash).2 sampleTable r (Op.insert 49 7)
      sampleTable_wf.noPlaced h⟩

theorem C5_capacity_and_load_witness :
    (∃ m, init garbage 1000 = some m ∧ IsCap m.capacity ∧ MIN_CAPACITY ≤ m.capacity ∧
      m.size = 0) ∧
    WF defaultHash sampleTable ∧
    (∀ r, step defaultHash (Op.assign 49 7) sampleTable = some r →
      IsCap r.capacity ∧ MIN_CAPACITY ≤ r.capacity ∧ overloaded r = false) := by
  have h := C5_capacity_and_load (K := Nat) (V := Nat) defaultHash
  refine ⟨?_, sampleTable_wf, fun r hr => ?_⟩
  · obtain ⟨m, h1, h2, _, h4, h5, _⟩ := h.1 garbage 1000 (by norm_num)
    exact ⟨m, h1, h2, h4, h5⟩
  · obtain ⟨h1, _, h3, h4⟩ := h.2.1 sampleTable r (Op.assign 49 7) sampleTable_wf hr
    exact ⟨h1, h3, h4⟩

theorem C6_insert_remove_lookup_witness :
    WF defaultHash sampleTable ∧ getRecord defaultHash sampleTable 49 = some none ∧
      Fits (sampleTable.size + 1) ∧ ∃ m1 i m2, insert defaultHash sampleTable 49 7 = some (m1, i) ∧
        remove defaultHash m1 49 = some m2 ∧ getRecord defaultHash m2 49 = some none ∧
        has defaultHash m2 49 = some false ∧ m2.size = sampleTable.size := by
  have h := C6_insert_remove_lookup defaultHash sampleTable 49 7 sampleTable_wf (by decide)
  obtain ⟨m1, i, m2, h1, h2⟩ := h.2 ⟨by decide, by decide⟩
  obtain ⟨h3, h4, h5⟩ := h.1 m1 i m2 h1 h2
  exact ⟨sampleTable_wf, by decide, ⟨by decide, by decide⟩, m1, i, m2, h1, h2, h3, h4, h5⟩

theorem C7_deletion_scenario_witness :
    (sampleKvs.map Prod.fst).Nodup ∧ Fits sampleKvs.length ∧
      ∃ m0 m1 r, init garbage MIN_CAPACITY = some m0 ∧
        insertAll defaultHash sampleKvs m0 = some m1 ∧
        removeAll defaultHash (sampleKvs.map Prod.fst) m1 = some r ∧ r.size = 0 ∧
        ∀ i, i < r.capacity → (r.data i).type ≠ .OCCUPIED :=
  ⟨by decide, ⟨by decide, by decide⟩,
    C7_deletion_scenario defaultHash garbage sampleKvs (by decide) ⟨by decide, by decide⟩⟩

theorem C8_getRecord_terminates_witness :
    IsCap fullTable.capacity ∧
      (∀ i, i < fullTable.capacity → (fullTable.data i).type ≠ .UNUSED) ∧
      (∀ i, i < fullTable.capacity → ¬ Holds fullTable 21 i) ∧
      getRecord defaultHash fullTable 21 = some none ∧
      ∀ fuel, fullTable.capacity ≤ fuel →
        getRecordFuel defaultHash fuel fullTable 21 = some none := by
  have habs : ∀ i, i < fullTable.capacity → ¬ Holds fullTable 21 i := by
    unfold Holds
    decide
  have h := C8_getRecord_terminates defaultHash fullTable 21 fullTable_wf.cap
  obtain ⟨r, h1, h2⟩ := h.1
  have h3 := h.2 habs
  rw [h3] at h1
  simp only [Option.some.injEq] at h1
  subst h1
  exact ⟨fullTable_wf.cap, by decide, habs, h3, h2⟩

theorem C9_insert_terminates_witness :
    WF defaultHash tombTable ∧ Fits (tombTable.size + 1) ∧
      (∀ i, i < tombTable.capacity → (tombTable.data i).type = .DELETED) ∧
      getRecord defaultHash tombTable 3 = some none ∧
      (∃ r i, insert defaultHash tombTable 3 7 = some (r, i) ∧ r.size = 1) ∧
      ∃ m0 m1 m2 r i, init garbage MIN_CAPACITY = some m0 ∧
        insertAll defaultHash sampleKvs m0 = some m1 ∧
        removeAll defaultHash (sampleKvs.map Prod.fst) m1 = some m2 ∧
        insert defaultHash m2 1 5 = some (r, i) ∧ r.size = 1 := by
  have h := C9_insert_terminates (K := Nat) (V := Nat) defaultHash
  obtain ⟨m1, i, r, _, _, _, h4, h5⟩ :=
    h.1 tombTable 3 7 tombTable_wf ⟨by decide, by decide⟩ (by decide)
  exact ⟨tombTable_wf, ⟨by decide, by decide⟩, by decide, by decide, ⟨r, i, h4, h5⟩,
    h.2 garbage sampleKvs 1 5 (by decide) ⟨by decide, by decide⟩⟩

theorem C10_reserve_growth_witness :
    IsCap sampleTable.capacity ∧ loadExceeds 12 (2 ^ 63) = false ∧
      loadExceeds 11 sampleTable.capacity = false ∧
      reserve defaultHash sampleTable 11 = some sampleTable ∧
      loadExceeds 12 sampleTable.capacity = true ∧
      ∃ r, reserve defaultHash sampleTable 12 = some r ∧ r.capacity = 32 := by
  have h11 := C10_reserve_growth defaultHash sampleTable 11 sampleTable_wf.cap (by decide)
  have h12 := C10_reserve_growth defaultHash sampleTable 12 sampleTable_wf.cap (by decide)
  obtain ⟨r, j, hj, hr, hcap, _, _, hmin⟩ := h12.2.1 (by decide)
  have hj1 : j = 1 := by
    by_contra hne
    have := hmin 1 (by omega) (by omega)
    revert this
    decide
  refine ⟨sampleTable_wf.cap, by decide, by decide, h11.1 (by decide), by decide, r, hr, ?_⟩
  rw [hcap, hj1]
  decide

/-- C10, as stated, fails: with capacity 16 and `v = 2^64 - 1` the load `v / c`
exceeds 0.7, the least capacity `16 * 2^j` that would be acceptable is `2^64`,
which no `size_t` holds; the doubling wraps to zero and `reserve` never
returns, whatever the number of iterations. -/
theorem C10_reserve_growth_counterexample :
    7 * sampleTable.capacity < 10 * (2 ^ 64 - 1) ∧
      loadExceeds (2 ^ 64 - 1) sampleTable.capacity = true ∧
      reserve defaultHash sampleTable (2 ^ 64 - 1) = none ∧
      ¬ ∃ fuel newCapacity,
        reserveLoop (2 ^ 64 - 1) fuel sampleTable.capacity = some newCapacity := by
  have hnever := reserveLoop_never (v := 2 ^ 64 - 1) loadExceeds_max
  refine ⟨by decide, by decide, ?_, ?_⟩
  · unfold reserve
    rw [if_pos (by decide), hnever]
  · rintro ⟨fuel, nc, h⟩
    rw [hnever] at h
    cases h

/-! ## clearGravestones -/

section ClearGravestones

variable {K V : Type} [DecidableEq K] (hasher : K → Nat)

/-- The body of the loop of `clearGravestones` leaves a tombstone as it is. -/
theorem clearGravestonesStep_deleted (m : HashMap K V) (i : Nat) (d : Bool)
    (h : (m.data i).type = .DELETED) : clearGravestonesStep hasher m i d = some (m, true) := by
  unfold clearGravestonesStep
  rw [if_pos h]

/-- The body of the loop of `clearGravestones` does not change the capacity. -/
theorem clearGravestonesStep_capacity {m r : HashMap K V} {i : Nat} {d e : Bool}
    (h : clearGravestonesStep hasher m i d = some (r, e)) : r.capacity = m.capacity := by
  unfold clearGravestonesStep at h
  split at h
  · simp only [Option.some.injEq, Prod.mk.injEq] at h
    rw [← h.1]
  · split at h
    · simp only [Option.some.injEq, Prod.mk.injEq] at h
      rw [← h.1]
    · split at h
      · simp only at h
        split at h
        · cases h
        · simp only [Option.some.injEq, Prod.mk.injEq] at h
          rw [← h.1]
      · simp only [Option.some.injEq, Prod.mk.injEq] at h
        rw [← h.1]

/-- The loop of `clearGravestones` never ends: its index is reduced modulo the
capacity after every iteration, so the test `i < capacity` cannot fail. -/
theorem clearGravestonesLoop_never (fuel : Nat) :
    ∀ (m : HashMap K V) (i : Nat) (d : Bool), IsCap m.capacity → i < m.capacity →
      clearGravestonesLoop hasher fuel m i d = none := by
  induction fuel with
  | zero => intro m i d _ _; rfl
  | succ fuel ih =>
    intro m i d hc hi
    unfold clearGravestonesLoop
    rw [if_pos (Or.inl hi)]
    cases hstep : clearGravestonesStep hasher m i d with
    | none => rfl
    | some p =>
      obtain ⟨m1, e⟩ := p
      have hcap := clearGravestonesStep_capacity hasher hstep
      simp only
      have hc1 : IsCap m1.capacity := by rw [hcap]; exact hc
      refine ih m1 _ e hc1 ?_
      rw [BIT_MODULO_cap hc1]
      exact Nat.mod_lt _ (isCap_pos hc1)

/-- On a table whose capacity is a power of two, `clearGravestones` does not
return, however many iterations it is given. -/
theorem clearGravestones_never (m : HashMap K V) (hc : IsCap m.capacity) (fuel : Nat) :
    clearGravestones hasher fuel m = none :=
  clearGravestonesLoop_never hasher fuel m 0 false hc (isCap_pos hc)

end ClearGravestones

/-- C11: `clearGravestones` on the sample table, which has the steady-state
invariants and a tombstone at slot 3.  A rehash at the current capacity returns
a table without tombstones; `clearGravestones` does not return, whatever the
number of iterations, and the body of its loop at the tombstone leaves the
table as it is, the record still `DELETED`. -/
theorem C11_clearGravestones_sample :
    WF defaultHash sampleTable ∧ (sampleTable.data 3).type = .DELETED ∧
      (∃ r, rehash defaultHash sampleTable sampleTable.capacity = some r ∧
        ∀ i, i < r.capacity → (r.data i).type ≠ .DELETED) ∧
      (∀ fuel, clearGravestones defaultHash fuel sampleTable = none) ∧
      clearGravestonesStep defaultHash sampleTable 3 false = some (sampleTable, true) := by
  refine ⟨sampleTable_wf, by decide, ?_, fun fuel =>
    clearGravestones_never defaultHash sampleTable sampleTable_wf.cap fuel,
    clearGravestonesStep_deleted defaultHash sampleTable 3 false (by decide)⟩
  obtain ⟨r, hr⟩ := rehash_total defaultHash sampleTable sampleTable.capacity
    sampleTable_wf.cap (Or.inr (by decide))
  exact ⟨r, hr, (rehash_post defaultHash sampleTable_wf.cap sampleTable_wf.noPlaced hr).noDeleted⟩

/-! ## Traversal -/

section Iteration

variable {K V : Type} [DecidableEq K]

theorem occupiedSlots_succ (m : HashMap K V) (i n : Nat) :
    occupiedSlots m i (n + 1) =
      if (m.data i).type = .OCCUPIED then i :: occupiedSlots m (i + 1) n
      else occupiedSlots m (i + 1) n := by
  unfold occupiedSlots
  rw [List.range'_succ, List.filter_cons]
  by_cases h : (m.data i).type = .OCCUPIED
  · simp [h]
  · simp [h]

theorem mem_occupiedSlots (m : HashMap K V) (i n j : Nat) :
    j ∈ occupiedSlots m i n ↔ (i ≤ j ∧ j < i + n) ∧ (m.data j).type = .OCCUPIED := by
  unfold occupiedSlots
  rw [List.mem_filter, List.mem_range'_1, decide_eq_true_eq]

theorem occupiedSlots_nodup (m : HashMap K V) (i n : Nat) : (occupiedSlots m i n).Nodup :=
  (List.nodup_range' i n).filter _

/-- The loop of `next()` stops, within the iterations it is given, at the first
`OCCUPIED` slot from `i` on, or at `capacity`. -/
theorem nextLoop_spec (m : HashMap K V) (n : Nat) :
    ∀ i, i + n = m.capacity →
      i ≤ nextLoop m n i ∧ nextLoop m n i ≤ m.capacity ∧
      (nextLoop m n i < m.capacity → (m.data (nextLoop m n i)).type = .OCCUPIED) ∧
      occupiedSlots m i n = occupiedSlots m (nextLoop m n i) (m.capacity - nextLoop m n i) := by
  induction n with
  | zero =>
    intro i hi
    have : nextLoop m 0 i = i := rfl
    rw [this]
    refine ⟨Nat.le_refl _, by omega, fun h => by omega, ?_⟩
    rw [show m.capacity - i = 0 by omega]
  | succ n ih =>
    intro i hi
    by_cases hocc : (m.data i).type = .OCCUPIED
    · have : nextLoop m (n + 1) i = i := by
        unfold nextLoop
        rw [if_neg (fun h => h.2 hocc)]
      rw [this]
      refine ⟨Nat.le_refl _, by omega, fun _ => hocc, ?_⟩
      rw [show m.capacity - i = n + 1 by omega]
    · have : nextLoop m (n + 1) i = nextLoop m n (i + 1) := by
        unfold nextLoop
        rw [if_pos ⟨by omega, hocc⟩]
        cases n <;> rfl
      rw [this]
      obtain ⟨h1, h2, h3, h4⟩ := ih (i + 1) (by omega)
      refine ⟨by omega, h2, h3, ?_⟩
      rw [occupiedSlots_succ, if_neg hocc, h4]

theorem endIndex_eq (m : HashMap K V) : endIndex m = m.capacity := by
  unfold endIndex next
  rw [Nat.sub_self]
  rfl

/-- From an iterator that stands on an `OCCUPIED` slot, or at `end()`, the
traversal yields the `OCCUPIED` records from there on, in the order of their
slots, and reaches `end()`. -/
theorem iterateLoop_spec (m : HashMap K V) (fuel : Nat) :
    ∀ i, i ≤ m.capacity → m.capacity - i ≤ fuel →
      (i < m.capacity → (m.data i).type = .OCCUPIED) →
      iterateLoop m fuel i = some ((occupiedSlots m i (m.capacity - i)).map m.data) := by
  induction fuel with
  | zero =>
    intro i hi hf _
    have hic : i = m.capacity := by omega
    unfold iterateLoop
    rw [endIndex_eq, if_neg (by simp [hic]), hic, Nat.sub_self]
    rfl
  | succ fuel ih =>
    intro i hi hf hocc
    unfold iterateLoop
    rw [endIndex_eq]
    by_cases hic : i = m.capacity
    · rw [if_neg (by simp [hic]), hic, Nat.sub_self]
      rfl
    · rw [if_pos hic]
      have hlt : i < m.capacity := by omega
      obtain ⟨h1, h2, h3, h4⟩ := nextLoop_spec m (m.capacity - (i + 1)) (i + 1) (by omega)
      have hnext : next m (i + 1) = nextLoop m (m.capacity - (i + 1)) (i + 1) := rfl
      rw [hnext, ih _ h2 (by omega) h3, Option.map_some',
        show m.capacity - i = (m.capacity - (i + 1)) + 1 by omega,
        occupiedSlots_succ, if_pos (hocc hlt), h4]
      rfl

/-- A traversal from `begin()` to `end()` yields the `OCCUPIED` records in the
order of their slots. -/
theorem iterate_eq (m : HashMap K V) :
    iterate m = some ((occupiedSlots m 0 m.capacity).map m.data) := by
  obtain ⟨h1, h2, h3, h4⟩ := nextLoop_spec m m.capacity 0 (by omega)
  have hb : begin m = nextLoop m m.capacity 0 := rfl
  unfold iterate
  rw [hb, iterateLoop_spec m m.capacity _ h2 (by omega) h3, ← h4]

theorem iterateKeys_eq (m : HashMap K V) :
    iterateKeys m = some ((occupiedSlots m 0 m.capacity).map (fun j => (m.data j).key)) := by
  unfold iterateKeys
  rw [iterate_eq, Option.map_some', List.map_map]
  rfl

/-- The keys of a traversal are the keys that the table stores. -/
theorem mem_iterateKeys (m : HashMap K V) (k : K) :
    k ∈ (occupiedSlots m 0 m.capacity).map (fun j => (m.data j).key) ↔ ∃ v, Stores m k v := by
  rw [List.mem_map]
  constructor
  · rintro ⟨j, hj, rfl⟩
    obtain ⟨⟨_, h2⟩, h3⟩ := (mem_occupiedSlots m 0 m.capacity j).mp hj
    exact ⟨(m.data j).value, j, by omega, ⟨h3, rfl⟩, rfl⟩
  · rintro ⟨v, j, hj, ⟨h1, h2⟩, _⟩
    exact ⟨j, (mem_occupiedSlots m 0 m.capacity j).mpr ⟨⟨by omega, by omega⟩, h1⟩, h2⟩

/-- With distinct keys in the table, a traversal yields no key twice. -/
theorem iterateKeys_nodup (m : HashMap K V) (hd : DistinctKeys m) :
    ((occupiedSlots m 0 m.capacity).map (fun j => (m.data j).key)).Nodup := by
  refine List.Nodup.map_on ?_ (occupiedSlots_nodup m 0 m.capacity)
  intro i hi j hj hk
  obtain ⟨⟨_, h2⟩, h3⟩ := (mem_occupiedSlots m 0 m.capacity i).mp hi
  obtain ⟨⟨_, h5⟩, h6⟩ := (mem_occupiedSlots m 0 m.capacity j).mp hj
  exact hd i j (by omega) (by omega) h3 h6 hk

/-- Two tables that store the same keys yield, when traversed, the same keys,
each once, possibly in different orders. -/
theorem iterateKeys_perm (a b : HashMap K V) (ha : DistinctKeys a) (hb : DistinctKeys b)
    (hsame : ∀ k, (∃ v, Stores a k v) ↔ ∃ w, Stores b k w) :
    ∃ la lb, iterateKeys a = some la ∧ iterateKeys b = some lb ∧ la.Perm lb ∧ la.Nodup := by
  refine ⟨_, _, iterateKeys_eq a, iterateKeys_eq b, ?_, iterateKeys_nodup a ha⟩
  rw [List.perm_ext_iff_of_nodup (iterateKeys_nodup a ha) (iterateKeys_nodup b hb)]
  intro k
  rw [mem_iterateKeys, mem_iterateKeys]
  exact hsame k

end Iteration

/-! ## Tables without collisions -/

theorem mod_cases (x c : Nat) (h : x < 2 * c) :
    (x < c ∧ x % c = x) ∨ (c ≤ x ∧ x % c = x - c) := by
  rw [mod_lt_two x c h]
  split <;> omega

theorem dist_cases {c h i : Nat} (hh : h < c) (hi : i < c) :
    (i < h ∧ (i + c - h) % c = i + c - h) ∨ (h ≤ i ∧ (i + c - h) % c = i - h) := by
  rw [mod_lt_two (i + c - h) c (by omega)]
  split <;> omega

/-- Going back `s` slots from `i` stays on the probe path from `h` to `i` when
`s` is at most its length. -/
theorem back_in_path {c h i s : Nat} (hh : h < c) (hi : i < c) (hs : s ≤ (i + c - h) % c) :
    (h + ((i + c - h) % c - s)) % c = (i + c - s) % c := by
  rcases dist_cases hh hi with ⟨h1, h2⟩ | ⟨h1, h2⟩
  · rw [h2] at hs ⊢
    rcases mod_cases (h + (i + c - h - s)) c (by omega) with ⟨a1, a2⟩ | ⟨a1, a2⟩ <;>
    rcases mod_cases (i + c - s) c (by omega) with ⟨b1, b2⟩ | ⟨b1, b2⟩ <;> omega
  · rw [h2] at hs ⊢
    rcases mod_cases (h + (i - h - s)) c (by omega) with ⟨a1, a2⟩ | ⟨a1, a2⟩ <;>
    rcases mod_cases (i + c - s) c (by omega) with ⟨b1, b2⟩ | ⟨b1, b2⟩ <;> omega

/-- Going back `s` slots from `i`, beyond the start `h` of the probe path to
`i`, is going back the rest from `h`. -/
theorem back_beyond {c h i s : Nat} (hh : h < c) (hi : i < c) (hs : (i + c - h) % c < s)
    (hsc : s ≤ c) :
    (h + c - (s - (i + c - h) % c)) % c = (i + c - s) % c := by
  rcases dist_cases hh hi with ⟨h1, h2⟩ | ⟨h1, h2⟩
  · rw [h2] at hs ⊢
    rcases mod_cases (h + c - (s - (i + c - h))) c (by omega) with ⟨a1, a2⟩ | ⟨a1, a2⟩ <;>
    rcases mod_cases (i + c - s) c (by omega) with ⟨b1, b2⟩ | ⟨b1, b2⟩ <;> omega
  · rw [h2] at hs ⊢
    rcases mod_cases (h + c - (s - (i - h))) c (by omega) with ⟨a1, a2⟩ | ⟨a1, a2⟩ <;>
    rcases mod_cases (i + c - s) c (by omega) with ⟨b1, b2⟩ | ⟨b1, b2⟩ <;> omega

theorem back_to {c u i : Nat} (hu : u < c) (hi : i < c) (hne : u ≠ i) :
    1 ≤ (i + c - u) % c ∧ (i + c - u) % c ≤ c ∧ (i + c - (i + c - u) % c) % c = u := by
  rcases dist_cases hu hi with ⟨h1, h2⟩ | ⟨h1, h2⟩
  · rw [h2]
    rcases mod_cases (i + c - (i + c - u)) c (by omega) with ⟨b1, b2⟩ | ⟨b1, b2⟩ <;> omega
  · rw [h2]
    rcases mod_cases (i + c - (i - u)) c (by omega) with ⟨b1, b2⟩ | ⟨b1, b2⟩ <;> omega

section Homes

variable {K V : Type} [DecidableEq K] (hasher : K → Nat)

/-- In a table without tombstones in which no two keys share a home slot, there
is no `UNUSED` slot at any distance behind a record that is not in its home
slot: the slots back to its home are taken, and the record in its home slot is
itself not at home. -/
theorem displaced_back {m : HashMap K V} (hc : IsCap m.capacity) (hnp : NoPlaced m)
    (hnd : NoDeleted m) (hp : ProbePath hasher m) (hh : DistinctHomes hasher m) (s : Nat) :
    ∀ i, i < m.capacity → (m.data i).type = .OCCUPIED →
      getHash hasher m (m.data i).key ≠ i → 1 ≤ s → s ≤ m.capacity →
      (m.data ((i + m.capacity - s) % m.capacity)).type ≠ .UNUSED := by
  induction s using Nat.strong_induction_on with
  | _ s ih =>
    intro i hi hocc hne hs1 hsc
    have hlt := getHash_lt hasher hc (m.data i).key
    have hpath := hp i hi hocc
    by_cases hst : s ≤ (i + m.capacity - getHash hasher m (m.data i).key) % m.capacity
    · have := hpath ((i + m.capacity - getHash hasher m (m.data i).key) % m.capacity - s)
        (by omega)
      rw [back_in_path hlt hi hst] at this
      exact this
    · have htpos : 0 < (i + m.capacity - getHash hasher m (m.data i).key) % m.capacity := by
        rcases dist_cases hlt hi with ⟨h1, h2⟩ | ⟨h1, h2⟩ <;> omega
      have h0 := hpath 0 htpos
      rw [Nat.add_zero, Nat.mod_eq_of_lt hlt] at h0
      have hocch : (m.data (getHash hasher m (m.data i).key)).type = .OCCUPIED := by
        have h1 := hnp _ hlt
        have h2 := hnd _ hlt
        cases ht : (m.data (getHash hasher m (m.data i).key)).type with
        | UNUSED => exact absurd ht h0
        | DELETED => exact absurd ht h2
        | OCCUPIED => rfl
        | PLACED => exact absurd ht h1
      have hneh : getHash hasher m (m.data (getHash hasher m (m.data i).key)).key ≠
          getHash hasher m (m.data i).key := by
        intro hcon
        exact hne (hh _ i hlt hi hocch hocc hcon)
      have := ih (s - (i + m.capacity - getHash hasher m (m.data i).key) % m.capacity)
        (by omega) _ hlt hocch hneh (by omega) (by omega)
      rw [back_beyond hlt hi (by omega) hsc] at this
      exact this

/-- In a table without tombstones that has a free slot and in which no two keys
share a home slot, every record is in its home slot. -/
theorem atHome_of_distinctHomes {m : HashMap K V} (hc : IsCap m.capacity) (hnp : NoPlaced m)
    (hnd : NoDeleted m) (hp : ProbePath hasher m) (hh : DistinctHomes hasher m)
    (hfree : ∃ u, u < m.capacity ∧ (m.data u).type = .UNUSED) : AtHome hasher m := by
  intro i hi hocc
  by_contra hne
  obtain ⟨u, hu, hun⟩ := hfree
  have hui : u ≠ i := by
    intro h
    rw [h, hocc] at hun
    cases hun
  obtain ⟨h1, h2, h3⟩ := back_to hu hi hui
  have := displaced_back hasher hc hnp hnd hp hh _ i hi hocc hne h1 h2
  rw [h3] at this
  exact this hun

/-- Two tables of the same capacity in which every record is at home hold a key
that both store in the same slot. -/
theorem atHome_transfer {a b : HashMap K V} (hcap : a.capacity = b.capacity)
    (ha : AtHome hasher a) (hb : AtHome hasher b)
    (hsub : ∀ k, (∃ v, Stores a k v) → ∃ w, Stores b k w) :
    ∀ j, j < a.capacity → (a.data j).type = .OCCUPIED →
      (b.data j).type = .OCCUPIED ∧ (b.data j).key = (a.data j).key := by
  intro j hj hocc
  obtain ⟨w, j2, hj2, ⟨h1, h2⟩, _⟩ := hsub (a.data j).key ⟨_, j, hj, ⟨hocc, rfl⟩, rfl⟩
  have e1 := ha j hj hocc
  have e2 := hb j2 hj2 h1
  rw [h2] at e2
  unfold getHash at e1 e2
  rw [hcap] at e1
  have : j2 = j := by rw [← e1, ← e2]
  subst this
  exact ⟨h1, h2⟩

/-- Two tables of the same capacity that store the same keys, every record at
home, yield the same sequence of keys when traversed. -/
theorem iterateKeys_eq_of_atHome {a b : HashMap K V} (hcap : a.capacity = b.capacity)
    (ha : AtHome hasher a) (hb : AtHome hasher b)
    (hsame : ∀ k, (∃ v, Stores a k v) ↔ ∃ w, Stores b k w) :
    iterateKeys a = iterateKeys b := by
  have hab := atHome_transfer hasher hcap ha hb (fun k => (hsame k).mp)
  have hba := atHome_transfer hasher hcap.symm hb ha (fun k => (hsame k).mpr)
  have hslots : occupiedSlots a 0 a.capacity = occupiedSlots b 0 b.capacity := by
    unfold occupiedSlots
    rw [← hcap]
    apply List.filter_congr
    intro j hj
    have hjc : j < a.capacity := by
      have := List.mem_range'_1.mp hj
      omega
    by_cases hocc : (a.data j).type = .OCCUPIED
    · simp [hocc, (hab j hjc hocc).1]
    · have : (b.data j).type ≠ .OCCUPIED := fun h => hocc (hba j (by omega) h).1
      simp [hocc, this]
  rw [iterateKeys_eq, iterateKeys_eq, ← hslots]
  congr 1
  apply List.map_congr_left
  intro j hj
  obtain ⟨⟨_, h2⟩, h3⟩ := (mem_occupiedSlots a 0 a.capacity j).mp hj
  exact ((hab j (by omega) h3).2).symm

end Homes

/-! ## Sequences of inserts into a fresh table -/

section FreshInserts

variable {K V : Type} [DecidableEq K] (hasher : K → Nat)

theorem insertAll_nil (m : HashMap K V) : insertAll hasher [] m = some m := rfl

theorem insertAll_cons (k : K) (v : V) (rest : List (K × V)) (m r : HashMap K V) :
    insertAll hasher ((k, v) :: rest) m = some r ↔
      ∃ m1 i, insert hasher m k v = some (m1, i) ∧ insertAll hasher rest m1 = some r := by
  unfold insertAll
  rw [runAll]
  cases h : insert hasher m k v with
  | none => simp
  | some p =>
    obtain ⟨m1, i⟩ := p
    simp

/-- `reserve` creates no tombstone. -/
theorem reserve_noDeleted {m r : HashMap K V} {v : Nat} (hc : IsCap m.capacity)
    (hnp : NoPlaced m) (hnd : NoDeleted m) (h : reserve hasher m v = some r) :
    NoDeleted r := by
  rcases reserve_spec hasher hc h with ⟨_, rfl⟩ | ⟨_, e, j, _, _, _, _, hre, _, _⟩
  · exact hnd
  · exact (rehash_post hasher hc hnp hre).noDeleted

/-- `insert` creates no tombstone. -/
theorem insert_noDeleted {m r : HashMap K V} {key : K} {value : V} {i : Nat}
    (hc : IsCap m.capacity) (hnp : NoPlaced m) (hnd : NoDeleted m)
    (h : insert hasher m key value = some (r, i)) : NoDeleted r := by
  obtain ⟨_, m1, hres, _, rfl⟩ := insert_parts hasher h
  have h1 := reserve_noDeleted hasher hc hnp hnd hres
  intro j hj
  simp only at hj ⊢
  by_cases hji : j = i
  · subst hji; simp
  · rw [store_other _ _ hji]; exact h1 j hj

/-- The capacity that `reserve` leaves depends on the capacity it finds and on
the value only. -/
theorem reserve_capacity_eq {a b ra rb : HashMap K V} {v : Nat} (hc : IsCap a.capacity)
    (hcap : a.capacity = b.capacity) (ha : reserve hasher a v = some ra)
    (hb : reserve hasher b v = some rb) : ra.capacity = rb.capacity := by
  have hcb : IsCap b.capacity := by rw [← hcap]; exact hc
  unfold reserve at ha hb
  rw [← hcap] at hb
  by_cases hl : loadExceeds v a.capacity = true
  · rw [if_pos hl] at ha hb
    cases hr : reserveLoop v 65 a.capacity with
    | none => rw [hr] at ha; cases ha
    | some nc =>
      rw [hr] at ha hb
      simp only at ha hb
      obtain ⟨a1, a2⟩ := rehash_capacity hasher hc ha
      obtain ⟨b1, b2⟩ := rehash_capacity hasher hcb hb
      by_cases hle : nc ≤ a.capacity
      · rw [a1 hle, b1 (by omega), hcap]
      · have e1 := a2 (by omega)
        have e2 := b2 (by omega)
        rw [e1] at e2
        exact Option.some.inj e2
  · rw [if_neg hl] at ha hb
    cases ha
    cases hb
    exact hcap

/-- The capacity and the size that `insert` leaves depend on the capacity and
the size it finds only. -/
theorem insert_capacity_eq {a b ra rb : HashMap K V} {k1 k2 : K} {v1 v2 : V} {i j : Nat}
    (hsa : Sound hasher a) (hsb : Sound hasher b)
    (hcap : a.capacity = b.capacity) (hsize : a.size = b.size)
    (ha : insert hasher a k1 v1 = some (ra, i)) (hb : insert hasher b k2 v2 = some (rb, j)) :
    ra.capacity = rb.capacity ∧ ra.size = rb.size := by
  obtain ⟨_, a1, hra, _, rfl⟩ := insert_parts hasher ha
  obtain ⟨_, b1, hrb, _, rfl⟩ := insert_parts hasher hb
  rw [← hsize] at hrb
  have h1 := reserve_capacity_eq hasher hsa.cap hcap hra hrb
  have h2 := (reserve_kept hasher hsa.cap hsa.noPlaced hra).1.size
  have h3 := (reserve_kept hasher hsb.cap hsb.noPlaced hrb).1.size
  refine ⟨h1, ?_⟩
  simp only
  rw [h2, h3, hsize]

/-- Inserts into a table without tombstones leave a table without tombstones,
with the invariants and an acceptable load. -/
theorem insertAll_fresh (kvs : List (K × V)) :
    ∀ (m r : HashMap K V), Sound hasher m → NoDeleted m → overloaded m = false →
      insertAll hasher kvs m = some r →
      Sound hasher r ∧ NoDeleted r ∧ overloaded r = false := by
  induction kvs with
  | nil =>
    intro m r hs hnd hl h
    rw [insertAll_nil] at h
    cases h
    exact ⟨hs, hnd, hl⟩
  | cons p rest ih =>
    intro m r hs hnd hl h
    obtain ⟨k, v⟩ := p
    obtain ⟨m1, i, hins, hrest⟩ := (insertAll_cons hasher k v rest m r).mp h
    obtain ⟨hs1, _, _, hl1, _⟩ := insert_sound hasher hs hins
    exact ih m1 r hs1 (insert_noDeleted hasher hs.cap hs.noPlaced hnd hins) hl1 hrest

/-- The capacity after a sequence of inserts depends on the capacity and the
size of the table and on the number of inserts only. -/
theorem insertAll_capacity_eq (kvs1 : List (K × V)) :
    ∀ (kvs2 : List (K × V)) (a b ra rb : HashMap K V), kvs1.length = kvs2.length →
      Sound hasher a → Sound hasher b → a.capacity = b.capacity → a.size = b.size →
      insertAll hasher kvs1 a = some ra → insertAll hasher kvs2 b = some rb →
      ra.capacity = rb.capacity := by
  induction kvs1 with
  | nil =>
    intro kvs2 a b ra rb hlen hsa hsb hcap hsize ha hb
    cases kvs2 with
    | nil =>
      rw [insertAll_nil] at ha hb
      cases ha
      cases hb
      exact hcap
    | cons q rest => simp at hlen
  | cons p rest1 ih =>
    intro kvs2 a b ra rb hlen hsa hsb hcap hsize ha hb
    cases kvs2 with
    | nil => simp at hlen
    | cons q rest2 =>
      obtain ⟨k1, v1⟩ := p
      obtain ⟨k2, v2⟩ := q
      obtain ⟨a1, i, hia, hra⟩ := (insertAll_cons hasher k1 v1 rest1 a ra).mp ha
      obtain ⟨b1, j, hib, hrb⟩ := (insertAll_cons hasher k2 v2 rest2 b rb).mp hb
      obtain ⟨e1, e2⟩ := insert_capacity_eq hasher hsa hsb hcap hsize hia hib
      exact ih rest2 a1 b1 ra rb (by simpa using hlen) (insert_sound hasher hsa hia).1
        (insert_sound hasher hsb hib).1 e1 e2 hra hrb

/-- A table with the invariants, an acceptable load and no tombstone has an
`UNUSED` slot. -/
theorem exists_unused {m : HashMap K V} (hs : Sound hasher m) (hnd : NoDeleted m)
    (hl : overloaded m = false) : ∃ u, u < m.capacity ∧ (m.data u).type = .UNUSED := by
  have hsz : m.size < SIZE_MOD := by
    have := sound_size_lt hasher hs
    omega
  have hlt := load_lt_cap hs.cap hsz hl
  rw [← hs.count] at hlt
  obtain ⟨u, hu, hpu⟩ := countType_lt_exists _ _ _ hlt
  refine ⟨u, hu, ?_⟩
  have h1 := hs.noPlaced u hu
  have h2 := hnd u hu
  cases ht : (m.data u).type with
  | UNUSED => rfl
  | DELETED => exact absurd ht h2
  | OCCUPIED => rw [ht] at hpu; simp at hpu
  | PLACED => exact absurd ht h1

end FreshInserts

section Claims3

variable {K V : Type} [DecidableEq K] (hasher : K → Nat)

/-- What a sequence of inserts of distinct keys into a fresh table leaves. -/
theorem fresh_inserts {mem : Nat → Record K V} {initial : Nat} {m0 : HashMap K V}
    (kvs : List (K × V)) (h0 : init mem initial = some m0)
    (hnd : (kvs.map Prod.fst).Nodup) (hfits : Fits kvs.length) :
    ∃ r, insertAll hasher kvs m0 = some r ∧ Sound hasher r ∧ NoDeleted r ∧
      overloaded r = false ∧ ∀ k, (∃ v, Stores r k v) ↔ k ∈ kvs.map Prod.fst := by
  obtain ⟨hs0, hl0, hsz0, hun0, _⟩ := init_sound hasher h0
  have hempty : ∀ k w, ¬ Stores m0 k w := by
    rintro k w ⟨i, hi, ⟨ho, _⟩, _⟩
    rw [hun0 i hi] at ho
    cases ho
  have hnd0 : NoDeleted m0 := by
    intro i hi h
    rw [hun0 i hi] at h
    cases h
  obtain ⟨r, hr, _, _, hcr⟩ := insertAll_spec hasher kvs m0 hs0
    (by rw [hsz0, Nat.zero_add]; exact hfits) hnd (fun p _ w => hempty p.1 w)
  obtain ⟨hsr, hndr, hlr⟩ := insertAll_fresh hasher kvs m0 r hs0 hnd0 hl0 hr
  refine ⟨r, hr, hsr, hndr, hlr, fun k => ?_⟩
  rw [List.mem_map]
  constructor
  · rintro ⟨v, hv⟩
    rcases (hcr k v).mp hv with h | h
    · exact ⟨(k, v), h, rfl⟩
    · exact absurd h (hempty k v)
  · rintro ⟨p, hp, rfl⟩
    exact ⟨p.2, (hcr p.1 p.2).mpr (Or.inl hp)⟩

/-- C12 (as amended): for every list of distinct keys and every two orders of
inserting them into fresh tables created with the same initial capacity, all
calls return and the two traversals from `begin()` to `end()` yield the same
keys, each of them once, so that one sequence is a rearrangement of the other;
the two sequences are equal when no two of the keys have the same home slot in
the final table. -/
theorem C12_traversal_order (mem1 mem2 : Nat → Record K V) (initial : Nat)
    (kvs1 kvs2 : List (K × V)) (hinit : initial ≤ 2 ^ 63)
    (hnd : (kvs1.map Prod.fst).Nodup)
    (hperm : (kvs1.map Prod.fst).Perm (kvs2.map Prod.fst))
    (hfits : Fits kvs1.length) :
    ∃ a0 b0 a b la lb, init mem1 initial = some a0 ∧ init mem2 initial = some b0 ∧
      insertAll hasher kvs1 a0 = some a ∧ insertAll hasher kvs2 b0 = some b ∧
      iterateKeys a = some la ∧ iterateKeys b = some lb ∧
      la.Perm (kvs1.map Prod.fst) ∧ la.Perm lb ∧
      ((∀ p, p ∈ kvs1 → ∀ q, q ∈ kvs1 →
          getHash hasher a p.1 = getHash hasher a q.1 → p.1 = q.1) → la = lb) := by
  obtain ⟨a0, ha0⟩ := init_total mem1 hinit
  obtain ⟨b0, hb0⟩ := init_total mem2 hinit
  have hlen : kvs1.length = kvs2.length := by
    have := hperm.length_eq
    simpa using this
  obtain ⟨a, ha, hsa, hnda, hla, hca⟩ := fresh_inserts hasher kvs1 ha0 hnd hfits
  obtain ⟨b, hb, hsb, hndb, hlb, hcb⟩ := fresh_inserts hasher kvs2 hb0
    (hperm.nodup_iff.mp hnd) (by rw [← hlen]; exact hfits)
  have hsame : ∀ k, (∃ v, Stores a k v) ↔ ∃ w, Stores b k w := by
    intro k
    rw [hca, hcb]
    exact hperm.mem_iff
  obtain ⟨la, lb, hia, hib, hp, hn⟩ := iterateKeys_perm a b hsa.distinct hsb.distinct hsame
  have hpk : la.Perm (kvs1.map Prod.fst) := by
    rw [List.perm_ext_iff_of_nodup hn hnd]
    intro k
    rw [← hca, ← mem_iterateKeys]
    have := iterateKeys_eq a
    rw [hia] at this
    rw [Option.some.inj this]
  refine ⟨a0, b0, a, b, la, lb, ha0, hb0, ha, hb, hia, hib, hpk, hp, fun hhome => ?_⟩
  have hcap0 : a0.capacity = b0.capacity := by
    have e1 := (init_parts ha0).1
    have e2 := (init_parts hb0).1
    rw [e1] at e2
    exact Option.some.inj e2
  have hsz0 : a0.size = b0.size := by
    rw [(init_parts ha0).2.1, (init_parts hb0).2.1]
  have hcap : a.capacity = b.capacity :=
    insertAll_capacity_eq hasher kvs1 kvs2 a0 b0 a b hlen (init_sound hasher ha0).1
      (init_sound hasher hb0).1 hcap0 hsz0 ha hb
  have hmem : ∀ (m : HashMap K V), (∀ k, (∃ v, Stores m k v) ↔ k ∈ kvs1.map Prod.fst) →
      ∀ i, i < m.capacity → (m.data i).type = .OCCUPIED → ∃ p, p ∈ kvs1 ∧ p.1 = (m.data i).key := by
    intro m hm i hi hocc
    have := (hm (m.data i).key).mp ⟨_, i, hi, ⟨hocc, rfl⟩, rfl⟩
    exact List.mem_map.mp this
  have hha : DistinctHomes hasher a := by
    intro i j hi hj hoi hoj he
    obtain ⟨p, hp1, hp2⟩ := hmem a hca i hi hoi
    obtain ⟨q, hq1, hq2⟩ := hmem a hca j hj hoj
    rw [← hp2, ← hq2] at he
    have := hhome p hp1 q hq1 he
    exact hsa.distinct i j hi hj hoi hoj (by rw [← hp2, ← hq2, this])
  have hcb1 : ∀ k, (∃ v, Stores b k v) ↔ k ∈ kvs1.map Prod.fst := by
    intro k
    rw [← hsame k]
    exact hca k
  have hhb : DistinctHomes hasher b := by
    intro i j hi hj hoi hoj he
    obtain ⟨p, hp1, hp2⟩ := hmem b hcb1 i hi hoi
    obtain ⟨q, hq1, hq2⟩ := hmem b hcb1 j hj hoj
    rw [← hp2, ← hq2] at he
    unfold getHash at he hhome
    rw [← hcap] at he
    have := hhome p hp1 q hq1 he
    exact hsb.distinct i j hi hj hoi hoj (by rw [← hp2, ← hq2, this])
  have hata := atHome_of_distinctHomes hasher hsa.cap hsa.noPlaced hnda hsa.probe hha
    (exists_unused hasher hsa hnda hla)
  have hatb := atHome_of_distinctHomes hasher hsb.cap hsb.noPlaced hndb hsb.probe hhb
    (exists_unused hasher hsb hndb hlb)
  have := iterateKeys_eq_of_atHome hasher hcap hata hatb hsame
  rw [hia, hib] at this
  exact Option.some.inj this

end Claims3

theorem C12_traversal_order_witness :
    (16 : Nat) ≤ 2 ^ 63 ∧ (sampleKvs.map Prod.fst).Nodup ∧
      (sampleKvs.map Prod.fst).Perm (sampleKvs.reverse.map Prod.fst) ∧ Fits sampleKvs.length ∧
      ∃ a0 b0 a b la lb, init garbage 16 = some a0 ∧ init garbage 16 = some b0 ∧
        insertAll defaultHash sampleKvs a0 = some a ∧
        insertAll defaultHash sampleKvs.reverse b0 = some b ∧
        iterateKeys a = some la ∧ iterateKeys b = some lb ∧ la.Perm lb := by
  have hperm : (sampleKvs.map Prod.fst).Perm (sampleKvs.reverse.map Prod.fst) := by
    rw [List.map_reverse]
    exact (List.reverse_perm _).symm
  obtain ⟨a0, b0, a, b, la, lb, h1, h2, h3, h4, h5, h6, _, h8, _⟩ :=
    C12_traversal_order defaultHash garbage garbage 16 sampleKvs sampleKvs.reverse
      (by norm_num) (by decide) hperm ⟨by decide, by decide⟩
  exact ⟨by norm_num, by decide, hperm, ⟨by decide, by decide⟩,
    a0, b0, a, b, la, lb, h1, h2, h3, h4, h5, h6, h8⟩

/-- C12, as stated, fails: the keys 1 and 17 share the home slot 1 of a table of
capacity 16, and a traversal yields them in the order of their insertion. -/
theorem C12_traversal_order_counterexample :
    (((init garbage 16).bind (insertAll defaultHash [(1, 10), (17, 20)])).bind iterateKeys
        = some [1, 17]) ∧
      (((init garbage 16).bind (insertAll defaultHash [(17, 20), (1, 10)])).bind iterateKeys
        = some [17, 1]) ∧
      ([1, 17] : List Nat) ≠ [17, 1] := by
  decide

/-! ## Alignment -/

/-- Masking with `~(2^k - 1)` clears the low `k` bits. -/
theorem and_not_mask (x k : Nat) (hx : x < 2 ^ 64) (hk : k ≤ 64) :
    x &&& (2 ^ 64 - 1 - (2 ^ k - 1)) = x / 2 ^ k * 2 ^ k := by
  have hpow : 2 ^ k - 1 < 2 ^ 64 := by
    have : 2 ^ k ≤ 2 ^ 64 := Nat.pow_le_pow_right (by norm_num) hk
    have := Nat.two_pow_pos k
    omega
  have hm : 2 ^ 64 - 1 - (2 ^ k - 1) = 2 ^ 64 - ((2 ^ k - 1) + 1) := by omega
  rw [hm]
  apply Nat.eq_of_testBit_eq
  intro i
  rw [Nat.testBit_and, Nat.testBit_two_pow_sub_succ hpow, Nat.testBit_two_pow_sub_one,
    Nat.mul_comm, Nat.testBit_mul_pow_two, ← Nat.shiftRight_eq_div_pow, Nat.testBit_shiftRight]
  by_cases hik : i < k
  · simp [hik]
  · have hki : k ≤ i := by omega
    by_cases hi64 : i < 64
    · simp [hik, hi64, hki]
    · have : x.testBit i = false :=
        Nat.testBit_lt_two_pow (Nat.lt_of_lt_of_le hx (Nat.pow_le_pow_right (by norm_num) (by omega)))
      simp [hik, hi64, hki, this]

theorem pow2_mask {al : Nat} (hal : IsCap al) : (al + (SIZE_MOD - 1)) % SIZE_MOD = al - 1 := by
  have hpos := isCap_pos hal
  have hle := isCap_le hal
  unfold SIZE_MOD
  have : al + (2 ^ 64 - 1) = (al - 1) + 2 ^ 64 := by omega
  rw [this, Nat.add_mod_right, Nat.mod_eq_of_lt (by omega)]

/-- `alignFloor` with a power-of-two alignment rounds down to a multiple. -/
theorem alignFloor_eq {x al : Nat} (hal : IsCap al) (hx : x < SIZE_MOD) :
    alignFloor x al = some (x / al * al) := by
  unfold alignFloor
  rw [if_pos (isPow2_cap hal), pow2_mask hal, Nat.mod_eq_of_lt hx]
  obtain ⟨k, hk, rfl⟩ := hal
  unfold SIZE_MOD at hx ⊢
  rw [and_not_mask x k hx (by omega)]

/-- `align` with a power-of-two alignment rounds up to a multiple, when that
does not wrap. -/
theorem align_eq {x al : Nat} (hal : IsCap al) (hx : x + al ≤ SIZE_MOD) :
    align x al = some ((x + (al - 1)) / al * al) := by
  have hpos := isCap_pos hal
  unfold align
  rw [if_pos (isPow2_cap hal), pow2_mask hal, Nat.mod_eq_of_lt (by omega)]
  obtain ⟨k, hk, rfl⟩ := hal
  unfold SIZE_MOD at hx ⊢
  rw [and_not_mask _ k (by omega) (by omega)]

/-- Rounding up to a multiple of `al`: the least multiple that is at least
`x`. -/
theorem roundUp_spec (x al : Nat) (hpos : 0 < al) :
    x ≤ (x + (al - 1)) / al * al ∧ (x + (al - 1)) / al * al < x + al ∧
      (x + (al - 1)) / al * al % al = 0 := by
  have h1 := Nat.div_add_mod (x + (al - 1)) al
  have h2 := Nat.mod_lt (x + (al - 1)) hpos
  rw [Nat.mul_comm] at h1
  refine ⟨by omega, by omega, Nat.mul_mod_left _ _⟩

theorem roundDown_spec (x al : Nat) (hpos : 0 < al) :
    x / al * al ≤ x ∧ x < x / al * al + al ∧ x / al * al % al = 0 := by
  have h1 := Nat.div_add_mod x al
  have h2 := Nat.mod_lt x hpos
  rw [Nat.mul_comm] at h1
  refine ⟨by omega, by omega, Nat.mul_mod_left _ _⟩

/-! ## The arena -/

theorem ptrAdd_eq {p n : Nat} (h : p + n < SIZE_MOD) : ptrAdd p n = p + n :=
  Nat.mod_eq_of_lt h

theorem ptrSub_eq {p n : Nat} (hn : n ≤ p) (hp : p < SIZE_MOD) : ptrSub p n = p - n := by
  unfold ptrSub
  have hn2 : n % SIZE_MOD = n := Nat.mod_eq_of_lt (by omega)
  rw [hn2, show p + (SIZE_MOD - n) = (p - n) + SIZE_MOD by omega, Nat.add_mod_right,
    Nat.mod_eq_of_lt (by omega)]

theorem write_same (memory : Nat → Nat) (a v : Nat) : write memory a v a = v := by
  simp [write]

theorem write_other (memory : Nat → Nat) {a b : Nat} (v : Nat) (h : b ≠ a) :
    write memory a v b = memory b := by
  simp [write, h]

theorem isCap_8 : IsCap 8 := ⟨3, by norm_num, by norm_num⟩

/-- The header written by `*data = {size, alignment}` holds the two values. -/
theorem blockData_set_get (memory : Nat → Nat) (data size alignment : Nat)
    (h : data + 8 < SIZE_MOD) :
    BlockData.size (BlockData.set memory data size alignment) data = size ∧
      BlockData.alignment (BlockData.set memory data size alignment) data = alignment := by
  unfold BlockData.size BlockData.alignment BlockData.set
  rw [ptrAdd_eq h, write_same, write_other _ _ (by omega), write_same]
  exact ⟨rfl, rfl⟩

/-- Where `Arena::alloc` places a fresh block: the header at the first address
from the mark on that is aligned for a header and leaves the payload aligned. -/
theorem place_fresh (memory : Nat → Nat) (mark ptr alignment : Nat) (hal : IsCap alignment)
    (hfresh : ¬ (ptr ≠ 0 ∧ ptr = ptrSub mark (BlockData.size memory (BlockData.get ptr))))
    (hfit : mark + 22 + alignment < SIZE_MOD) :
    ∃ p, Arena.place memory mark ptr alignment = some (p - 16, p) ∧ p % alignment = 0 ∧
      mark + 16 ≤ p ∧ p < mark + 23 + alignment ∧ (p - 16) % 8 = 0 := by
  have hpos := isCap_pos hal
  obtain ⟨a1, a2, a3⟩ := roundUp_spec mark 8 (by norm_num)
  obtain ⟨b1, b2, b3⟩ := roundUp_spec ((mark + (8 - 1)) / 8 * 8 + 16) alignment hpos
  generalize hh : (mark + (8 - 1)) / 8 * 8 = header at a1 a2 a3 b1 b2 b3
  generalize hp : (header + 16 + (alignment - 1)) / alignment * alignment = p at b1 b2 b3
  have e1 : align mark ALIGNOF_BLOCKDATA = some header := by
    unfold ALIGNOF_BLOCKDATA
    rw [align_eq isCap_8 (by omega), hh]
  have e2 : ptrAdd header SIZEOF_BLOCKDATA = header + 16 := ptrAdd_eq (by unfold SIZEOF_BLOCKDATA; omega)
  have e3 : align (header + 16) alignment = some p := by
    rw [align_eq hal (by omega), hp]
  have e4 : ptrSub p SIZEOF_BLOCKDATA = p - 16 := ptrSub_eq (by unfold SIZEOF_BLOCKDATA; omega) (by omega)
  have e5 : ptrAdd (p - 16) SIZEOF_BLOCKDATA = p := by
    rw [ptrAdd_eq (by unfold SIZEOF_BLOCKDATA; omega)]
    unfold SIZEOF_BLOCKDATA
    omega
  refine ⟨p, ?_, b3, by omega, by omega, ?_⟩
  · unfold Arena.place
    rw [if_neg hfresh, e1]
    simp only
    rw [e2, e3]
    simp only
    rw [e4, e5]
  · obtain ⟨k, hk, rfl⟩ := hal
    by_cases hk3 : 3 ≤ k
    · have hdvd : 8 ∣ 2 ^ k := by
        have : (2 : Nat) ^ 3 ∣ 2 ^ k := Nat.pow_dvd_pow 2 hk3
        simpa using this
      have hp8 : p % 8 = 0 := by
        have := Nat.mod_mod_of_dvd p hdvd
        rw [b3] at this
        simpa using this.symm
      omega
    · have hk' : k = 0 ∨ k = 1 ∨ k = 2 := by omega
      rcases hk' with rfl | rfl | rfl <;> norm_num at hp <;> omega

theorem testBit_top {y k : Nat} (h1 : 2 ^ k ≤ y) (h2 : y < 2 ^ (k + 1)) : y.testBit k = true := by
  rw [Nat.testBit_to_div_mod]
  have : y / 2 ^ k = 1 := by
    apply Nat.div_eq_of_lt_le
    · simpa using h1
    · rw [Nat.pow_succ] at h2
      omega
  simp [this]

/-- A `size_t` that passes `isPow2` is a power of two. -/
theorem isCap_of_isPow2 {x : Nat} (hx : x < SIZE_MOD) (h : isPow2 x = true) : IsCap x := by
  unfold isPow2 at h
  simp only [ne_eq, Bool.and_eq_true, decide_eq_true_eq] at h
  obtain ⟨h0, hand⟩ := h
  have hm : (x + (SIZE_MOD - 1)) % SIZE_MOD = x - 1 := by
    unfold SIZE_MOD at hx ⊢
    rw [show x + (2 ^ 64 - 1) = (x - 1) + 2 ^ 64 by omega, Nat.add_mod_right,
      Nat.mod_eq_of_lt (by omega)]
  rw [hm] at hand
  have hlo : 2 ^ Nat.log2 x ≤ x := Nat.log2_self_le h0
  have hhi : x < 2 ^ (Nat.log2 x + 1) := Nat.lt_log2_self
  have hk : Nat.log2 x ≤ 63 := by
    by_contra hcon
    have : 2 ^ 64 ≤ 2 ^ Nat.log2 x := Nat.pow_le_pow_right (by norm_num) (by omega)
    unfold SIZE_MOD at hx
    omega
  refine ⟨Nat.log2 x, hk, ?_⟩
  by_contra hne
  have h1 : 2 ^ Nat.log2 x ≤ x - 1 := by omega
  have t1 := testBit_top hlo hhi
  have t2 := testBit_top h1 (by omega)
  have := Nat.testBit_and x (x - 1) (Nat.log2 x)
  rw [hand, t1, t2] at this
  simp at this

theorem isPow2_iff {x : Nat} (hx : x < SIZE_MOD) : isPow2 x = true ↔ IsCap x :=
  ⟨isCap_of_isPow2 hx, isPow2_cap⟩

theorem align_none_iff (x al : Nat) : align x al = none ↔ isPow2 al = false := by
  unfold align
  by_cases h : isPow2 al = true
  · simp [h]
  · simp [h]

/-- A call with `size == 0` returns `nullptr` and changes nothing. -/
theorem alloc_free (arena : Arena) (memory : Nat → Nat) (ptr alignment : Nat) :
    Arena.alloc arena memory ptr 0 alignment = some (arena, memory, 0) := by
  unfold Arena.alloc
  rw [if_pos rfl]

/-- A reallocation of the block at the tip resizes it in place. -/
theorem alloc_tip (arena : Arena) (memory : Nat → Nat) (ptr size alignment : Nat)
    (hsize : size ≠ 0) (htip : Arena.atTip arena memory ptr) :
    Arena.alloc arena memory ptr size alignment =
      some ({ capacity := Arena.grow arena (ptrAdd ptr size), mark := ptrAdd ptr size,
              data := arena.data },
        BlockData.set memory (BlockData.get ptr) size (Arena.alignmentOf memory ptr alignment),
        ptr) := by
  have hp : Arena.place memory arena.mark ptr (Arena.alignmentOf memory ptr alignment) =
      some (BlockData.get ptr, ptr) := by
    unfold Arena.place
    unfold Arena.atTip at htip
    rw [if_pos htip]
  unfold Arena.alloc
  rw [if_neg hsize]
  unfold Arena.alignmentOf at hp ⊢
  simp only
  rw [hp]
  simp

/-- A call that does not resize the block at the tip places a new block. -/
theorem alloc_fresh (arena : Arena) (memory : Nat → Nat) (ptr size alignment : Nat)
    (hsize : size ≠ 0) (htip : ¬ Arena.atTip arena memory ptr)
    (hal : IsCap (Arena.alignmentOf memory ptr alignment))
    (hfit : arena.mark + 22 + Arena.alignmentOf memory ptr alignment + size < SIZE_MOD) :
    ∃ p, Arena.alloc arena memory ptr size alignment =
        some ({ capacity := Arena.grow arena (p + size), mark := p + size, data := arena.data },
          (if ptr ≠ 0 ∧ p - 16 ≠ BlockData.get ptr then
            memcpy (BlockData.set memory (p - 16) size (Arena.alignmentOf memory ptr alignment))
              p ptr (BlockData.size
                (BlockData.set memory (p - 16) size (Arena.alignmentOf memory ptr alignment))
                (BlockData.get ptr))
          else BlockData.set memory (p - 16) size (Arena.alignmentOf memory ptr alignment)),
          p) ∧
      p % Arena.alignmentOf memory ptr alignment = 0 ∧ arena.mark + 16 ≤ p ∧
      p < arena.mark + 23 + Arena.alignmentOf memory ptr alignment ∧ (p - 16) % 8 = 0 := by
  obtain ⟨p, hp, h1, h2, h3, h4⟩ := place_fresh memory arena.mark ptr _ hal htip (by omega)
  refine ⟨p, ?_, h1, h2, h3, h4⟩
  unfold Arena.alloc
  rw [if_neg hsize]
  unfold Arena.alignmentOf at hp ⊢
  simp only
  rw [hp]
  simp only
  rw [ptrAdd_eq (by unfold Arena.alignmentOf at hfit h3; omega)]

/-- `Arena::alloc` fails, by the assertion of `align`, exactly when it has to
place a new block with an alignment that is not a power of two. -/
theorem alloc_none_iff (arena : Arena) (memory : Nat → Nat) (ptr size alignment : Nat) :
    Arena.alloc arena memory ptr size alignment = none ↔
      size ≠ 0 ∧ ¬ Arena.atTip arena memory ptr ∧
        isPow2 (Arena.alignmentOf memory ptr alignment) = false := by
  by_cases hsize : size = 0
  · subst hsize
    rw [alloc_free]
    simp
  by_cases htip : Arena.atTip arena memory ptr
  · rw [alloc_tip arena memory ptr size alignment hsize htip]
    simp [htip]
  have h8 : ∃ header, align arena.mark ALIGNOF_BLOCKDATA = some header := by
    cases h : align arena.mark ALIGNOF_BLOCKDATA with
    | none =>
      rw [align_none_iff] at h
      have h2 : isPow2 ALIGNOF_BLOCKDATA = true := by decide
      rw [h2] at h
      cases h
    | some header => exact ⟨header, rfl⟩
  obtain ⟨header, hh⟩ := h8
  have hplace : Arena.place memory arena.mark ptr (Arena.alignmentOf memory ptr alignment) =
      match align (ptrAdd header SIZEOF_BLOCKDATA) (Arena.alignmentOf memory ptr alignment) with
      | none => none
      | some payload =>
        some (ptrSub payload SIZEOF_BLOCKDATA,
          ptrAdd (ptrSub payload SIZEOF_BLOCKDATA) SIZEOF_BLOCKDATA) := by
    unfold Arena.place
    unfold Arena.atTip at htip
    rw [if_neg htip, hh]
  unfold Arena.alloc
  rw [if_neg hsize]
  unfold Arena.alignmentOf at hplace ⊢
  simp only
  rw [hplace]
  generalize (if ptr ≠ 0 then BlockData.alignment memory (BlockData.get ptr) else alignment) = al
  cases hal : align (ptrAdd header SIZEOF_BLOCKDATA) al with
  | none =>
    rw [align_none_iff] at hal
    exact ⟨fun _ => ⟨hsize, htip, hal⟩, fun _ => rfl⟩
  | some payload =>
    constructor
    · intro h
      cases h
    · rintro ⟨_, _, hcon⟩
      rw [← align_none_iff (ptrAdd header SIZEOF_BLOCKDATA), hal] at hcon
      cases hcon

/-! ## The claims about the arena -/

/-- C13: a fresh allocation `alloc(nullptr, size, alignment)` with `size > 0`
and a power-of-two alignment, in an arena whose mark leaves room for the block
in the address space, returns a payload pointer `p` that is a multiple of
`alignment`; the header, at `p - sizeof(BlockData)`, lies at or after the old
mark and holds `{size, alignment}`; and the new mark is `p + size`. -/
theorem C13_arena_fresh_alloc (arena : Arena) (memory : Nat → Nat) (size alignment : Nat)
    (hsize : 0 < size) (hal : IsCap alignment)
    (hfit : arena.mark + 22 + alignment + size < SIZE_MOD) :
    ∃ a' mem' p, Arena.alloc arena memory 0 size alignment = some (a', mem', p) ∧
      p % alignment = 0 ∧ SIZEOF_BLOCKDATA ≤ p ∧ BlockData.get p = p - SIZEOF_BLOCKDATA ∧
      arena.mark ≤ p - SIZEOF_BLOCKDATA ∧
      BlockData.size mem' (p - SIZEOF_BLOCKDATA) = size ∧
      BlockData.alignment mem' (p - SIZEOF_BLOCKDATA) = alignment ∧
      a'.mark = p + size := by
  have htip : ¬ Arena.atTip arena memory 0 := fun h => h.1 rfl
  have hof : Arena.alignmentOf memory 0 alignment = alignment := by
    unfold Arena.alignmentOf
    rw [if_neg (by simp)]
  obtain ⟨p, hp, h1, h2, h3, h4⟩ := alloc_fresh arena memory 0 size alignment (by omega) htip
    (by rw [hof]; exact hal) (by rw [hof]; exact hfit)
  rw [hof] at hp h1 h3
  rw [if_neg (by simp)] at hp
  obtain ⟨g1, g2⟩ := blockData_set_get memory (p - 16) size alignment (by omega)
  refine ⟨_, _, p, hp, h1, ?_, ?_, ?_, g1, g2, rfl⟩
  · unfold SIZEOF_BLOCKDATA; omega
  · unfold BlockData.get
    rw [ptrSub_eq (by unfold SIZEOF_BLOCKDATA; omega) (by omega)]
  · unfold SIZEOF_BLOCKDATA; omega

/-- C14 (as amended): a call of `Arena::alloc` whose addresses do not wrap
leaves the mark at or above its old value (a free leaves everything as it is),
except for a reallocation of the block at the tip of the arena to a smaller
size, which resizes the block in place and lowers the mark to `ptr + size`. -/
theorem C14_arena_mark (arena : Arena) (memory : Nat → Nat) (ptr size alignment : Nat)
    (hnw : Arena.NoWrap arena memory ptr size alignment) :
    (size = 0 → Arena.alloc arena memory ptr size alignment = some (arena, memory, 0)) ∧
    (∀ a' mem' p, Arena.alloc arena memory ptr size alignment = some (a', mem', p) →
      ¬ Arena.TipShrink arena memory ptr size → arena.mark ≤ a'.mark) ∧
    (Arena.TipShrink arena memory ptr size →
      ∃ a' mem', Arena.alloc arena memory ptr size alignment = some (a', mem', ptr) ∧
        a'.mark = ptr + size ∧ a'.mark < arena.mark) := by
  refine ⟨fun h => by rw [h]; exact alloc_free arena memory ptr alignment, ?_, ?_⟩
  · intro a' mem' p h hns
    by_cases hsize : size = 0
    · subst hsize
      rw [alloc_free] at h
      simp only [Option.some.injEq, Prod.mk.injEq] at h
      rw [← h.1]
    by_cases htip : Arena.atTip arena memory ptr
    · obtain ⟨hm, hs, hp⟩ := hnw.1 htip
      rw [alloc_tip arena memory ptr size alignment hsize htip] at h
      simp only [Option.some.injEq, Prod.mk.injEq] at h
      rw [← h.1]
      simp only
      rw [ptrAdd_eq hp]
      have hge : ¬ size < BlockData.size memory (BlockData.get ptr) :=
        fun hlt => hns ⟨htip, by omega, hlt⟩
      have := htip.2
      rw [ptrSub_eq hs hm] at this
      omega
    · have hfit := hnw.2 htip
      have hal : IsCap (Arena.alignmentOf memory ptr alignment) := by
        apply isCap_of_isPow2 (by omega)
        by_contra hcon
        have : Arena.alloc arena memory ptr size alignment = none :=
          (alloc_none_iff arena memory ptr size alignment).mpr
            ⟨hsize, htip, by simpa using hcon⟩
        rw [this] at h
        cases h
      obtain ⟨q, hq, _, h2, _, _⟩ := alloc_fresh arena memory ptr size alignment hsize htip
        hal hfit
      rw [hq] at h
      simp only [Option.some.injEq, Prod.mk.injEq] at h
      rw [← h.1]
      simp only
      omega
  · rintro ⟨htip, hpos, hlt⟩
    obtain ⟨hm, hs, hp⟩ := hnw.1 htip
    refine ⟨_, _, alloc_tip arena memory ptr size alignment (by omega) htip, ?_, ?_⟩
    · exact ptrAdd_eq hp
    · simp only
      rw [ptrAdd_eq hp]
      have := htip.2
      rw [ptrSub_eq hs hm] at this
      omega

/-- C16 (as amended): `Arena::alloc` does not compare the new mark with the end
of the reservation.  Its only assertion is the one of `align`: a call fails
exactly when it has to place a new block with an alignment that is not a power
of two.  A fresh allocation of `MAX_ARENA_SIZE` bytes or more, which cannot fit
the reservation, returns its pointer like any other and leaves the mark beyond
`data + MAX_ARENA_SIZE`. -/
theorem C16_arena_reservation :
    (∀ (arena : Arena) (memory : Nat → Nat) (ptr size alignment : Nat),
      Arena.alloc arena memory ptr size alignment = none ↔
        size ≠ 0 ∧ ¬ Arena.atTip arena memory ptr ∧
          isPow2 (Arena.alignmentOf memory ptr alignment) = false) ∧
    (∀ (arena : Arena) (memory : Nat → Nat) (size alignment : Nat),
      arena.data ≤ arena.mark → MAX_ARENA_SIZE ≤ size → IsCap alignment →
      arena.mark + 22 + alignment + size < SIZE_MOD →
      ∃ a' mem' p, Arena.alloc arena memory 0 size alignment = some (a', mem', p) ∧
        a'.mark = p + size ∧ arena.data + MAX_ARENA_SIZE < a'.mark) := by
  refine ⟨alloc_none_iff, fun arena memory size alignment hd hs hal hfit => ?_⟩
  have htip : ¬ Arena.atTip arena memory 0 := fun h => h.1 rfl
  have hof : Arena.alignmentOf memory 0 alignment = alignment := by
    unfold Arena.alignmentOf
    rw [if_neg (by simp)]
  have hpos : size ≠ 0 := by
    unfold MAX_ARENA_SIZE at hs
    omega
  obtain ⟨p, hp, _, h2, _, _⟩ := alloc_fresh arena memory 0 size alignment hpos htip
    (by rw [hof]; exact hal) (by rw [hof]; exact hfit)
  exact ⟨_, _, p, hp, rfl, by simp only; omega⟩

theorem C13_arena_fresh_alloc_witness :
    0 < 64 ∧ IsCap 32 ∧ sampleArena.mark + 22 + 32 + 64 < SIZE_MOD ∧
      ∃ a' mem' p, Arena.alloc sampleArena sampleMemory 0 64 32 = some (a', mem', p) ∧
        p % 32 = 0 ∧ sampleArena.mark ≤ p - SIZEOF_BLOCKDATA ∧
        BlockData.size mem' (p - SIZEOF_BLOCKDATA) = 64 ∧
        BlockData.alignment mem' (p - SIZEOF_BLOCKDATA) = 32 ∧ a'.mark = p + 64 := by
  have hal : IsCap 32 := ⟨5, by norm_num, by norm_num⟩
  obtain ⟨a', mem', p, h1, h2, _, _, h5, h6, h7, h8⟩ :=
    C13_arena_fresh_alloc sampleArena sampleMemory 64 32 (by norm_num) hal (by decide)
  exact ⟨by norm_num, hal, by decide, a', mem', p, h1, h2, h5, h6, h7, h8⟩

theorem C14_arena_mark_witness :
    Arena.NoWrap sampleArena sampleMemory 0 64 8 ∧
      ∀ a' mem' p, Arena.alloc sampleArena sampleMemory 0 64 8 = some (a', mem', p) →
        sampleArena.mark ≤ a'.mark := by
  have hnt : ¬ Arena.atTip sampleArena sampleMemory 0 := fun h => h.1 rfl
  have hnw : Arena.NoWrap sampleArena sampleMemory 0 64 8 :=
    ⟨fun h => absurd h hnt, fun _ => by decide⟩
  exact ⟨hnw, fun a' mem' p h =>
    (C14_arena_mark sampleArena sampleMemory 0 64 8 hnw).2.1 a' mem' p h (fun h => hnt h.1)⟩

/-- C14, as stated, fails: a block of 64 bytes at the tip of the arena is
reallocated to 8 bytes, and the mark goes from 4176 down to 4120. -/
theorem C14_arena_mark_counterexample :
    tipShrinkRun.map (fun r => (r.1.mark, r.2.mark)) = some (4176, 4120) ∧
      ¬ (4176 ≤ 4120) := by
  decide

/-- C15: a block of 64 bytes that is not at the tip of the arena, at 4112, is
reallocated to 8 bytes.  The new payload is at 4216 and the new mark at 4224,
eight bytes on, but 64 bytes are copied: the cell at the new mark, and the last
of the 64 cells from 4216 on, hold afterwards what the old payload held at the
same offsets, not what they held before. -/
theorem C15_arena_realloc_copy_sample :
    moveShrinkRun.map (fun r => (r.1, r.2.2.2.2, r.2.2.1.mark)) = some (4112, 4216, 4224) ∧
      moveShrinkRun.map (fun r => (r.2.1 4224, r.2.2.2.1 4224, r.2.1 (4112 + 8))) =
        some (208, 104, 104) ∧
      moveShrinkRun.map (fun r => (r.2.1 (4216 + 63), r.2.2.2.1 (4216 + 63), r.2.1 (4112 + 63))) =
        some (12, 159, 159) ∧
      moveShrinkRun.map (fun r => (r.2.1 (4216 + 64), r.2.2.2.1 (4216 + 64))) =
        some (13, 13) := by
  decide

/-- C16, as stated, fails: a fresh allocation of `MAX_ARENA_SIZE` bytes from an
arena at 4096 returns the pointer 4112 and leaves the mark beyond the end of
the reservation. -/
theorem C16_arena_reservation_counterexample :
    (Arena.alloc sampleArena sampleMemory 0 MAX_ARENA_SIZE 8).map (fun r => (r.1.mark, r.2.2)) =
        some (4112 + MAX_ARENA_SIZE, 4112) ∧
      sampleArena.data + MAX_ARENA_SIZE < 4112 + MAX_ARENA_SIZE ∧
      Arena.alloc sampleArena sampleMemory 0 MAX_ARENA_SIZE 8 ≠ none := by
  refine ⟨by decide, by decide, ?_⟩
  rw [Ne, alloc_none_iff]
  rintro ⟨_, _, h⟩
  revert h
  decide

/-! ## The tagged pointer -/

theorem ofUint128_toUint128 (p : TaggedPointer) :
    TaggedPointer.ofUint128 p.toUint128 = { tag := p.tag % SIZE_MOD, ptr := p.ptr % SIZE_MOD } := by
  have hpos : 0 < SIZE_MOD := by unfold SIZE_MOD; norm_num
  unfold TaggedPointer.ofUint128 TaggedPointer.toUint128
  have h1 : (p.tag % SIZE_MOD + SIZE_MOD * (p.ptr % SIZE_MOD)) % SIZE_MOD = p.tag % SIZE_MOD := by
    rw [Nat.add_mul_mod_self_left, Nat.mod_mod]
  have h2 : (p.tag % SIZE_MOD + SIZE_MOD * (p.ptr % SIZE_MOD)) / SIZE_MOD = p.ptr % SIZE_MOD := by
    rw [Nat.add_mul_div_left _ _ hpos, Nat.div_eq_of_lt (Nat.mod_lt _ hpos), Nat.zero_add]
  rw [h1, h2, Nat.mod_mod]

theorem ofUint128_valid (p : TaggedPointer) (hp : p.Valid) :
    TaggedPointer.ofUint128 p.toUint128 = p := by
  rw [ofUint128_toUint128, Nat.mod_eq_of_lt hp.1, Nat.mod_eq_of_lt hp.2]

/-- Two pairs of machine words with the same 16 bytes are equal. -/
theorem toUint128_inj {p q : TaggedPointer} (hp : p.Valid) (hq : q.Valid)
    (h : p.toUint128 = q.toUint128) : p = q := by
  rw [← ofUint128_valid p hp, ← ofUint128_valid q hq, h]

/-- A store that expects the pair that is there succeeds: the tag is
incremented and the pointer set. -/
theorem store_load (self : TaggedPointer) (set : Nat) :
    self.store self.load set =
      ({ tag := (self.tag + 1) % SIZE_MOD, ptr := set % SIZE_MOD },
        { tag := self.tag % SIZE_MOD, ptr := self.ptr % SIZE_MOD }, true) := by
  have hl : self.load = self := rfl
  rw [hl]
  unfold TaggedPointer.store atomicCompareExchangeWeak syncValCompareAndSwap
  simp only [if_true, decide_True]
  rw [ofUint128_toUint128, ofUint128_toUint128, Nat.mod_mod]

/-! ## The pool allocator -/

theorem ptrSub_lt (p n : Nat) : ptrSub p n < SIZE_MOD :=
  Nat.mod_lt _ (by unfold SIZE_MOD; norm_num)

theorem ptrAdd_ptrSub {a : Nat} (ha : a < SIZE_MOD) (n : Nat) (hn : n < SIZE_MOD) :
    ptrAdd (ptrSub a n) n = a := by
  unfold ptrAdd ptrSub
  rw [Nat.mod_eq_of_lt hn, Nat.mod_add_mod,
    show a + (SIZE_MOD - n) + n = a + SIZE_MOD by omega, Nat.add_mod_right,
    Nat.mod_eq_of_lt ha]

/-- `align` with a power-of-two alignment returns a multiple of it. -/
theorem align_val (x : Nat) {al : Nat} (hal : IsCap al) :
    ∃ a, align x al = some a ∧ a < SIZE_MOD ∧ a % al = 0 := by
  have hpos := isCap_pos hal
  have hlt : (x + (al - 1)) % SIZE_MOD < SIZE_MOD := Nat.mod_lt _ (by unfold SIZE_MOD; norm_num)
  refine ⟨(x + (al - 1)) % SIZE_MOD / al * al, ?_, ?_, Nat.mul_mod_left _ _⟩
  · unfold align
    rw [if_pos (isPow2_cap hal), pow2_mask hal]
    obtain ⟨k, hk, rfl⟩ := hal
    unfold SIZE_MOD at hlt ⊢
    rw [and_not_mask _ k hlt (by omega)]
  · have := (roundDown_spec ((x + (al - 1)) % SIZE_MOD) al hpos).1
    omega

/-- `buildBlock` with a power-of-two alignment: the payload is where `align`
puts it and the header, sixteen bytes before, holds the size and the
alignment. -/
theorem buildBlock_eq (memory : Nat → Nat) (block size : Nat) {al : Nat} (hal : IsCap al) :
    ∃ p, buildBlock memory block size al =
        some (BlockData.set memory (ptrSub p SIZEOF_BLOCKDATA) size al, p) ∧
      align (ptrAdd block SIZEOF_BLOCKDATA) al = some p ∧ p < SIZE_MOD ∧ p % al = 0 := by
  obtain ⟨a, ha, hlt, hmod⟩ := align_val (ptrAdd block SIZEOF_BLOCKDATA) hal
  refine ⟨a, ?_, ha, hlt, hmod⟩
  unfold buildBlock
  rw [ha]
  simp only
  rw [ptrAdd_ptrSub hlt _ (by unfold SIZEOF_BLOCKDATA SIZE_MOD; norm_num)]

theorem setPool_same (pools : Nat → TaggedPointer) (index : Nat) (p : TaggedPointer) :
    setPool pools index p index = p := by
  simp [setPool]

/-- `pushBlock` returns: the block is the new head of the list and its first
word points to the old head. -/
theorem pushBlock_eq (s : PoolState) (index block : Nat) :
    pushBlock s index block =
      some { s with
        pools := setPool s.pools index
          { tag := ((s.pools index).tag + 1) % SIZE_MOD, ptr := block % SIZE_MOD },
        memory := write s.memory block (s.pools index).ptr } := by
  unfold pushBlock
  simp only
  rw [store_load]
  simp only [if_true]
  rfl

/-- `popBlock` on a list that is not empty returns its head and makes the word
that the head points to the new head. -/
theorem popBlock_eq (s : PoolState) (index : Nat) (h : (s.pools index).ptr ≠ 0) :
    popBlock s index =
      some ({ s with
        pools := setPool s.pools index
          { tag := ((s.pools index).tag + 1) % SIZE_MOD,
            ptr := s.memory (s.pools index).ptr % SIZE_MOD } },
        (s.pools index).ptr) := by
  unfold popBlock
  have hl : ((s.pools index).load).ptr = (s.pools index).ptr := rfl
  simp only
  rw [hl, if_neg h, store_load]
  simp only [if_true]

/-- Rounding the recovered block up again gives the payload back. -/
theorem roundtrip_align {p al : Nat} (hpos : 0 < al) (hmul : p % al = 0) (hp : 16 + al ≤ p) :
    ((p - 16) / al * al + 16 + (al - 1)) / al * al = p ∧ al ≤ (p - 16) / al * al ∧
      (p - 16) / al * al + 16 ≤ p := by
  obtain ⟨f1, f2, _⟩ := roundDown_spec (p - 16) al hpos
  obtain ⟨m, hm⟩ : ∃ m, p = m * al := ⟨p / al, by
    have := Nat.div_add_mod p al
    rw [hmul, Nat.add_zero, Nat.mul_comm] at this
    exact this.symm⟩
  have hq : 1 ≤ (p - 16) / al := (Nat.one_le_div_iff hpos).mpr (by omega)
  have hge : al ≤ (p - 16) / al * al := by
    calc al = 1 * al := (Nat.one_mul al).symm
      _ ≤ (p - 16) / al * al := Nat.mul_le_mul_right al hq
  refine ⟨?_, hge, by omega⟩
  have hdiv : ((p - 16) / al * al + 16 + (al - 1)) / al = m := by
    apply Nat.div_eq_of_lt_le
    · rw [← hm]; omega
    · rw [Nat.succ_mul, ← hm]; omega
  rw [hdiv, hm]

/-- Above a multiple of a power of two that fits a machine word there is room
for that power of two. -/
theorem multiple_room {q al : Nat} (hal : IsCap al) (hq : q < SIZE_MOD) (hmod : q % al = 0) :
    q + al ≤ SIZE_MOD := by
  obtain ⟨k, hk, rfl⟩ := hal
  have hsplit : SIZE_MOD = 2 ^ (64 - k) * 2 ^ k := by
    unfold SIZE_MOD
    rw [← Nat.pow_add]
    congr 1
    omega
  obtain ⟨m, hm⟩ : ∃ m, q = m * 2 ^ k := ⟨q / 2 ^ k, by
    have := Nat.div_add_mod q (2 ^ k)
    rw [hmod, Nat.add_zero, Nat.mul_comm] at this
    exact this.symm⟩
  rw [hsplit, hm] at hq ⊢
  have hlt : m < 2 ^ (64 - k) := Nat.lt_of_mul_lt_mul_right hq
  calc m * 2 ^ k + 2 ^ k = (m + 1) * 2 ^ k := by rw [Nat.succ_mul]
    _ ≤ 2 ^ (64 - k) * 2 ^ k := Nat.mul_le_mul_right _ hlt

/-! ## The claims about the pool allocator, the tagged pointer and the mutex -/

theorem blockData_size_eq (memory : Nat → Nat) (data : Nat) :
    BlockData.size memory data = memory data := rfl

theorem blockData_alignment_eq (memory : Nat → Nat) (data : Nat) :
    BlockData.alignment memory data = memory (ptrAdd data 8) := rfl

/-- An in-place resize writes the size field of the header only. -/
theorem resize_header (memory : Nat → Nat) (data size : Nat) (h : data + 8 < SIZE_MOD) :
    BlockData.size (write memory data size) data = size ∧
      BlockData.alignment (write memory data size) data = BlockData.alignment memory data ∧
      ∀ a, a ≠ data → write memory data size a = memory a := by
  refine ⟨?_, ?_, fun a ha => write_other _ _ ha⟩
  · rw [blockData_size_eq, write_same]
  · rw [blockData_alignment_eq, blockData_alignment_eq, write_other]
    rw [ptrAdd_eq h]
    omega

/-- C17: for a pool block `ptr` whose header holds `{oldSize, al}` and a size
`size > 0` whose bucket `getIndex(size, al)` is at most the bucket
`getIndex(oldSize, al)` of the block, `nalloc(ptr, size, alignment)` returns
`ptr`, the header holds `size` and still `al`, and nothing else has changed:
no other address of the memory, no head of a free list, nor the arena. -/
theorem C17_nalloc_same_bucket (s : PoolState) (ptr size alignment k k0 : Nat)
    (hptr : SIZEOF_BLOCKDATA ≤ ptr ∧ ptr < SIZE_MOD) (hsize : 0 < size)
    (hnew : getIndex size (BlockData.alignment s.memory (BlockData.get ptr)) = some k)
    (hold : getIndex (BlockData.size s.memory (BlockData.get ptr))
      (BlockData.alignment s.memory (BlockData.get ptr)) = some k0)
    (hle : k ≤ k0) :
    ∃ r, nalloc s ptr size alignment = some (r, ptr) ∧
      BlockData.size r.memory (BlockData.get ptr) = size ∧
      BlockData.alignment r.memory (BlockData.get ptr) =
        BlockData.alignment s.memory (BlockData.get ptr) ∧
      (∀ a, a ≠ BlockData.get ptr → r.memory a = s.memory a) ∧
      r.pools = s.pools ∧ r.nodeArena = s.nodeArena := by
  unfold SIZEOF_BLOCKDATA at hptr
  have hne : ptr ≠ 0 := by omega
  have hcall : nalloc s ptr size alignment =
      some ({ s with memory := write s.memory (BlockData.get ptr) size }, ptr) := by
    unfold nalloc
    rw [if_neg hne]
    simp only
    rw [hold]
    simp only
    rw [if_neg (by omega), hnew]
    simp only
    rw [if_pos hle]
  have hget : BlockData.get ptr = ptr - 16 := ptrSub_eq hptr.1 hptr.2
  rw [hget] at hcall ⊢
  obtain ⟨h1, h2, h3⟩ := resize_header s.memory (ptr - 16) size (by omega)
  exact ⟨_, hcall, h1, h2, h3, rfl, rfl⟩
/-- C18: in a run without other threads, when `nalloc(nullptr, size, alignment)`
with a power-of-two alignment has returned `p`, a block that does not start
within `alignment` bytes of the address zero, then `nalloc(p, 0, 0)` returns
`nullptr` and the next `nalloc(nullptr, size, alignment)` returns `p` again. -/
theorem C18_nalloc_lifo (s s1 : PoolState) (size alignment p : Nat) (hal : IsCap alignment)
    (h1 : nalloc s 0 size alignment = some (s1, p))
    (hp : SIZEOF_BLOCKDATA + alignment ≤ p) :
    ∃ s2 s3, nalloc s1 p 0 0 = some (s2, 0) ∧ nalloc s2 0 size alignment = some (s3, p) := by
  have hpos := isCap_pos hal
  have hle := isCap_le hal
  unfold SIZEOF_BLOCKDATA at hp
  -- the first call
  unfold nalloc at h1
  rw [if_pos rfl] at h1
  cases hk : getIndex size alignment with
  | none => rw [hk] at h1; cases h1
  | some k =>
    rw [hk] at h1
    simp only at h1
    cases hpop : popBlock s k with
    | none => rw [hpop] at h1; cases h1
    | some r =>
      obtain ⟨s0, block⟩ := r
      rw [hpop] at h1
      simp only at h1
      obtain ⟨q, hq, _, hqlt, hqmod⟩ := buildBlock_eq s0.memory block size hal
      rw [hq] at h1
      simp only [Option.some.injEq, Prod.mk.injEq] at h1
      obtain ⟨hs1, hqp⟩ := h1
      subst hqp
      have hsub : ptrSub q SIZEOF_BLOCKDATA = q - 16 :=
        ptrSub_eq (by unfold SIZEOF_BLOCKDATA; omega) hqlt
      have hget : BlockData.get q = q - 16 := hsub
      rw [hsub] at hs1
      have hmem : s1.memory = BlockData.set s0.memory (q - 16) size alignment := by
        rw [← hs1]
      obtain ⟨g1, g2⟩ := blockData_set_get s0.memory (q - 16) size alignment (by omega)
      obtain ⟨r1, r2, r3⟩ := roundtrip_align hpos hqmod hp
      have hroom := multiple_room hal hqlt hqmod
      -- the free
      have hblock : BlockData.getBlock s1.memory (q - 16) = some ((q - 16) / alignment * alignment) := by
        unfold BlockData.getBlock
        rw [hmem, g2, alignFloor_eq hal (by omega)]
      have hfree : nalloc s1 q 0 0 = some
          ({ s1 with
            pools := setPool s1.pools k
              { tag := ((s1.pools k).tag + 1) % SIZE_MOD,
                ptr := ((q - 16) / alignment * alignment) % SIZE_MOD },
            memory := write s1.memory ((q - 16) / alignment * alignment) (s1.pools k).ptr }, 0) := by
        unfold nalloc
        rw [if_neg (by omega)]
        simp only
        rw [hget, hmem, g1, g2, hk]
        simp only [if_true]
        rw [← hmem, hblock]
        simp only
        rw [pushBlock_eq]
      obtain ⟨s2, hs2⟩ : ∃ s2 : PoolState, s2 = { s1 with
            pools := setPool s1.pools k
              { tag := ((s1.pools k).tag + 1) % SIZE_MOD,
                ptr := ((q - 16) / alignment * alignment) % SIZE_MOD },
            memory := write s1.memory ((q - 16) / alignment * alignment) (s1.pools k).ptr } :=
        ⟨_, rfl⟩
      rw [← hs2] at hfree
      -- the second allocation
      have hhead : (s2.pools k).ptr = (q - 16) / alignment * alignment := by
        rw [hs2]
        simp only
        rw [setPool_same]
        exact Nat.mod_eq_of_lt (by omega)
      obtain ⟨q2, hq2, ha2, _, _⟩ := buildBlock_eq s2.memory
        ((q - 16) / alignment * alignment) size hal
      rw [ptrAdd_eq (by unfold SIZEOF_BLOCKDATA; omega)] at ha2
      unfold SIZEOF_BLOCKDATA at ha2
      rw [align_eq hal (by omega), r1] at ha2
      have hqq : q = q2 := Option.some.inj ha2
      rw [← hqq] at hq2
      have hsecond : ∃ s3, nalloc s2 0 size alignment = some (s3, q) := by
        unfold nalloc
        rw [if_pos rfl, hk]
        simp only
        rw [popBlock_eq s2 k (by rw [hhead]; omega)]
        simp only
        rw [hhead, hq2]
        exact ⟨_, rfl⟩
      obtain ⟨s3, h3⟩ := hsecond
      exact ⟨s2, s3, hfree, h3⟩

/-- C19: a `store` whose expected pair differs from the pair that is there, in
the tag or in the pointer, returns false and leaves the pair as it is; the
expected pair is replaced by the pair that is there. -/
theorem C19_tagged_store_stale (self expected : TaggedPointer) (set : Nat)
    (hs : self.Valid) (he : expected.Valid)
    (hstale : expected.tag ≠ self.tag ∨ expected.ptr ≠ self.ptr) :
    (self.store expected set).2.2 = false ∧ (self.store expected set).1 = self ∧
      (self.store expected set).2.1 = self := by
  have hne : self.toUint128 ≠ expected.toUint128 := by
    intro h
    have := toUint128_inj hs he h
    rw [this] at hstale
    rcases hstale with h1 | h1 <;> exact h1 rfl
  unfold TaggedPointer.store atomicCompareExchangeWeak syncValCompareAndSwap
  simp only
  rw [if_neg hne, ofUint128_valid self hs]
  refine ⟨?_, rfl, rfl⟩
  simp only [decide_eq_false_iff_not]
  exact fun h => hne h.symm

/-- C20: `Mutex::tryLock` returns the result of `pthread_mutex_trylock`
converted to `bool`, so it returns true exactly when the mutex was held and the
call acquired nothing: on a free mutex the call acquires it and returns false,
on a held mutex it returns true. -/
theorem C20_tryLock_sample :
    (∀ mutex, (Mutex.tryLock mutex).2 = true ↔ mutex.locked = true) ∧
      pthread_mutex_trylock { locked := false } = ({ locked := true }, 0) ∧
      Mutex.tryLock { locked := false } = ({ locked := true }, false) ∧
      Mutex.tryLock { locked := true } = ({ locked := true }, true) := by
  refine ⟨fun mutex => ?_, by decide, by decide, by decide⟩
  obtain ⟨b⟩ := mutex
  cases b <;> decide

theorem C17_nalloc_same_bucket_witness :
    (SIZEOF_BLOCKDATA ≤ 4128 ∧ 4128 < SIZE_MOD) ∧ 0 < 40 ∧
      BlockData.size sampleBlockPool.memory (BlockData.get 4128) = 64 ∧
      getIndex 40 8 = some 6 ∧ getIndex 64 8 = some 6 ∧
      ∃ r, nalloc sampleBlockPool 4128 40 0 = some (r, 4128) ∧
        BlockData.size r.memory (BlockData.get 4128) = 40 ∧
        r.pools = sampleBlockPool.pools := by
  obtain ⟨r, h1, h2, _, _, h5, _⟩ :=
    C17_nalloc_same_bucket sampleBlockPool 4128 40 0 6 6 (by decide) (by decide) (by decide)
      (by decide) (Nat.le_refl 6)
  exact ⟨by decide, by decide, by decide, by decide, by decide, r, h1, h2, h5⟩

theorem C18_nalloc_lifo_witness :
    IsCap 8 ∧ ∃ s1, nalloc samplePool 0 64 8 = some (s1, 4128) ∧
      SIZEOF_BLOCKDATA + 8 ≤ 4128 ∧
      ∃ s2 s3, nalloc s1 4128 0 0 = some (s2, 0) ∧ nalloc s2 0 64 8 = some (s3, 4128) := by
  have h : (nalloc samplePool 0 64 8).map Prod.snd = some 4128 := by decide
  cases hn : nalloc samplePool 0 64 8 with
  | none => rw [hn] at h; cases h
  | some r =>
    obtain ⟨s1, p⟩ := r
    rw [hn] at h
    simp only [Option.map_some', Option.some.injEq] at h
    subst h
    exact ⟨isCap_8, s1, rfl, by decide,
      C18_nalloc_lifo samplePool s1 64 8 4128 isCap_8 hn (by decide)⟩

theorem C19_tagged_store_stale_witness :
    TaggedPointer.Valid { tag := 3, ptr := 4096 } ∧
      TaggedPointer.Valid { tag := 2, ptr := 4096 } ∧
      ((2 : Nat) ≠ 3 ∨ (4096 : Nat) ≠ 4096) ∧
      (TaggedPointer.store { tag := 3, ptr := 4096 } { tag := 2, ptr := 4096 } 8192).2.2 = false ∧
      (TaggedPointer.store { tag := 3, ptr := 4096 } { tag := 2, ptr := 4096 } 8192).1 =
        { tag := 3, ptr := 4096 } := by
  have hs : TaggedPointer.Valid { tag := 3, ptr := 4096 } := ⟨by decide, by decide⟩
  have he : TaggedPointer.Valid { tag := 2, ptr := 4096 } := ⟨by decide, by decide⟩
  have h := C19_tagged_store_stale { tag := 3, ptr := 4096 } { tag := 2, ptr := 4096 } 8192
    hs he (Or.inl (by decide))
  exact ⟨hs, he, Or.inl (by decide), h.1, h.2.1⟩


/-! ## The dynamic array -/

/-- C21: `copy` copies the elements but leaves the size of the clone at the 0
that `init` gave it: the clone of a list of three elements has size 0, and
indexing it fails the assertion of `operator[]`. -/
theorem C21_copy_size_sample :
    (∀ (mem : Nat → Nat) (a : ArrayList Nat),
      (a.copy mem).size = 0 ∧ ∀ i, i < a.size → (a.copy mem).data i = a.data i) ∧
    sampleList.size = 3 ∧ sampleList.index 0 = some 10 ∧
    (sampleList.copy (fun _ => 0)).size = 0 ∧ (sampleList.copy (fun _ => 0)).data 0 = 10 ∧
    (sampleList.copy (fun _ => 0)).index 0 = none := by
  refine ⟨fun mem a => ⟨rfl, fun i hi => ?_⟩, by decide, by decide, by decide, by decide,
    by decide⟩
  show copyElements mem a.data a.size i = a.data i
  unfold copyElements
  rw [if_pos hi]

/-! ## Buckets -/

/-- `log2Ceil` with the intrinsic returns, for `1 <= v <= 2^63`, the least `k`
with `v <= 2^k`. -/
theorem log2Ceil_spec (v : Nat) (h1 : 1 ≤ v) (h2 : v ≤ 2 ^ 63) :
    ∃ k, log2Ceil v = some k ∧ k ≤ 63 ∧ v ≤ 2 ^ k ∧ ∀ j, v ≤ 2 ^ j → k ≤ j := by
  have hsh : (1 <<< 63 : Nat) = 2 ^ 63 := by simp [Nat.shiftLeft_eq]
  by_cases hv1 : v = 1
  · subst hv1
    exact ⟨0, by simp [log2Ceil], by omega, by simp, fun j _ => Nat.zero_le j⟩
  · have hlt : v - 1 < 2 ^ 64 := by
      have : (2 : Nat) ^ 63 < 2 ^ 64 := by norm_num
      omega
    obtain ⟨b1, b2, b3⟩ := bitLength_spec 64 (v - 1) hlt
    have b4 := b2 (by omega)
    have hb0 : bitLength 64 (v - 1) ≠ 0 := by
      intro hb
      rw [hb] at b1
      simp at b1
      omega
    obtain ⟨b, hb⟩ : ∃ b, bitLength 64 (v - 1) = b + 1 := ⟨_, (Nat.succ_pred hb0).symm⟩
    rw [hb] at b1 b4 b3
    simp only [Nat.add_sub_cancel] at b4
    have hb63 : b + 1 ≤ 63 := by
      by_contra hcon
      have : (2 : Nat) ^ 63 ≤ 2 ^ b := Nat.pow_le_pow_right (by norm_num) (by omega)
      omega
    refine ⟨b + 1, ?_, hb63, by omega, fun j hj => ?_⟩
    · have hne0 : v ≠ 0 := by omega
      have hle : ¬ v > 1 <<< 63 := by rw [hsh]; omega
      simp only [log2Ceil, hne0, if_false, hle, hv1, clzl, hb]
      rw [show 64 - (64 - (b + 1)) = b + 1 by omega]
    · by_contra hcon
      have : (2 : Nat) ^ j ≤ 2 ^ b := Nat.pow_le_pow_right (by norm_num) (by omega)
      omega

/-- C23: when `size + padding` is at most `2^63`, `getIndex(size, alignment)` is
the least `k` with `2^k >= max(sizeof(size_t), size + padding)`, the padding
being `alignment - sizeof(BlockData)` for an alignment above `sizeof(BlockData)`
and 0 otherwise. -/
theorem C23_getIndex_least (size alignment : Nat)
    (hsum : size + (if alignment > SIZEOF_BLOCKDATA then alignment - SIZEOF_BLOCKDATA else 0)
      ≤ 2 ^ 63) :
    ∃ k, getIndex size alignment = some k ∧ k ≤ 63 ∧
      max 8 (size + (if alignment > SIZEOF_BLOCKDATA then alignment - SIZEOF_BLOCKDATA else 0))
        ≤ 2 ^ k ∧
      ∀ j, max 8 (size + (if alignment > SIZEOF_BLOCKDATA then alignment - SIZEOF_BLOCKDATA
        else 0)) ≤ 2 ^ j → k ≤ j := by
  generalize hp : (if alignment > SIZEOF_BLOCKDATA then alignment - SIZEOF_BLOCKDATA else 0) = padding
    at hsum
  have h63 : (2 : Nat) ^ 63 < SIZE_MOD := by unfold SIZE_MOD; norm_num
  have hmod : (size + padding) % SIZE_MOD = size + padding := Nat.mod_eq_of_lt (by omega)
  have hv1 : 1 ≤ max 8 (size + padding) := Nat.le_trans (by norm_num) (Nat.le_max_left _ _)
  have hv2 : max 8 (size + padding) ≤ 2 ^ 63 := max_le (by norm_num) hsum
  obtain ⟨k, hk, h1, h2, h3⟩ := log2Ceil_spec _ hv1 hv2
  refine ⟨k, ?_, h1, h2, h3⟩
  unfold getIndex
  simp only
  rw [hp, hmod, hk]

theorem C23_getIndex_least_witness :
    100 + (if 64 > SIZEOF_BLOCKDATA then 64 - SIZEOF_BLOCKDATA else 0) ≤ 2 ^ 63 ∧
      getIndex 100 64 = some 8 ∧
      ∃ k, getIndex 100 64 = some k ∧ k ≤ 63 ∧
        max 8 (100 + (if 64 > SIZEOF_BLOCKDATA then 64 - SIZEOF_BLOCKDATA else 0)) ≤ 2 ^ k ∧
        ∀ j, max 8 (100 + (if 64 > SIZEOF_BLOCKDATA then 64 - SIZEOF_BLOCKDATA else 0)) ≤ 2 ^ j →
          k ≤ j :=
  ⟨by decide, by decide, C23_getIndex_least 100 64 (by decide)⟩

/-- C24: the raw block at 4152, aligned for a header, for a request of 16 bytes
aligned to 32.  `getIndex` chooses the bucket 5, so the raw block has
`sizeof(BlockData) + 2^5 = 48` bytes and ends at 4200; `buildBlock` puts the
payload at 4192, and its 16 bytes end at 4208, beyond the block.  The pool
allocator reaches this block with its second call, after a request of 8
bytes: the payload ends beyond the mark of its arena. -/
theorem C24_block_room_sample :
    4152 % ALIGNOF_BLOCKDATA = 0 ∧ getIndex 16 32 = some 5 ∧
      (buildBlock sampleMemory 4152 16 32).map Prod.snd = some 4192 ∧
      4152 ≤ 4192 - SIZEOF_BLOCKDATA ∧
      ¬ (4192 + 16 ≤ 4152 + SIZEOF_BLOCKDATA + 2 ^ 5) ∧
      ((nalloc samplePool 0 8 8).bind fun r1 =>
        (popBlock r1.1 5).bind fun r2 =>
          (nalloc r1.1 0 16 32).map fun r3 => (r2.2, r3.2, r3.1.nodeArena.mark)) =
        some (4152, 4192, 4200) := by
  decide

/-- C25: the raw block at 4112, aligned for a header, built for 64 bytes aligned
to 64.  The payload is at 4160 and its header at 4144; `getBlock` rounds the
address of the header down to a multiple of 64 and returns 4096, not 4112.
So does the pool allocator: the block it pops for the request is 4112 and the
block it pushes when the payload is freed is 4096. -/
theorem C25_getBlock_sample :
    4112 % ALIGNOF_BLOCKDATA = 0 ∧
      (buildBlock sampleMemory 4112 64 64).map Prod.snd = some 4160 ∧
      ((buildBlock sampleMemory 4112 64 64).bind fun r =>
        BlockData.getBlock r.1 (BlockData.get r.2)) = some 4096 ∧
      (4096 : Nat) ≠ 4112 ∧
      ((popBlock samplePool 7).map Prod.snd) = some 4112 ∧
      ((nalloc samplePool 0 64 64).bind fun r1 =>
        (nalloc r1.1 r1.2 0 0).map fun r2 => (r1.2, (r2.1.pools 7).ptr)) = some (4160, 4096) := by
  decide

/-- The capacity that `Arena::alloc` publishes for a mark beyond the capacity:
the needed end is rounded to the next multiple of `MAX_ARENA_SIZE` above
it. -/
theorem grow_eq (arena : Arena) (newMark : Nat) (hcap : arena.capacity < newMark)
    (hdata : arena.data ≤ newMark)
    (hfit : newMark + MAX_ARENA_SIZE < SIZE_MOD) :
    Arena.grow arena newMark =
      arena.data + ((newMark - arena.data) / MAX_ARENA_SIZE + 1) * MAX_ARENA_SIZE := by
  have hpos : 0 < MAX_ARENA_SIZE := by decide
  unfold Arena.grow
  rw [if_pos hcap]
  simp only
  rw [ptrSub_eq hdata (by omega)]
  have h1 := Nat.div_add_mod (newMark - arena.data) MAX_ARENA_SIZE
  have h2 := Nat.mod_lt (newMark - arena.data) hpos
  rw [Nat.mul_comm] at h1
  have h3 : newMark - arena.data + (MAX_ARENA_SIZE - (newMark - arena.data) % MAX_ARENA_SIZE) =
      ((newMark - arena.data) / MAX_ARENA_SIZE + 1) * MAX_ARENA_SIZE := by
    rw [Nat.succ_mul]
    omega
  rw [h3]
  have h4 : ((newMark - arena.data) / MAX_ARENA_SIZE + 1) * MAX_ARENA_SIZE ≤
      newMark - arena.data + MAX_ARENA_SIZE := by
    rw [Nat.succ_mul]
    omega
  rw [Nat.mod_eq_of_lt (by omega), ptrAdd_eq (by omega)]

/-- C26: the capacity that `Arena::alloc` publishes is the needed end rounded to
the next multiple of `MAX_ARENA_SIZE` above it; `ARENA_BLOCK_SIZE` plays no
part.  The first allocation of 64 bytes from an arena at 4096 needs 80 bytes
and publishes the capacity `4096 + MAX_ARENA_SIZE`, not
`4096 + ARENA_BLOCK_SIZE`; and an allocation that ends exactly at
`data + MAX_ARENA_SIZE` publishes a capacity that is twice the reservation. -/
theorem C26_arena_growth_sample :
    (∀ (arena : Arena) (newMark : Nat), arena.capacity < newMark → arena.data ≤ newMark →
      newMark + MAX_ARENA_SIZE < SIZE_MOD →
      Arena.grow arena newMark =
        arena.data + ((newMark - arena.data) / MAX_ARENA_SIZE + 1) * MAX_ARENA_SIZE) ∧
    (Arena.alloc sampleArena sampleMemory 0 64 8).map (fun r => (r.1.mark, r.1.capacity)) =
      some (4096 + 80, 4096 + MAX_ARENA_SIZE) ∧
    80 ≤ ARENA_BLOCK_SIZE ∧ ARENA_BLOCK_SIZE < MAX_ARENA_SIZE ∧
    (Arena.alloc sampleArena sampleMemory 0 (MAX_ARENA_SIZE - 16) 8).map
        (fun r => (r.1.mark, r.1.capacity)) =
      some (4096 + MAX_ARENA_SIZE, 4096 + 2 * MAX_ARENA_SIZE) := by
  exact ⟨grow_eq, by decide, by decide, by decide, by decide⟩

/-- The loop of the portable `log2Ceil` counts how often `v` can be halved
before it is 1: it returns `i + k` for the `k` with `2^k <= v < 2^(k+1)`. -/
theorem log2CeilLoop_spec (fuel : Nat) :
    ∀ v i, 1 ≤ v → v < 2 ^ fuel → i + fuel ≤ SIZE_MOD →
      ∃ k, log2CeilLoop fuel v i = some (i + k) ∧ 2 ^ k ≤ v ∧ v < 2 ^ (k + 1) := by
  induction fuel with
  | zero =>
    intro v i h1 h2 _
    simp at h2
    omega
  | succ fuel ih =>
    intro v i h1 h2 h3
    unfold log2CeilLoop
    rw [Nat.shiftRight_eq_div_pow, Nat.pow_one]
    by_cases hz : v / 2 = 0
    · rw [if_pos hz]
      refine ⟨0, rfl, by simpa using h1, ?_⟩
      simp only [Nat.zero_add, Nat.pow_one]
      omega
    · rw [if_neg hz]
      rw [Nat.pow_succ] at h2
      have hf : 1 ≤ fuel := by
        by_contra hcon
        have h0 : fuel = 0 := by omega
        rw [h0] at h2
        simp at h2
        omega
      have hmod : (i + 1) % SIZE_MOD = i + 1 := Nat.mod_eq_of_lt (by omega)
      rw [hmod]
      obtain ⟨k, hk, hlo, hhi⟩ := ih (v / 2) (i + 1) (by omega) (by omega) (by omega)
      refine ⟨k + 1, ?_, ?_, ?_⟩
      · rw [hk]
        congr 1
        omega
      · rw [Nat.pow_succ]; omega
      · rw [Nat.pow_succ] at hhi ⊢
        rw [Nat.pow_succ]
        omega

/-- C29: the portable `log2Ceil` returns the `k` with `2^k <= v < 2^(k+1)`, the
logarithm rounded down; for 3 it returns 1 where the intrinsic implementation
returns 2, the least `k` with `2^k >= 3`.  With it a request of 9 bytes would
select the bucket of 8 bytes. -/
theorem C29_log2Ceil_portable_sample :
    (∀ v, 1 ≤ v → v ≤ 2 ^ 63 →
      ∃ k, log2CeilPortable v = some k ∧ 2 ^ k ≤ v ∧ v < 2 ^ (k + 1)) ∧
    log2CeilPortable 3 = some 1 ∧ log2Ceil 3 = some 2 ∧ ¬ (3 ≤ 2 ^ 1) ∧
    log2CeilPortable (max 8 9) = some 3 ∧ log2Ceil (max 8 9) = some 4 := by
  refine ⟨fun v h1 h2 => ?_, by decide, by decide, by decide, by decide, by decide⟩
  have hsh : (1 <<< 63 : Nat) = 2 ^ 63 := by simp [Nat.shiftLeft_eq]
  have h64 : (2 : Nat) ^ 63 < 2 ^ 64 := by norm_num
  obtain ⟨k, hk, hlo, hhi⟩ := log2CeilLoop_spec 64 v 0 h1 (by omega)
    (by unfold SIZE_MOD; norm_num)
  refine ⟨k, ?_, hlo, hhi⟩
  unfold log2CeilPortable
  rw [if_neg (by omega), if_neg (by rw [hsh]; omega), hk, Nat.zero_add]

/-! ## The count invariant -/

section Count

variable {K V : Type} [DecidableEq K] (hasher : K → Nat)

/-- The `OCCUPIED` slots among the first `n`, as a list, are as many as
`countType` counts. -/
theorem occupiedSlots_length (m : HashMap K V) (n : Nat) :
    (occupiedSlots m 0 n).length = countType (fun t => decide (t = .OCCUPIED)) m.data n := by
  induction n with
  | zero => rfl
  | succ n ih =>
    unfold occupiedSlots at ih ⊢
    rw [List.range'_concat, List.filter_append, List.length_append, ih, countType]
    by_cases h : (m.data n).type = .OCCUPIED
    · simp [h]
    · simp [h]

/-- A traversal yields as many records as there are `OCCUPIED` slots. -/
theorem iterate_length (m : HashMap K V) :
    ∃ l, iterate m = some l ∧ l.length = occupied m := by
  refine ⟨_, iterate_eq m, ?_⟩
  rw [List.length_map, occupiedSlots_length]
  rfl

/-- Changing the value of a record changes no count. -/
theorem setValue_count (m : HashMap K V) (i : Nat) (value : V) :
    occupied { m with data := store m.data i { m.data i with value := value } } = occupied m := by
  unfold occupied
  apply countType_congr
  intro j _
  simp only
  by_cases hji : j = i
  · subst hji
    have ht : (store m.data j { m.data j with value := value } j).type = (m.data j).type := by
      rw [store_same]
    simp only [ht]
  · have ht : (store m.data i { m.data i with value := value } j).type = (m.data j).type := by
      rw [store_other _ _ hji]
    simp only [ht]

theorem insert_count {m r : HashMap K V} {key : K} {value : V} {i : Nat}
    (hc : IsCap m.capacity) (hnp : NoPlaced m) (hcount : occupied m = m.size)
    (h : insert hasher m key value = some (r, i)) :
    IsCap r.capacity ∧ NoPlaced r ∧ occupied r = r.size := by
  have hnpr := insert_noPlaced hasher hnp h
  obtain ⟨_, m1, hres, hun, rfl⟩ := insert_parts hasher h
  obtain ⟨hk, _⟩ := reserve_kept hasher hc hnp hres
  obtain ⟨hi, hfree, _⟩ := getUnusedRecord_spec hasher hk.cap hun
  refine ⟨hk.cap, hnpr, ?_⟩
  rw [place_count hi hfree]
  simp only
  have h1 : occupied m1 ≤ m1.capacity := countType_le _ _ _
  have h2 := isCap_le hk.cap
  have h3 : (2 : Nat) ^ 63 + 1 < SIZE_MOD := by unfold SIZE_MOD; norm_num
  have h4 : occupied m1 = m1.size := by rw [hk.count, hk.size, hcount]
  rw [Nat.mod_eq_of_lt (by omega), h4]

theorem remove_count {m r : HashMap K V} {key : K}
    (hc : IsCap m.capacity) (hcount : occupied m = m.size)
    (h : remove hasher m key = some r) : occupied r = r.size := by
  obtain ⟨i, hget, rfl⟩ := remove_parts hasher h
  obtain ⟨hi, hocc, _⟩ := getRecord_sound hasher hc hget
  have hst := countType_store (fun t => decide (t = .OCCUPIED)) m.data m.capacity i
    ((m.data i).withType .DELETED) hi
  rw [hocc] at hst
  simp only [withType_type, decide_True, if_true] at hst
  have hdel : ¬ (decide (RecordType.DELETED = RecordType.OCCUPIED) = true) := by decide
  rw [if_neg hdel, Nat.add_zero] at hst
  have hpos : 0 < occupied m :=
    countType_pos _ _ _ i hi (by rw [hocc]; decide)
  have h1 : occupied m ≤ m.capacity := countType_le _ _ _
  have h2 := isCap_le hc
  have h3 : (2 : Nat) ^ 63 + 1 < SIZE_MOD := by unfold SIZE_MOD; norm_num
  have hsz : (m.size + (SIZE_MOD - 1)) % SIZE_MOD = m.size - 1 := by
    rw [show m.size + (SIZE_MOD - 1) = (m.size - 1) + SIZE_MOD by omega, Nat.add_mod_right,
      Nat.mod_eq_of_lt (by omega)]
  show countType (fun t => decide (t = .OCCUPIED))
    (store m.data i ((m.data i).withType .DELETED)) m.capacity =
    (m.size + (SIZE_MOD - 1)) % SIZE_MOD
  rw [hsz]
  unfold occupied at hcount hpos
  omega

theorem subscript_count [Inhabited V] {m r : HashMap K V} {key : K} {i : Nat}
    (hc : IsCap m.capacity) (hnp : NoPlaced m) (hcount : occupied m = m.size)
    (h : subscript hasher m key = some (r, i)) :
    IsCap r.capacity ∧ NoPlaced r ∧ occupied r = r.size := by
  rcases subscript_parts hasher h with ⟨_, rfl⟩ | ⟨_, hins⟩
  · exact ⟨hc, hnp, hcount⟩
  · exact insert_count hasher hc hnp hcount hins

/-- Every operation keeps the count of the `OCCUPIED` slots equal to `size`, on
a table with power-of-two capacity and no `PLACED` record. -/
theorem step_count [Inhabited V] {m r : HashMap K V} (op : Op K V) (hc : IsCap m.capacity)
    (hnp : NoPlaced m) (hcount : occupied m = m.size) (h : step hasher op m = some r) :
    occupied r = r.size := by
  cases op with
  | insert key value =>
    simp only [step, Option.map_eq_some'] at h
    obtain ⟨⟨r1, i⟩, h1, rfl⟩ := h
    exact (insert_count hasher hc hnp hcount h1).2.2
  | subscript key =>
    simp only [step, Option.map_eq_some'] at h
    obtain ⟨⟨r1, i⟩, h1, rfl⟩ := h
    exact (subscript_count hasher hc hnp hcount h1).2.2
  | assign key value =>
    obtain ⟨m1, i, hsub, rfl⟩ := assign_parts hasher h
    rw [setValue_count]
    exact (subscript_count hasher hc hnp hcount hsub).2.2
  | remove key => exact remove_count hasher hc hcount h
  | reserve value =>
    obtain ⟨hk, _⟩ := reserve_kept hasher hc hnp h
    rw [hk.count, hk.size, hcount]
  | rehash newCapacity =>
    have hk := rehash_post hasher hc hnp h
    rw [hk.count, hk.size, hcount]
  | optimize s c fuel =>
    have hk := optimize_kept hasher s c fuel m r hc hnp h
    rw [hk.count, hk.size, hcount]

/-- C30: `init` leaves the number of `OCCUPIED` slots equal to `size`; on a
table with power-of-two capacity and no `PLACED` record in which the two are
equal, they are equal again after each of `insert`, `operator[]`,
`map[k] = v`, `remove`, `reserve`, `rehash` and `optimize`; and where they are
equal, `size < capacity` gives a slot that is not `OCCUPIED`, and a traversal
from `begin()` to `end()` ends and yields exactly `size` records. -/
theorem C30_count_invariant [Inhabited V] :
    (∀ (mem : Nat → Record K V) initial m, init mem initial = some m → occupied m = m.size) ∧
    (∀ (m r : HashMap K V) (op : Op K V), IsCap m.capacity → NoPlaced m →
      occupied m = m.size → step hasher op m = some r → occupied r = r.size) ∧
    (∀ (m : HashMap K V), occupied m = m.size → m.size < m.capacity →
      ∃ i, i < m.capacity ∧ (m.data i).type ≠ .OCCUPIED) ∧
    (∀ (m : HashMap K V), occupied m = m.size →
      ∃ l, iterate m = some l ∧ l.length = m.size) := by
  refine ⟨fun _ _ _ h => (init_sound hasher h).1.count,
    fun _ _ op hc hnp hcount h => step_count hasher op hc hnp hcount h,
    fun m hcount hlt => ?_, fun m hcount => ?_⟩
  · rw [← hcount] at hlt
    obtain ⟨i, hi, hp⟩ := countType_lt_exists _ _ _ hlt
    exact ⟨i, hi, by simpa using hp⟩
  · obtain ⟨l, hl, hlen⟩ := iterate_length m
    exact ⟨l, hl, by rw [hlen, hcount]⟩

end Count

theorem C30_count_invariant_witness :
    IsCap sampleTable.capacity ∧ NoPlaced sampleTable ∧ occupied sampleTable = sampleTable.size ∧
      (∀ r, step defaultHash (Op.remove 17) sampleTable = some r → occupied r = r.size) ∧
      (∀ r, step defaultHash (Op.insert 49 7) sampleTable = some r → occupied r = r.size) ∧
      ∃ l, iterate sampleTable = some l ∧ l.length = 2 := by
  have h := C30_count_invariant (K := Nat) (V := Nat) defaultHash
  exact ⟨sampleTable_wf.cap, sampleTable_wf.noPlaced, sampleTable_wf.count,
    fun r hr => h.2.1 sampleTable r (Op.remove 17) sampleTable_wf.cap sampleTable_wf.noPlaced
      sampleTable_wf.count hr,
    fun r hr => h.2.1 sampleTable r (Op.insert 49 7) sampleTable_wf.cap sampleTable_wf.noPlaced
      sampleTable_wf.count hr,
    h.2.2.2 sampleTable sampleTable_wf.count⟩

/-! ## The iterations of the walk of `rehash` -/

section WalkSteps

variable {K V : Type} [DecidableEq K] (hasher : K → Nat)

/-- The walk is the iteration of its body. -/
theorem walk_succ (c index fuel : Nat) (d : Nat → Record K V) :
    walk hasher c index (fuel + 1) d =
      match walkBody hasher c index d with
      | none => none
      | some (d1, false) => some d1
      | some (d1, true) => walk hasher c index fuel d1 := by
  simp only [walk, walkBody]
  cases skipPlaced c d c (BIT_MODULO (hasher (d index).key) c) with
  | none => rfl
  | some newIndex =>
    simp only
    by_cases hne : newIndex = index
    · simp only [if_pos hne]
    · simp only [if_neg hne]
      split <;> rfl

/-- One iteration of the walk turns exactly one more slot `PLACED` and one
`OCCUPIED` slot less is left; it touches no `PLACED` record; and when the loop
goes on, the record at `index` is `OCCUPIED` again. -/
theorem walkBody_spec {c index : Nat} {d : Nat → Record K V} (hc : IsCap c) (hi : index < c)
    (hocc : (d index).type = .OCCUPIED) :
    ∃ d1 b, walkBody hasher c index d = some (d1, b) ∧
      countType (fun t => decide (t = .PLACED)) d1 c =
        countType (fun t => decide (t = .PLACED)) d c + 1 ∧
      countType (fun t => decide (t = .OCCUPIED)) d1 c + 1 =
        countType (fun t => decide (t = .OCCUPIED)) d c ∧
      (∀ j, (d j).type = .PLACED → d1 j = d j) ∧
      (b = true → (d1 index).type = .OCCUPIED) := by
  obtain ⟨newIndex, hsk, hn, hnp, _⟩ := skipPlaced_spec hasher hc hi hocc
  have hidx : ∀ j, (d j).type = .PLACED → j ≠ index := by
    intro j hj h; rw [h, hocc] at hj; cases hj
  have hnew : ∀ j, (d j).type = .PLACED → j ≠ newIndex := by
    intro j hj h; rw [h] at hj; exact hnp hj
  simp only [walkBody, hsk]
  have p1 := countType_store (fun t => decide (t = .PLACED)) d c index
    ((d index).withType .PLACED) hi
  have o1 := countType_store (fun t => decide (t = .OCCUPIED)) d c index
    ((d index).withType .PLACED) hi
  simp only [hocc, withType_type] at p1 o1
  simp at p1 o1
  by_cases hne : newIndex = index
  · rw [if_pos hne]
    refine ⟨_, false, rfl, by omega, by omega, fun j hj => store_other _ _ (hidx j hj),
      fun h => by cases h⟩
  · rw [if_neg hne]
    simp only [store_same, store_other _ _ hne, store_shadow]
    by_cases hocc2 : (d newIndex).type = .OCCUPIED
    · rw [if_pos hocc2]
      have p2 := countType_store (fun t => decide (t = .PLACED)) d c newIndex
        ((d index).withType .PLACED) hn
      have o2 := countType_store (fun t => decide (t = .OCCUPIED)) d c newIndex
        ((d index).withType .PLACED) hn
      have p3 := countType_store (fun t => decide (t = .PLACED))
        (store d newIndex ((d index).withType .PLACED)) c index (d newIndex) hi
      have o3 := countType_store (fun t => decide (t = .OCCUPIED))
        (store d newIndex ((d index).withType .PLACED)) c index (d newIndex) hi
      rw [store_other _ _ (Ne.symm hne)] at p3 o3
      simp only [hocc, hocc2, withType_type] at p2 o2 p3 o3
      simp at p2 o2 p3 o3
      refine ⟨_, true, rfl, by omega, by omega, fun j hj => ?_, fun _ => ?_⟩
      · rw [store_other _ _ (hidx j hj), store_other _ _ (hnew j hj)]
      · rw [store_same]; exact hocc2
    · rw [if_neg hocc2]
      have p2 := countType_store (fun t => decide (t = .PLACED)) d c newIndex
        ((d index).withType .PLACED) hn
      have o2 := countType_store (fun t => decide (t = .OCCUPIED)) d c newIndex
        ((d index).withType .PLACED) hn
      have p3 := countType_store (fun t => decide (t = .PLACED))
        (store d newIndex ((d index).withType .PLACED)) c index
        (((d index).withType .PLACED).withType .UNUSED) hi
      have o3 := countType_store (fun t => decide (t = .OCCUPIED))
        (store d newIndex ((d index).withType .PLACED)) c index
        (((d index).withType .PLACED).withType .UNUSED) hi
      rw [store_other _ _ (Ne.symm hne)] at p3 o3
      simp only [hocc, withType_type] at p2 o2 p3 o3
      simp [hocc2, hnp] at p2 o2 p3 o3
      refine ⟨_, false, rfl, by omega, by omega, fun j hj => ?_, fun h => by cases h⟩
      rw [store_other _ _ (hidx j hj), store_other _ _ (hnew j hj)]

/-- The walk for an `OCCUPIED` record ends; it turns as many slots `PLACED` as
it makes iterations, and touches no `PLACED` record. -/
theorem walkSteps_spec {c index : Nat} (hc : IsCap c) (hi : index < c) :
    ∀ fuel (d : Nat → Record K V), (d index).type = .OCCUPIED →
      countType (fun t => decide (t = .OCCUPIED)) d c ≤ fuel →
      ∃ e k, walkSteps hasher c index fuel d = some (e, k) ∧
        walk hasher c index fuel d = some e ∧
        countType (fun t => decide (t = .PLACED)) e c =
          countType (fun t => decide (t = .PLACED)) d c + k ∧
        countType (fun t => decide (t = .OCCUPIED)) e c + k =
          countType (fun t => decide (t = .OCCUPIED)) d c ∧
        ∀ j, (d j).type = .PLACED → e j = d j := by
  intro fuel
  induction fuel with
  | zero =>
    intro d hocc hcount
    have := countType_pos (fun t => decide (t = .OCCUPIED)) d c index hi (by simp [hocc])
    omega
  | succ f ih =>
    intro d hocc hcount
    obtain ⟨d1, b, hb, hp, ho, hkeep, hgo⟩ := walkBody_spec hasher hc hi hocc
    rw [walk_succ]
    simp only [walkSteps, hb]
    cases b with
    | false => exact ⟨d1, 1, rfl, rfl, hp, ho, hkeep⟩
    | true =>
      obtain ⟨e, k, h1, h2, h3, h4, h5⟩ := ih d1 (hgo rfl) (by omega)
      simp only [h1, h2]
      refine ⟨e, k + 1, rfl, rfl, by omega, by omega, fun j hj => ?_⟩
      rw [h5 j (by rw [hkeep j hj]; exact hj), hkeep j hj]

theorem rehashStepSteps_spec {c index : Nat} (hc : IsCap c) (hi : index < c)
    (d : Nat → Record K V) :
    ∃ e k, rehashStepSteps hasher c index d = some (e, k) ∧
      rehashStep hasher c index d = some e ∧
      countType (fun t => decide (t = .PLACED)) e c =
        countType (fun t => decide (t = .PLACED)) d c + k ∧
      countType (fun t => decide (t = .OCCUPIED)) e c + k =
        countType (fun t => decide (t = .OCCUPIED)) d c ∧
      ∀ j, (d j).type = .PLACED → e j = d j := by
  unfold rehashStepSteps rehashStep
  by_cases hocc : (d index).type = .OCCUPIED
  · rw [if_neg (by simpa using hocc), if_neg (by simpa using hocc)]
    exact walkSteps_spec hasher hc hi c d hocc (countType_le _ _ _)
  · rw [if_pos hocc, if_pos hocc]
    by_cases hdel : (d index).type = .DELETED
    · rw [if_pos hdel, if_pos hdel]
      have p1 := countType_store (fun t => decide (t = .PLACED)) d c index
        ((d index).withType .UNUSED) hi
      have o1 := countType_store (fun t => decide (t = .OCCUPIED)) d c index
        ((d index).withType .UNUSED) hi
      simp only [hdel, withType_type] at p1 o1
      simp at p1 o1
      refine ⟨_, 0, rfl, rfl, by omega, by omega, fun j hj => ?_⟩
      exact store_other _ _ (fun h => by rw [h, hdel] at hj; cases hj)
    · rw [if_neg hdel, if_neg hdel]
      exact ⟨d, 0, rfl, rfl, rfl, rfl, fun _ _ => rfl⟩

theorem rehashLoopSteps_spec {c : Nat} (hc : IsCap c) :
    ∀ n (d : Nat → Record K V), n ≤ c →
      ∃ e k, rehashLoopSteps hasher c n d = some (e, k) ∧
        rehashLoop hasher c n d = some e ∧
        countType (fun t => decide (t = .PLACED)) e c =
          countType (fun t => decide (t = .PLACED)) d c + k ∧
        countType (fun t => decide (t = .OCCUPIED)) e c + k =
          countType (fun t => decide (t = .OCCUPIED)) d c ∧
        ∀ j, (d j).type = .PLACED → e j = d j := by
  intro n
  induction n with
  | zero => intro d _; exact ⟨d, 0, rfl, rfl, rfl, rfl, fun _ _ => rfl⟩
  | succ n ih =>
    intro d hn
    obtain ⟨d1, k, h1, h2, h3, h4, h5⟩ := ih d (by omega)
    obtain ⟨e, j, g1, g2, g3, g4, g5⟩ := rehashStepSteps_spec hasher hc (show n < c by omega) d1
    simp only [rehashLoopSteps, rehashLoop, h1, h2, g1, g2]
    refine ⟨e, k + j, rfl, rfl, by omega, by omega, fun i hi => ?_⟩
    rw [g5 i (by rw [h5 i hi]; exact hi), h5 i hi]

/-- C27: on a table with power-of-two capacity and no `PLACED` record, (1) the
pass of `rehash` over the slots ends, the walks making in total `k` iterations
where `k` is the number of records `OCCUPIED` on entry, at most `capacity`;
after the pass every slot is `UNUSED` or `PLACED`, the `PLACED` slots are `k`,
and they hold exactly the records that were `OCCUPIED` on entry; (2) every
iteration of a walk turns exactly one more slot `PLACED`, leaves one `OCCUPIED`
slot less and changes no `PLACED` record; (3) no step of the pass changes a
`PLACED` record; (4) the table that `rehash` has after it has grown the array,
on which it runs the pass, has again a power-of-two capacity, no `PLACED`
record and as many `OCCUPIED` records. -/
theorem C27_rehash_walk (m : HashMap K V) (hc : IsCap m.capacity) (hnp : NoPlaced m) :
    (∃ e k, rehashLoopSteps hasher m.capacity m.capacity m.data = some (e, k) ∧
      rehashLoop hasher m.capacity m.capacity m.data = some e ∧
      k = occupied m ∧ k ≤ m.capacity ∧
      (∀ i, i < m.capacity → (e i).type = .UNUSED ∨ (e i).type = .PLACED) ∧
      countType (fun t => decide (t = .PLACED)) e m.capacity = k ∧
      (∀ key v, (∃ i, i < m.capacity ∧ (e i).type = .PLACED ∧ (e i).key = key ∧
        (e i).value = v) ↔ Stores m key v)) ∧
    (∀ index (d d1 : Nat → Record K V) b, index < m.capacity → (d index).type = .OCCUPIED →
      walkBody hasher m.capacity index d = some (d1, b) →
      countType (fun t => decide (t = .PLACED)) d1 m.capacity =
        countType (fun t => decide (t = .PLACED)) d m.capacity + 1 ∧
      countType (fun t => decide (t = .OCCUPIED)) d1 m.capacity + 1 =
        countType (fun t => decide (t = .OCCUPIED)) d m.capacity ∧
      (∀ j, (d j).type = .PLACED → d1 j = d j)) ∧
    (∀ index (d e : Nat → Record K V) k, index < m.capacity →
      rehashStepSteps hasher m.capacity index d = some (e, k) →
      ∀ j, (d j).type = .PLACED → e j = d j) ∧
    (∀ newCapacity m1, grow m newCapacity = some m1 →
      IsCap m1.capacity ∧ NoPlaced m1 ∧ occupied m1 = occupied m) := by
  refine ⟨?_, ?_, ?_, ?_⟩
  · obtain ⟨e, k, h1, h2, h3, h4, _⟩ :=
      rehashLoopSteps_spec hasher hc m.capacity m.data (Nat.le_refl _)
    have hch0 : PlacedChain hasher m.capacity m.data := fun i hi hp => absurd hp (hnp i hi)
    obtain ⟨_, hdone, hsame⟩ :=
      rehashLoop_inv hasher hc m.capacity m.data e (Nat.le_refl _) hch0 h2
    have hp0 : countType (fun t => decide (t = .PLACED)) m.data m.capacity = 0 :=
      countType_none _ _ _ (fun i hi => by simpa using hnp i hi)
    have ho0 : countType (fun t => decide (t = .OCCUPIED)) e m.capacity = 0 :=
      countType_none _ _ _ (fun i hi => by
        rcases hdone i hi with h | h <;> simp [h])
    have hk : k = occupied m := by unfold occupied; omega
    have hle : occupied m ≤ m.capacity := countType_le _ _ _
    refine ⟨e, k, h1, h2, hk, by omega, hdone, by omega, fun key v => ?_⟩
    have hcont := hsame.content key v
    constructor
    · rintro ⟨i, hi, hp, hkey, hv⟩
      obtain ⟨j, hj, hl, hjk, hjv⟩ := hcont.1 ⟨i, hi, (live_iff _ _).2 (Or.inr hp), hkey, hv⟩
      rcases (live_iff _ _).1 hl with ho | hpl
      · exact ⟨j, hj, ⟨ho, hjk⟩, hjv⟩
      · exact absurd hpl (hnp j hj)
    · rintro ⟨i, hi, ⟨ho, hkey⟩, hv⟩
      obtain ⟨j, hj, hl, hjk, hjv⟩ := hcont.2 ⟨i, hi, (live_iff _ _).2 (Or.inl ho), hkey, hv⟩
      rcases (live_iff _ _).1 hl with ho2 | hpl
      · rcases hdone j hj with h | h <;> rw [h] at ho2 <;> cases ho2
      · exact ⟨j, hj, hpl, hjk, hjv⟩
  · intro index d d1 b hi hocc hb
    obtain ⟨d1', b', hb', hp, ho, hkeep, _⟩ := walkBody_spec hasher hc hi hocc
    rw [hb] at hb'
    simp only [Option.some.injEq, Prod.mk.injEq] at hb'
    obtain ⟨rfl, rfl⟩ := hb'
    exact ⟨hp, ho, hkeep⟩
  · intro index d e k hi hs
    obtain ⟨e', k', hs', _, _, _, hkeep⟩ := rehashStepSteps_spec hasher hc hi d
    rw [hs] at hs'
    simp only [Option.some.injEq, Prod.mk.injEq] at hs'
    obtain ⟨rfl, rfl⟩ := hs'
    exact hkeep
  · intro newCapacity m1 hg
    obtain ⟨hc1, hle, _, hdata, _, _⟩ := grow_spec hc hg
    refine ⟨hc1, fun i hi hp => ?_, ?_⟩
    · rw [hdata] at hp
      by_cases hlt : i < m.capacity
      · rw [if_neg (by omega)] at hp
        exact hnp i hlt hp
      · rw [if_pos (by omega)] at hp
        cases hp
    · unfold occupied
      rw [show m1.capacity = m.capacity + (m1.capacity - m.capacity) by omega,
        countType_split _ _ _ _ (fun i h1 h2 => by
          rw [hdata, if_pos (by omega)]
          rfl)]
      exact countType_congr _ _ _ _ _ (fun i hi => by rw [hdata, if_neg (by omega)])

end WalkSteps

theorem C27_rehash_walk_witness :
    IsCap sampleTable.capacity ∧ NoPlaced sampleTable ∧
      ∃ e, rehashLoopSteps defaultHash 16 16 sampleTable.data = some (e, 2) ∧
        countType (fun t => decide (t = .PLACED)) e 16 = 2 := by
  obtain ⟨⟨e, k, h1, _, h3, _, _, h6, _⟩, _, _, _⟩ :=
    C27_rehash_walk defaultHash sampleTable sampleTable_wf.cap sampleTable_wf.noPlaced
  have hk : k = 2 := by rw [h3, sampleTable_wf.count]; rfl
  subst hk
  exact ⟨sampleTable_wf.cap, sampleTable_wf.noPlaced, e, h1, h6⟩

/-! ## The collision score and `optimize` -/

section Collision

variable {K V : Type} [DecidableEq K] (hasher : K → Nat)

theorem occupiedSlots_concat (m : HashMap K V) (n : Nat) :
    occupiedSlots m 0 (n + 1) =
      occupiedSlots m 0 n ++ (if (m.data n).type = .OCCUPIED then [n] else []) := by
  unfold occupiedSlots
  rw [List.range'_concat, List.filter_append]
  by_cases h : (m.data n).type = .OCCUPIED
  · simp [h]
  · simp [h]

/-- The displacement in the natural numbers. -/
theorem displacement_nat {m : HashMap K V} (hc : IsCap m.capacity) (i : Nat) :
    displacement hasher m i =
      (i + m.capacity - getHash hasher m (m.data i).key) % m.capacity := by
  have hh := getHash_lt hasher hc (m.data i).key
  unfold displacement
  generalize getHash hasher m (m.data i).key = h at hh ⊢
  generalize m.capacity = c at hh ⊢
  have e1 : ((i : Int) - (h : Int)) % (c : Int) = (((i + c - h : Nat) : Int)) % (c : Int) := by
    rw [Nat.cast_sub (by omega), Nat.cast_add]
    rw [show (i : Int) + (c : Int) - (h : Int) = ((i : Int) - (h : Int)) + (c : Int) by ring]
    rw [Int.add_emod_self]
  rw [e1, ← Int.natCast_mod, Int.toNat_natCast]

theorem displacement_lt {m : HashMap K V} (hc : IsCap m.capacity) (i : Nat) :
    displacement hasher m i < m.capacity := by
  rw [displacement_nat hasher hc]
  exact Nat.mod_lt _ (isCap_pos hc)

/-- The term the loop of `getCollisionScore` adds for slot `i` is the
displacement of its record. -/
theorem collisionTerm_eq {m : HashMap K V} (hc : IsCap m.capacity) {i : Nat}
    (hi : i < m.capacity) :
    BIT_MODULO ((i + (SIZE_MOD - getHash hasher m (m.data i).key % SIZE_MOD)) % SIZE_MOD)
      m.capacity = displacement hasher m i := by
  rw [displacement_nat hasher hc, BIT_MODULO_cap hc]
  have hh := getHash_lt hasher hc (m.data i).key
  generalize getHash hasher m (m.data i).key = h at hh ⊢
  have hle := isCap_le hc
  obtain ⟨e, he, hce⟩ := hc
  generalize m.capacity = c at hi hh hle hce ⊢
  have hS : SIZE_MOD = c * 2 ^ (64 - e) := by
    rw [hce, ← Nat.pow_add, show e + (64 - e) = 64 by omega]
    rfl
  have hq : 1 ≤ 2 ^ (64 - e) := Nat.one_le_two_pow
  have h63 : (2 : Nat) ^ 63 < SIZE_MOD := by unfold SIZE_MOD; norm_num
  rw [Nat.mod_eq_of_lt (show h < SIZE_MOD by omega),
    Nat.mod_mod_of_dvd _ ⟨2 ^ (64 - e), hS⟩]
  obtain ⟨q, hqe⟩ : ∃ q, 2 ^ (64 - e) = q + 1 := ⟨2 ^ (64 - e) - 1, by omega⟩
  rw [hqe, Nat.mul_succ] at hS
  rw [show i + (SIZE_MOD - h) = (i + c - h) + c * q by omega, Nat.add_mul_mod_self_left]

/-- The loop of `getCollisionScore` computes the sum of the displacements of
the `OCCUPIED` slots in `size_t` arithmetic. -/
theorem collisionLoop_eq {m : HashMap K V} (hc : IsCap m.capacity) :
    ∀ n, n ≤ m.capacity →
      collisionLoop hasher m n =
        ((occupiedSlots m 0 n).map (displacement hasher m)).sum % SIZE_MOD := by
  intro n
  induction n with
  | zero => intro _; rfl
  | succ n ih =>
    intro hn
    rw [collisionLoop, occupiedSlots_concat, ih (by omega)]
    by_cases hocc : (m.data n).type = .OCCUPIED
    · rw [if_neg (by simpa using hocc), if_pos hocc, collisionTerm_eq hasher hc (by omega),
        List.map_append, List.sum_append, Nat.mod_add_mod]
      simp
    · rw [if_pos hocc, if_neg hocc]
      simp

theorem collisionSum_le {m : HashMap K V} (hc : IsCap m.capacity) (n : Nat) :
    ((occupiedSlots m 0 n).map (displacement hasher m)).sum ≤
      countType (fun t => decide (t = .OCCUPIED)) m.data n * (m.capacity - 1) := by
  induction n with
  | zero => simp [occupiedSlots, countType]
  | succ n ih =>
    rw [occupiedSlots_concat, countType]
    by_cases hocc : (m.data n).type = .OCCUPIED
    · have := displacement_lt hasher hc n
      rw [if_pos hocc, List.map_append, List.sum_append]
      simp only [hocc, decide_True, if_true, List.map_cons, List.map_nil, List.sum_cons,
        List.sum_nil, Nat.add_zero, Nat.add_mul, Nat.one_mul]
      omega
    · rw [if_neg hocc]
      simp [hocc, ih]

/-- `getCollisionScore` is the sum of the displacements modulo `2^64`, and the
sum itself while the capacity is at most `2^32`. -/
theorem getCollisionScore_eq {m : HashMap K V} (hc : IsCap m.capacity) :
    getCollisionScore hasher m = collisionSum hasher m % SIZE_MOD ∧
      (m.capacity ≤ 2 ^ 32 → getCollisionScore hasher m = collisionSum hasher m) := by
  have h1 : getCollisionScore hasher m = collisionSum hasher m % SIZE_MOD :=
    collisionLoop_eq hasher hc m.capacity (Nat.le_refl _)
  refine ⟨h1, fun hle => ?_⟩
  rw [h1]
  apply Nat.mod_eq_of_lt
  have h2 := collisionSum_le hasher hc m.capacity
  have h3 : countType (fun t => decide (t = .OCCUPIED)) m.data m.capacity ≤ m.capacity :=
    countType_le _ _ _
  have h4 : countType (fun t => decide (t = .OCCUPIED)) m.data m.capacity * (m.capacity - 1) ≤
      2 ^ 32 * 2 ^ 32 := Nat.mul_le_mul (by omega) (by omega)
  have h5 : (2 : Nat) ^ 32 * 2 ^ 32 = SIZE_MOD := by unfold SIZE_MOD; norm_num
  have h6 := isCap_pos hc
  have h7 : countType (fun t => decide (t = .OCCUPIED)) m.data m.capacity * (m.capacity - 1) <
      2 ^ 32 * 2 ^ 32 := by
    rcases Nat.eq_or_lt_of_le hle with heq | hlt
    · calc countType (fun t => decide (t = .OCCUPIED)) m.data m.capacity * (m.capacity - 1)
          ≤ 2 ^ 32 * (m.capacity - 1) := Nat.mul_le_mul_right _ (by omega)
        _ < 2 ^ 32 * 2 ^ 32 := Nat.mul_lt_mul_of_pos_left (by omega) (by norm_num)
    · calc countType (fun t => decide (t = .OCCUPIED)) m.data m.capacity * (m.capacity - 1)
          ≤ m.capacity * (m.capacity - 1) := Nat.mul_le_mul_right _ h3
        _ ≤ m.capacity * 2 ^ 32 := Nat.mul_le_mul_left _ (by omega)
        _ < 2 ^ 32 * 2 ^ 32 := Nat.mul_lt_mul_of_pos_right hlt (by norm_num)
  unfold collisionSum
  omega

theorem optimize_step (s maxCapacity fuel : Nat) (m : HashMap K V) :
    optimize hasher s maxCapacity (fuel + 1) m =
      if getCollisionScore hasher m > s ∧ m.capacity < maxCapacity then
        match rehash hasher m ((m.capacity <<< 1) % SIZE_MOD) with
        | none => none
        | some m1 => optimize hasher s maxCapacity fuel m1
      else some m := rfl

/-- With a limit of at most `2^63` the loop of `optimize` ends within
`64 - e` evaluations of its condition, `2^e` being the capacity. -/
theorem optimize_total (s maxCapacity : Nat) (hmax : maxCapacity ≤ 2 ^ 63) :
    ∀ fuel (m : HashMap K V) (e : Nat), m.capacity = 2 ^ e → e ≤ 63 → 64 - e ≤ fuel →
      ∃ r, optimize hasher s maxCapacity fuel m = some r ∧
        (getCollisionScore hasher r ≤ s ∨ maxCapacity ≤ r.capacity) := by
  intro fuel
  induction fuel with
  | zero => intro m e _ he hf; omega
  | succ f ih =>
    intro m e hce he hf
    rw [optimize_step]
    by_cases hcond : getCollisionScore hasher m > s ∧ m.capacity < maxCapacity
    · rw [if_pos hcond]
      have hlt : 2 ^ e < 2 ^ 63 := by rw [← hce]; omega
      have he62 : e < 63 := (Nat.pow_lt_pow_iff_right (by norm_num)).mp hlt
      have hc : IsCap m.capacity := ⟨e, he, hce⟩
      have hc2 : IsCap (2 ^ (e + 1)) := ⟨e + 1, by omega, rfl⟩
      rw [hce, shift_pow (by omega)]
      obtain ⟨r1, hr1⟩ := rehash_total hasher m (2 ^ (e + 1)) hc (Or.inr (isCap_le hc2))
      have hcap := (rehash_capacity hasher hc hr1).2
        (by rw [hce]; exact Nat.pow_lt_pow_right (by norm_num) (by omega))
      rw [nextPow2_cap hc2] at hcap
      simp only [Option.some.injEq] at hcap
      rw [hr1]
      exact ih r1 (e + 1) hcap.symm (by omega) (by omega)
    · rw [if_neg hcond]
      exact ⟨m, rfl, by omega⟩

end Collision

/-! ### A run of `optimize` with the default limit -/

set_option maxRecDepth 1000000

set_option maxRecDepth 512

theorem getHash_zeroHash {m : HashMap Nat Nat} (hc : IsCap m.capacity) (key : Nat) :
    getHash zeroHash m key = 0 := by
  rw [getHash_eq zeroHash hc]
  exact Nat.zero_mod _

theorem displacement_zeroHash {m : HashMap Nat Nat} (hc : IsCap m.capacity) {i : Nat}
    (hi : i < m.capacity) : displacement zeroHash m i = i := by
  rw [displacement_nat zeroHash hc, getHash_zeroHash hc, Nat.sub_zero, Nat.add_mod_right,
    Nat.mod_eq_of_lt hi]

/-- With every key hashed to 0, a table with two records has a positive
collision score. -/
theorem score_pos_of_two {m : HashMap Nat Nat} (hc : IsCap m.capacity)
    (hcount : occupied m = 2) : 0 < getCollisionScore zeroHash m := by
  have hle := isCap_le hc
  have hpos := isCap_pos hc
  have h63 : 2 * (2 : Nat) ^ 63 = SIZE_MOD := by unfold SIZE_MOD; norm_num
  -- some slot other than 0 is `OCCUPIED`
  have hex : ∃ i, 1 ≤ i ∧ i < m.capacity ∧ (m.data i).type = .OCCUPIED := by
    by_contra hno
    have hsplit := countType_split (fun t => decide (t = .OCCUPIED)) m.data 1 (m.capacity - 1)
      (fun i h1 h2 => by
        simp only [decide_eq_false_iff_not]
        intro ho
        exact hno ⟨i, h1, by omega, ho⟩)
    rw [show 1 + (m.capacity - 1) = m.capacity by omega] at hsplit
    have := countType_le (fun t => decide (t = .OCCUPIED)) m.data 1
    unfold occupied at hcount
    omega
  obtain ⟨i, hi1, hi, hocc⟩ := hex
  have hmem : displacement zeroHash m i ∈
      (occupiedSlots m 0 m.capacity).map (displacement zeroHash m) :=
    List.mem_map_of_mem _ ((mem_occupiedSlots m 0 m.capacity i).2 ⟨⟨by omega, by omega⟩, hocc⟩)
  have hge := List.single_le_sum (fun x _ => Nat.zero_le x) _ hmem
  rw [displacement_zeroHash hc hi] at hge
  have hub := collisionSum_le zeroHash hc m.capacity
  unfold occupied at hcount
  rw [hcount] at hub
  rw [(getCollisionScore_eq zeroHash hc).1]
  unfold collisionSum
  rw [Nat.mod_eq_of_lt (by omega)]
  omega

/-- The second case of `optimize_reach` occurs in the model: with every key
hashed to 0, no budget for collisions and a limit above `2^63`, `optimize`
returns for no fuel on a table with two records, because the score stays
positive up to capacity `2^63`, where `capacity << 1` is 0 and `rehash(0)` keeps
the capacity.  A table of that capacity has more records than a `size_t` can
count bytes, so this is a statement about the model only: a run of the program
ends before, when the allocator can no longer serve it. -/
theorem optimize_never (maxCapacity : Nat) (hmax : 2 ^ 63 < maxCapacity) :
    ∀ fuel (m : HashMap Nat Nat), IsCap m.capacity → NoPlaced m → occupied m = 2 →
      optimize zeroHash 0 maxCapacity fuel m = none := by
  intro fuel
  induction fuel with
  | zero => intro m _ _ _; rfl
  | succ f ih =>
    intro m hc hnp hcount
    have hpos := score_pos_of_two hc hcount
    have hle := isCap_le hc
    rw [optimize_step, if_pos ⟨hpos, by omega⟩]
    have hnew : (m.capacity <<< 1) % SIZE_MOD ≤ m.capacity ∨
        (m.capacity <<< 1) % SIZE_MOD ≤ 2 ^ 63 := by
      obtain ⟨e, he, hce⟩ := hc
      by_cases he62 : e + 1 ≤ 63
      · right
        rw [hce, shift_pow he62]
        exact Nat.pow_le_pow_right (by norm_num) he62
      · left
        have : e = 63 := by omega
        subst this
        rw [hce]
        have : ((2 : Nat) ^ 63 <<< 1) % SIZE_MOD = 0 := by
          unfold SIZE_MOD
          rw [Nat.shiftLeft_eq]
          norm_num
        omega
    obtain ⟨r1, hr1⟩ := rehash_total zeroHash m _ hc hnew
    have hp := rehash_post zeroHash hc hnp hr1
    rw [hr1]
    exact ih r1 hp.cap hp.noPlaced (by rw [hp.count, hcount])

theorem collideTable_wf : WF zeroHash collideTable := by
  refine ⟨isCap_16, by decide, ?_, ?_, ?_, ?_, ?_⟩
  · unfold NoPlaced; decide
  · unfold ProbePath; decide
  · intro i j hi hj
    revert hj; revert j; revert hi; revert i
    decide
  · decide
  · decide

section ClearGravestonesRun

variable {K V : Type} [DecidableEq K] (hasher : K → Nat)

/-- The body of the loop of `clearGravestones` returns at every slot of the
table: when it moves a record, the slot it has just freed ends the probe of
`getUnusedRecord`. -/
theorem clearGravestonesStep_total (m : HashMap K V) (hc : IsCap m.capacity) {i : Nat}
    (hi : i < m.capacity) (d : Bool) :
    ∃ r e, clearGravestonesStep hasher m i d = some (r, e) := by
  unfold clearGravestonesStep
  by_cases h1 : (m.data i).type = .DELETED
  · rw [if_pos h1]; exact ⟨_, _, rfl⟩
  · rw [if_neg h1]
    by_cases h2 : (m.data i).type = .UNUSED
    · rw [if_pos h2]; exact ⟨_, _, rfl⟩
    · rw [if_neg h2]
      by_cases h3 : d = true
      · rw [if_pos h3]
        simp only
        obtain ⟨j, hj⟩ := getUnusedRecord_total hasher
          (m := { m with data := store m.data i ((m.data i).withType .UNUSED) })
          ((store m.data i ((m.data i).withType .UNUSED)) i).key hc
          ⟨i, hi, by
            show ((store m.data i ((m.data i).withType .UNUSED)) i).type ≠ .OCCUPIED
            rw [store_same]
            exact fun h => by cases h⟩
        rw [hj]
        exact ⟨_, _, rfl⟩
      · rw [if_neg h3]; exact ⟨_, _, rfl⟩

/-- Every iteration of the loop of `clearGravestones` is reached: after `n`
iterations the capacity is what it was and the index is below it, so the
condition of the loop holds again. -/
theorem clearGravestonesRun_spec (n : Nat) :
    ∀ (m : HashMap K V) (i : Nat) (d : Bool), IsCap m.capacity → i < m.capacity →
      ∃ r j e, clearGravestonesRun hasher n m i d = some (r, j, e) ∧
        r.capacity = m.capacity ∧ j < r.capacity := by
  induction n with
  | zero => intro m i d _ hi; exact ⟨m, i, d, rfl, rfl, hi⟩
  | succ n ih =>
    intro m i d hc hi
    obtain ⟨m1, e, hstep⟩ := clearGravestonesStep_total hasher m hc hi d
    have hcap := clearGravestonesStep_capacity hasher hstep
    have hc1 : IsCap m1.capacity := by rw [hcap]; exact hc
    have hlt : BIT_MODULO ((i + 1) % SIZE_MOD) m1.capacity < m1.capacity := by
      rw [BIT_MODULO_cap hc1]
      exact Nat.mod_lt _ (isCap_pos hc1)
    obtain ⟨r, j, f, hr, hrc, hj⟩ := ih m1 _ e hc1 hlt
    refine ⟨r, j, f, ?_, by rw [hrc, hcap], hj⟩
    unfold clearGravestonesRun
    rw [if_pos (Or.inl hi), hstep]
    exact hr

theorem clearGravestonesLoop_succ (fuel : Nat) (m : HashMap K V) (i : Nat) (d : Bool) :
    clearGravestonesLoop hasher (fuel + 1) m i d =
      if i < m.capacity ∨ d = true then
        match clearGravestonesStep hasher m i d with
        | none => none
        | some (m1, e) =>
          clearGravestonesLoop hasher fuel m1 (BIT_MODULO ((i + 1) % SIZE_MOD) m1.capacity) e
      else some m := rfl

/-- After `n` iterations the loop of `clearGravestones` goes on from the state
it has reached. -/
theorem clearGravestonesLoop_run (n : Nat) :
    ∀ (m r : HashMap K V) (i j : Nat) (d e : Bool),
      clearGravestonesRun hasher n m i d = some (r, j, e) →
      ∀ f, clearGravestonesLoop hasher (n + f) m i d = clearGravestonesLoop hasher f r j e := by
  induction n with
  | zero =>
    intro m r i j d e h f
    simp only [clearGravestonesRun, Option.some.injEq, Prod.mk.injEq] at h
    obtain ⟨rfl, rfl, rfl⟩ := h
    rw [Nat.zero_add]
  | succ n ih =>
    intro m r i j d e h f
    unfold clearGravestonesRun at h
    rw [show n + 1 + f = (n + f) + 1 by omega, clearGravestonesLoop_succ]
    by_cases hcond : i < m.capacity ∨ d = true
    · rw [if_pos hcond] at h ⊢
      cases hstep : clearGravestonesStep hasher m i d with
      | none => rw [hstep] at h; cases h
      | some p =>
        obtain ⟨m1, e1⟩ := p
        rw [hstep] at h
        exact ih m1 r _ j e1 e h f
    · rw [if_neg hcond] at h
      cases h

end ClearGravestonesRun

/-- C31: on every table whose capacity is a power of two the loop of
`clearGravestones` reaches its `n`-th iteration for every `n`: the body
returns each time, the capacity stays, and the index, which is advanced as
`BIT_MODULO(i + 1, capacity)`, is below the capacity again, so the condition
`i < capacity || deletedGroup` holds; hence the call does not return, whatever
the number of iterations allowed.  So it is on `sampleTable`, which has the
steady-state invariants, capacity 16 and a tombstone, and on `collideTable`,
which has them and no tombstone. -/
theorem C31_clearGravestones_never_ends :
    (∀ (hasher : Nat → Nat) (m : HashMap Nat Nat), IsCap m.capacity →
      (∀ n, ∃ r j e, clearGravestonesRun hasher n m 0 false = some (r, j, e) ∧
        r.capacity = m.capacity ∧ (j < r.capacity ∨ e = true) ∧
        ∀ f, clearGravestonesLoop hasher (n + f) m 0 false =
          clearGravestonesLoop hasher f r j e) ∧
      ∀ fuel, clearGravestones hasher fuel m = none) ∧
    (WF defaultHash sampleTable ∧ sampleTable.capacity = 16 ∧
      (sampleTable.data 3).type = .DELETED ∧
      ∀ fuel, clearGravestones defaultHash fuel sampleTable = none) ∧
    (WF zeroHash collideTable ∧ collideTable.capacity = 16 ∧
      (∀ i, i < 16 → (collideTable.data i).type ≠ .DELETED) ∧
      ∀ fuel, clearGravestones zeroHash fuel collideTable = none) := by
  refine ⟨fun hasher m hc => ⟨fun n => ?_, fun fuel => clearGravestones_never hasher m hc fuel⟩,
    ⟨sampleTable_wf, rfl, by decide,
      fun fuel => clearGravestones_never defaultHash sampleTable sampleTable_wf.cap fuel⟩,
    ⟨collideTable_wf, rfl, by decide,
      fun fuel => clearGravestones_never zeroHash collideTable collideTable_wf.cap fuel⟩⟩
  obtain ⟨r, j, e, hr, hcap, hj⟩ :=
    clearGravestonesRun_spec hasher n m 0 false hc (isCap_pos hc)
  exact ⟨r, j, e, hr, hcap, Or.inl hj, clearGravestonesLoop_run hasher n m r 0 j false e hr⟩

end zsl
